import Mathlib

/-!
# BcmAclTable: reference-counted ACL ranges and statistics counters

A shallow embedding of `fboss/agent/hw/bcm/BcmAclTable.cpp`, of the query members of
`BcmEgress` and `BcmEcmpEgress` in `fboss/agent/hw/bcm/BcmEgress.h`, and of the return
expression of `isHwRouteToCpu` in `fboss/agent/hw/bcm/tests/HwTestRouteUtils.cpp`.

* The three maps of the table (`aclEntryMap_`, `aclRangeMap_`, `aclStatMap_`) are
  association lists kept in key order; `FlatMap` gives them the `find` / `emplace` /
  `erase` interface the source uses.
* A member function that mutates the table becomes a function from the table to the
  table after the call.  A member function that can throw `FbossError` returns the
  `Except` result together with the table as it stands when the call returns or throws,
  so that the state left behind by a failing call can be talked about.
* Reference counts are `uint32_t`: natural numbers with explicit arithmetic modulo `2^32`.
* Calls into the SDK (creating and destroying hardware ranges, counters and entries) are
  assumed to succeed; the collaborator calls the claims speak of (`programmed`,
  `toBeAddedAclStat`, `toBeRemovedAclStat`) are appended to a log.
* Classes that the sources use but do not define (`AclRange`, `AclEntry` and its criteria,
  `BcmWarmBootCache`, the constructors of `BcmAclRange` and `BcmAclStat`) are modelled from
  the specification; their doc comments say so.

The file has the definitions first, then the lemmas and the theorems `C1` to `C16`.
-/

namespace Fboss

/-! ## Ordered association lists (the map interface used by the source) -/

namespace FlatMap

variable {κ ν : Type}

/-- Lookup by key, `map.find(k)`: the value stored under `k`, `none` for `end()`. -/
def find [DecidableEq κ] : List (κ × ν) → κ → Option ν
  | [], _ => none
  | (k', v) :: m, k => if k' = k then some v else find m k

/-- Insertion of a key that is not in the map, at its place in key order. -/
def orderedInsert [LT κ] [DecidableRel (LT.lt : κ → κ → Prop)] (k : κ) (v : ν) :
    List (κ × ν) → List (κ × ν)
  | [] => [(k, v)]
  | (k', v') :: m =>
    if k < k' then (k, v) :: (k', v') :: m else (k', v') :: orderedInsert k v m

/-- The call `map.emplace(k, v)`: inserts only when `k` is absent; the flag is the
`.second` of the returned pair (true when the insertion took place). -/
def emplace [DecidableEq κ] [LT κ] [DecidableRel (LT.lt : κ → κ → Prop)]
    (m : List (κ × ν)) (k : κ) (v : ν) : List (κ × ν) × Bool :=
  match find m k with
  | some _ => (m, false)
  | none => (orderedInsert k v m, true)

/-- The call `map.erase(k)` by key: the map without `k`, and the number of erased
elements. `map.erase(iter)` is the first component at the key of `iter`. -/
def erase [DecidableEq κ] (m : List (κ × ν)) (k : κ) : List (κ × ν) × Nat :=
  (m.filter (fun e => decide (e.1 ≠ k)), (m.filter (fun e => decide (e.1 = k))).length)

/-- Assignment through an iterator, `iter->second = v` with `iter = map.find(k)`. -/
def assign [DecidableEq κ] : List (κ × ν) → κ → ν → List (κ × ν)
  | [], _, _ => []
  | (k', v') :: m, k, v => if k' = k then (k', v) :: m else (k', v') :: assign m k v

end FlatMap

/-! ## Data model -/

/-- Modelled from the spec: the kind of an ACL range ("a range is identified by its kind
and [min,max] bounds"); the class `AclRange` is declared outside the sources at hand. -/
inductive AclRangeKind where
  | SRC_L4_PORT
  | DST_L4_PORT
  | PKT_LEN
deriving DecidableEq, Repr

/-- Position of a kind in the key order. -/
def AclRangeKind.toNat : AclRangeKind → Nat
  | .SRC_L4_PORT => 0
  | .DST_L4_PORT => 1
  | .PKT_LEN => 2

/-- Modelled from the spec: the resource key of a range, `AclRange(kind, min, max)`,
"immutable, totally ordered, used as a map key". -/
structure AclRange where
  flags : AclRangeKind
  min : Nat
  max : Nat
deriving DecidableEq, Repr

/-- Modelled from the spec: the total order of range keys, lexicographic on
kind, lower bound, upper bound. -/
def AclRange.lt (a b : AclRange) : Prop :=
  a.flags.toNat < b.flags.toNat ∨
    (a.flags.toNat = b.flags.toNat ∧ (a.min < b.min ∨ (a.min = b.min ∧ a.max < b.max)))

instance AclRange.instLT : LT AclRange := ⟨AclRange.lt⟩

instance AclRange.decLt : DecidableRel (LT.lt : AclRange → AclRange → Prop) :=
  fun a b => inferInstanceAs (Decidable (a.flags.toNat < b.flags.toNat ∨
    (a.flags.toNat = b.flags.toNat ∧ (a.min < b.min ∨ (a.min = b.min ∧ a.max < b.max)))))

/-- Modelled from the spec: an L4 port range criterion of an ACL entry, with the
accessors the source calls (`getMin`, `getMax`, `isExactMatch`). -/
structure AclL4PortRange where
  getMin : Nat
  getMax : Nat
deriving DecidableEq, Repr

/-- Modelled from the spec: a port range is an exact match when it holds one port. -/
def AclL4PortRange.isExactMatch (r : AclL4PortRange) : Bool := r.getMin == r.getMax

/-- Modelled from the spec: the packet-length range criterion of an ACL entry. -/
structure AclPktLenRange where
  getMin : Nat
  getMax : Nat
deriving DecidableEq, Repr

/-- The named packet counter of an action (`getPacketCounter().value().counterName`). -/
structure PacketCounter where
  counterName : String
deriving DecidableEq, Repr

/-- The action of an ACL entry, as far as the table reads it. -/
structure MatchAction where
  getPacketCounter : Option PacketCounter
deriving DecidableEq, Repr

/-- The software ACL entry, with the accessors `BcmAclTable` calls on it. -/
structure AclEntry where
  getPriority : Int
  getSrcL4PortRange : Option AclL4PortRange
  getDstL4PortRange : Option AclL4PortRange
  getPktLenRange : Option AclPktLenRange
  getAclAction : Option MatchAction
deriving DecidableEq, Repr

/-- Hardware handle of a range object. -/
abbrev BcmAclRangeHandle := Int

/-- Hardware handle of a statistics counter object. -/
abbrev BcmAclStatHandle := Int

/-- The hardware-backed range object held by the range table. -/
structure BcmAclRange where
  getHandle : BcmAclRangeHandle
  range : AclRange
deriving DecidableEq, Repr

/-- The hardware-backed counter object held by the stat table. -/
structure BcmAclStat where
  getHandle : BcmAclStatHandle
  groupId : Int
deriving DecidableEq, Repr

/-- The hardware ACL entry: `BcmAclEntry(hw_, groupId, acl, bcmRanges)`. -/
structure BcmAclEntry where
  groupId : Int
  acl : AclEntry
  bcmRanges : List BcmAclRange
deriving DecidableEq, Repr

/-- A call made on a collaborator reached through `hw_`. -/
inductive HwCall where
  | programmed (range : AclRange)
  | toBeAddedAclStat (handle : BcmAclStatHandle) (name : String)
  | toBeRemovedAclStat (handle : BcmAclStatHandle)
deriving DecidableEq, Repr

/-- Modelled from the spec: the warm boot cache of ranges, "an association between a
previously programmed hardware object and its structural descriptor, with its own
independent use-count left over from the prior process instance". -/
structure BcmWarmBootCache where
  aclRange2BcmAclRangeHandle : List (AclRange × (BcmAclRangeHandle × Nat))
deriving DecidableEq, Repr

/-- Modelled from the spec: `findBcmAclRange`, the probe of the cache by descriptor;
`none` stands for `aclRange2BcmAclRangeHandle_end()`. -/
def BcmWarmBootCache.findBcmAclRange (c : BcmWarmBootCache) (range : AclRange) :
    Option (BcmAclRangeHandle × Nat) :=
  FlatMap.find c.aclRange2BcmAclRangeHandle range

/-- Modelled from the spec: `programmed(iter)` consumes one use of the cache entry: "the
cache's own leftover count for that entry is decremented"; an entry with no use left is
dropped from the cache. -/
def BcmWarmBootCache.programmed (c : BcmWarmBootCache) (range : AclRange) :
    BcmWarmBootCache :=
  match FlatMap.find c.aclRange2BcmAclRangeHandle range with
  | none => c
  | some (h, n) =>
    if n > 1 then ⟨FlatMap.assign c.aclRange2BcmAclRangeHandle range (h, n - 1)⟩
    else ⟨(FlatMap.erase c.aclRange2BcmAclRangeHandle range).1⟩

/-- The switch object `hw_`, as far as the table uses it: the warm boot cache, the source
of fresh hardware handles, and the log of collaborator calls (oldest first). -/
structure BcmSwitch where
  warmBootCache : BcmWarmBootCache
  nextHandle : Int
  calls : List HwCall
deriving DecidableEq, Repr

/-- The call `warmBootCache->programmed(iter)` on the entry of `range`, logged. -/
def BcmSwitch.programmed (hw : BcmSwitch) (range : AclRange) : BcmSwitch :=
  { hw with warmBootCache := hw.warmBootCache.programmed range,
            calls := hw.calls ++ [HwCall.programmed range] }

/-- Modelled from the spec: the constructor `BcmAclRange(hw_, range)`: "each creation first
probes the cache by structural descriptor; a hit means the hardware object already exists
and is reused", and the hit is consumed; "a miss means a genuinely new hardware object
must be created", which gets a hardware-assigned handle. -/
def BcmAclRange.create (hw : BcmSwitch) (range : AclRange) : BcmAclRange × BcmSwitch :=
  match hw.warmBootCache.findBcmAclRange range with
  | some (h, _) => (⟨h, range⟩, hw.programmed range)
  | none => (⟨hw.nextHandle, range⟩, { hw with nextHandle := hw.nextHandle + 1 })

/-- Modelled from the spec: the constructor `BcmAclStat(hw_, groupId)` creates a new
hardware counter, which gets a hardware-assigned handle. -/
def BcmAclStat.create (hw : BcmSwitch) (groupId : Int) : BcmAclStat × BcmSwitch :=
  (⟨hw.nextHandle, groupId⟩, { hw with nextHandle := hw.nextHandle + 1 })

/-- Modelled from the spec: the number of values of a reference count, which the getters
return as `uint32_t`. -/
def refCountModulus : Nat := 2 ^ 32

/-- The increment `count++` of a `uint32_t`. -/
def incCount (c : Nat) : Nat := (c + 1) % refCountModulus

/-- The decrement `count--` of a `uint32_t`. -/
def decCount (c : Nat) : Nat := (c + (refCountModulus - 1)) % refCountModulus

/-- The state of a `BcmAclTable`. -/
structure BcmAclTable where
  hw_ : BcmSwitch
  aclEntryMap_ : List (Int × BcmAclEntry)
  aclRangeMap_ : List (AclRange × (BcmAclRange × Nat))
  aclStatMap_ : List (String × (BcmAclStat × Nat))
deriving DecidableEq, Repr

/-- A freshly constructed table on the switch `hw`: the three maps are empty. -/
def BcmAclTable.init (hw : BcmSwitch) : BcmAclTable := ⟨hw, [], [], []⟩

/-! ## Operations of `BcmAclTable` -/

/-- Sequencing of two statements that may throw: when the first throws, the call ends
there with the table as it is; otherwise the rest runs on the table the first left. -/
def andThen {α β : Type} (s : Except String α × BcmAclTable)
    (rest : BcmAclTable → Except String β × BcmAclTable) : Except String β × BcmAclTable :=
  match s with
  | (.error e, t) => (.error e, t)
  | (.ok _, t) => rest t

namespace BcmAclTable

/-- Source `BcmAclTable::releaseAcls`. -/
def releaseAcls (t : BcmAclTable) : BcmAclTable :=
  -- AclEntries must be removed before the AclStats
  let t := { t with aclEntryMap_ := [] }
  let t := { t with aclStatMap_ := [] }
  { t with aclRangeMap_ := [] }

/-- Source `BcmAclTable::getAclIf`; `none` is the null pointer. -/
def getAclIf (t : BcmAclTable) (priority : Int) : Option BcmAclEntry :=
  FlatMap.find t.aclEntryMap_ priority

/-- Source `BcmAclTable::getAclRangeIf`; `none` is the null pointer. -/
def getAclRangeIf (t : BcmAclTable) (range : AclRange) : Option BcmAclRange :=
  match FlatMap.find t.aclRangeMap_ range with
  | none => none
  | some e => some e.1

/-- Source `BcmAclTable::getAclRangeRefCount`. -/
def getAclRangeRefCount (t : BcmAclTable) (range : AclRange) : Nat :=
  match FlatMap.find t.aclRangeMap_ range with
  | none => 0
  | some e => e.2

/-- The loop of `getAclRangeRefCountIf` over the map from `begin()`. -/
def getAclRangeRefCountIfLoop (handle : BcmAclRangeHandle) :
    List (AclRange × (BcmAclRange × Nat)) → Option Nat
  | [] => none
  | e :: m => if e.2.1.getHandle = handle then some e.2.2 else getAclRangeRefCountIfLoop handle m

/-- Source `BcmAclTable::getAclRangeRefCountIf`. -/
def getAclRangeRefCountIf (t : BcmAclTable) (handle : BcmAclRangeHandle) : Option Nat :=
  getAclRangeRefCountIfLoop handle t.aclRangeMap_

/-- Source `BcmAclTable::getAclRangeCount`. -/
def getAclRangeCount (t : BcmAclTable) : Nat := t.aclRangeMap_.length % refCountModulus

/-- Source `BcmAclTable::incRefOrCreateBcmAclRange`. -/
def incRefOrCreateBcmAclRange (t : BcmAclTable) (range : AclRange) :
    BcmAclRange × BcmAclTable :=
  match FlatMap.find t.aclRangeMap_ range with
  | none =>
    -- If the range does not exist yet, create a new BcmAclRange
    let created := BcmAclRange.create t.hw_ range
    (created.1, { t with hw_ := created.2,
                         aclRangeMap_ := (FlatMap.emplace t.aclRangeMap_ range (created.1, 1)).1 })
  | some e =>
    -- If the range also exists in warmboot cache, call programmed()
    let hw := match t.hw_.warmBootCache.findBcmAclRange range with
      | some _ => t.hw_.programmed range
      | none => t.hw_
    -- Increase the reference count of the existing entry in BcmAclTable
    (e.1, { t with hw_ := hw,
                   aclRangeMap_ := FlatMap.assign t.aclRangeMap_ range (e.1, incCount e.2) })

/-- Source `BcmAclTable::derefBcmAclRange`; the table in the result is the table when the
call returns or throws. -/
def derefBcmAclRange (t : BcmAclTable) (range : AclRange) :
    Except String (Option BcmAclRange) × BcmAclTable :=
  match FlatMap.find t.aclRangeMap_ range with
  | none => (.error "decrease reference count on a non-existing BcmAclRange", t)
  | some e =>
    if e.2 = 0 then (.error "dereference a BcmAclRange whose reference is 0", t)
    else if decCount e.2 = 0 then
      (.ok none, { t with aclRangeMap_ := (FlatMap.erase t.aclRangeMap_ range).1 })
    else
      (.ok (some e.1),
        { t with aclRangeMap_ := FlatMap.assign t.aclRangeMap_ range (e.1, decCount e.2) })

/-- Source `BcmAclTable::incRefOrCreateBcmAclStat`. -/
def incRefOrCreateBcmAclStat (t : BcmAclTable) (groupId : Int) (name : String) :
    BcmAclStat × BcmAclTable :=
  match FlatMap.find t.aclStatMap_ name with
  | none =>
    -- if the stat does not exist, create a new one
    let created := BcmAclStat.create t.hw_ groupId
    let hw := { created.2 with
      calls := created.2.calls ++ [HwCall.toBeAddedAclStat created.1.getHandle name] }
    (created.1, { t with hw_ := hw,
                         aclStatMap_ := (FlatMap.emplace t.aclStatMap_ name (created.1, 1)).1 })
  | some e =>
    (e.1, { t with aclStatMap_ := FlatMap.assign t.aclStatMap_ name (e.1, incCount e.2) })

/-- Source `BcmAclTable::derefBcmAclStat`; the table in the result is the table when the
call returns or throws. -/
def derefBcmAclStat (t : BcmAclTable) (name : String) : Except String Unit × BcmAclTable :=
  match FlatMap.find t.aclStatMap_ name with
  | none =>
    (.error ("Tried to decrease reference count on a non-existing BcmAclStat, name=" ++ name), t)
  | some e =>
    if decCount e.2 = 0 then
      let hw := { t.hw_ with calls := t.hw_.calls ++ [HwCall.toBeRemovedAclStat e.1.getHandle] }
      (.ok (), { t with hw_ := hw, aclStatMap_ := (FlatMap.erase t.aclStatMap_ name).1 })
    else
      (.ok (), { t with aclStatMap_ := FlatMap.assign t.aclStatMap_ name (e.1, decCount e.2) })

/-- Source `BcmAclTable::getAclStatIf`; `none` is the null pointer. -/
def getAclStatIf (t : BcmAclTable) (name : String) : Option BcmAclStat :=
  match FlatMap.find t.aclStatMap_ name with
  | none => none
  | some e => some e.1

/-- Source `BcmAclTable::getAclStatRefCount`. -/
def getAclStatRefCount (t : BcmAclTable) (name : String) : Nat :=
  match FlatMap.find t.aclStatMap_ name with
  | none => 0
  | some e => e.2

/-- Source `BcmAclTable::getAclStatCount`. -/
def getAclStatCount (t : BcmAclTable) : Nat := t.aclStatMap_.length % refCountModulus

/-- Source `BcmAclTable::processAddedAcl`; the table in the result is the table when the
call returns or throws. -/
def processAddedAcl (t : BcmAclTable) (groupId : Int) (acl : AclEntry) :
    Except String Unit × BcmAclTable :=
  -- check if range exists
  let s0 : List BcmAclRange × BcmAclTable := ([], t)
  let s1 : List BcmAclRange × BcmAclTable :=
    match acl.getSrcL4PortRange with
    | some r =>
      if !r.isExactMatch then
        let p := incRefOrCreateBcmAclRange s0.2 ⟨.SRC_L4_PORT, r.getMin, r.getMax⟩
        (s0.1 ++ [p.1], p.2)
      else s0
    | none => s0
  let s2 : List BcmAclRange × BcmAclTable :=
    match acl.getDstL4PortRange with
    | some r =>
      if !r.isExactMatch then
        let p := incRefOrCreateBcmAclRange s1.2 ⟨.DST_L4_PORT, r.getMin, r.getMax⟩
        (s1.1 ++ [p.1], p.2)
      else s1
    | none => s1
  let s3 : List BcmAclRange × BcmAclTable :=
    match acl.getPktLenRange with
    | some r =>
      let p := incRefOrCreateBcmAclRange s2.2 ⟨.PKT_LEN, r.getMin, r.getMax⟩
      (s2.1 ++ [p.1], p.2)
    | none => s2
  -- check if stat exists
  let t4 : BcmAclTable :=
    match acl.getAclAction with
    | some action =>
      match action.getPacketCounter with
      | some pc => (incRefOrCreateBcmAclStat s3.2 groupId pc.counterName).2
      | none => s3.2
    | none => s3.2
  -- create the new bcm acl entry and add it to the table
  let bcmAcl : BcmAclEntry := ⟨groupId, acl, s3.1⟩
  let entry := FlatMap.emplace t4.aclEntryMap_ acl.getPriority bcmAcl
  let t5 := { t4 with aclEntryMap_ := entry.1 }
  if !entry.2 then (.error "failed to add an existing acl entry", t5) else (.ok (), t5)

/-- Source `BcmAclTable::processRemovedAcl`; the table in the result is the table when the
call returns or throws. -/
def processRemovedAcl (t : BcmAclTable) (acl : AclEntry) : Except String Unit × BcmAclTable :=
  -- remove the bcm acl entry first
  let erased := FlatMap.erase t.aclEntryMap_ acl.getPriority
  let t0 := { t with aclEntryMap_ := erased.1 }
  if erased.2 = 0 then (.error "failed to erase an existing bcm acl entry", t0) else
  -- remove unused stats
  andThen
    (match acl.getAclAction with
      | some action =>
        match action.getPacketCounter with
        | some pc => derefBcmAclStat t0 pc.counterName
        | none => (.ok (), t0)
      | none => (.ok (), t0)) fun t1 =>
  -- remove unused ranges
  andThen
    (match acl.getSrcL4PortRange with
      | some r =>
        if !r.isExactMatch then derefBcmAclRange t1 ⟨.SRC_L4_PORT, r.getMin, r.getMax⟩
        else (.ok none, t1)
      | none => (.ok none, t1)) fun t2 =>
  andThen
    (match acl.getDstL4PortRange with
      | some r =>
        if !r.isExactMatch then derefBcmAclRange t2 ⟨.DST_L4_PORT, r.getMin, r.getMax⟩
        else (.ok none, t2)
      | none => (.ok none, t2)) fun t3 =>
  andThen
    (match acl.getPktLenRange with
      | some r => derefBcmAclRange t3 ⟨.PKT_LEN, r.getMin, r.getMax⟩
      | none => (.ok none, t3)) fun t4 =>
  (.ok (), t4)

/-! ## Sequences of calls -/

/-- The range keys an entry makes `processAddedAcl` acquire and `processRemovedAcl`
release, in the order of the three blocks of the source. -/
def aclRangeKeys (acl : AclEntry) : List AclRange :=
  (match acl.getSrcL4PortRange with
    | some r => if !r.isExactMatch then [⟨.SRC_L4_PORT, r.getMin, r.getMax⟩] else []
    | none => []) ++
  (match acl.getDstL4PortRange with
    | some r => if !r.isExactMatch then [⟨.DST_L4_PORT, r.getMin, r.getMax⟩] else []
    | none => []) ++
  (match acl.getPktLenRange with
    | some r => [⟨.PKT_LEN, r.getMin, r.getMax⟩]
    | none => [])

/-- The counter name an entry makes `processAddedAcl` acquire and `processRemovedAcl`
release: the name of the packet counter of its action. -/
def aclCounterName (acl : AclEntry) : Option String :=
  match acl.getAclAction with
  | some action =>
    match action.getPacketCounter with
    | some pc => some pc.counterName
    | none => none
  | none => none

/-- Successive `incRefOrCreateBcmAclRange` calls on a list of keys, collecting the range
objects. -/
def acquireRanges (t : BcmAclTable) : List AclRange → List BcmAclRange × BcmAclTable
  | [] => ([], t)
  | r :: rs =>
    let p := incRefOrCreateBcmAclRange t r
    let q := acquireRanges p.2 rs
    (p.1 :: q.1, q.2)

/-- Successive `derefBcmAclRange` calls on a list of keys, stopping at the first throw. -/
def releaseRanges (t : BcmAclTable) : List AclRange → Except String Unit × BcmAclTable
  | [] => (.ok (), t)
  | r :: rs => andThen (derefBcmAclRange t r) fun t1 => releaseRanges t1 rs

/-- A call of one of the mutating public operations of the table. -/
inductive AclTableOp where
  | processAddedAcl (groupId : Int) (acl : AclEntry)
  | processRemovedAcl (acl : AclEntry)
  | releaseAcls
deriving DecidableEq, Repr

/-- The table after a call, whether the call returned or threw. -/
def applyOp (t : BcmAclTable) : AclTableOp → BcmAclTable
  | .processAddedAcl groupId acl => (processAddedAcl t groupId acl).2
  | .processRemovedAcl acl => (processRemovedAcl t acl).2
  | .releaseAcls => releaseAcls t

/-- The table after a sequence of calls. -/
def run (t : BcmAclTable) (ops : List AclTableOp) : BcmAclTable := ops.foldl applyOp t

/-- No reference count that `processAddedAcl t _ acl` increments is at the maximum of
`uint32_t`: none of the increments wraps around. -/
def NoWrapOnAdd (t : BcmAclTable) (acl : AclEntry) : Prop :=
  (∀ r ∈ aclRangeKeys acl, getAclRangeRefCount t r + 1 < refCountModulus) ∧
  (∀ name ∈ aclCounterName acl, getAclStatRefCount t name + 1 < refCountModulus)

/-- No call of the sequence, started on `t`, makes a reference count wrap around: every
key has fewer than `2^32` users at any time. -/
def NoWrap (t : BcmAclTable) : List AclTableOp → Prop
  | [] => True
  | op :: ops =>
    (match op with
      | .processAddedAcl _ acl => NoWrapOnAdd t acl
      | _ => True) ∧ NoWrap (applyOp t op) ops

/-- An acquire (`incRefOrCreate...`, with the group id the stat variant takes) or a
release (`deref...`) of one fixed key. -/
inductive RefOp where
  | acquire (groupId : Int)
  | release
deriving DecidableEq, Repr

/-- Number of acquires in a sequence. -/
def acquires : List RefOp → Nat
  | [] => 0
  | .acquire _ :: ops => acquires ops + 1
  | .release :: ops => acquires ops

/-- Number of releases in a sequence. -/
def releases : List RefOp → Nat
  | [] => 0
  | .acquire _ :: ops => releases ops
  | .release :: ops => releases ops + 1

/-- One acquire or release of the range key `range`. -/
def applyRangeOp (range : AclRange) (t : BcmAclTable) : RefOp → BcmAclTable
  | .acquire _ => (incRefOrCreateBcmAclRange t range).2
  | .release => (derefBcmAclRange t range).2

/-- One acquire or release of the counter name `name`. -/
def applyStatOp (name : String) (t : BcmAclTable) : RefOp → BcmAclTable
  | .acquire groupId => (incRefOrCreateBcmAclStat t groupId name).2
  | .release => (derefBcmAclStat t name).2

/-- A sequence on the range key `range`, started on `t`, issues no release while the key
is absent and no acquire that would take the count to `2^32`. -/
def ValidRangeOps (range : AclRange) (t : BcmAclTable) : List RefOp → Prop
  | [] => True
  | .acquire g :: ops =>
    getAclRangeRefCount t range + 1 < refCountModulus ∧
      ValidRangeOps range (applyRangeOp range t (.acquire g)) ops
  | .release :: ops =>
    getAclRangeIf t range ≠ none ∧ ValidRangeOps range (applyRangeOp range t .release) ops

/-- A sequence on the counter name `name`, started on `t`, issues no release while the
name is absent and no acquire that would take the count to `2^32`. -/
def ValidStatOps (name : String) (t : BcmAclTable) : List RefOp → Prop
  | [] => True
  | .acquire g :: ops =>
    getAclStatRefCount t name + 1 < refCountModulus ∧
      ValidStatOps name (applyStatOp name t (.acquire g)) ops
  | .release :: ops =>
    getAclStatIf t name ≠ none ∧ ValidStatOps name (applyStatOp name t .release) ops

/-- Number of `programmed` calls on the cache entry of `range` logged so far. -/
def programmedCount (t : BcmAclTable) (range : AclRange) : Nat :=
  t.hw_.calls.count (HwCall.programmed range)

/-- The table after `n` successive `incRefOrCreateBcmAclRange` calls on `range`. -/
def acquireTimes (range : AclRange) (t : BcmAclTable) : Nat → BcmAclTable
  | 0 => t
  | n + 1 => acquireTimes range (incRefOrCreateBcmAclRange t range).2 n

/-- The body of `processAddedAcl` with its three range blocks read as one pass over
`aclRangeKeys acl`; `processAddedAcl_eq` shows it is the same function. -/
def processAddedAclOnKeys (t : BcmAclTable) (groupId : Int) (acl : AclEntry) :
    Except String Unit × BcmAclTable :=
  let s3 := acquireRanges t (aclRangeKeys acl)
  let t4 : BcmAclTable :=
    match aclCounterName acl with
    | some name => (incRefOrCreateBcmAclStat s3.2 groupId name).2
    | none => s3.2
  let entry := FlatMap.emplace t4.aclEntryMap_ acl.getPriority ⟨groupId, acl, s3.1⟩
  let t5 := { t4 with aclEntryMap_ := entry.1 }
  if !entry.2 then (.error "failed to add an existing acl entry", t5) else (.ok (), t5)

/-- The body of `processRemovedAcl` with its three range blocks read as one pass over
`aclRangeKeys acl`; `processRemovedAcl_eq` shows it is the same function. -/
def processRemovedAclOnKeys (t : BcmAclTable) (acl : AclEntry) :
    Except String Unit × BcmAclTable :=
  let erased := FlatMap.erase t.aclEntryMap_ acl.getPriority
  let t0 := { t with aclEntryMap_ := erased.1 }
  if erased.2 = 0 then (.error "failed to erase an existing bcm acl entry", t0) else
  andThen
    (match aclCounterName acl with
      | some name => derefBcmAclStat t0 name
      | none => (.ok (), t0)) fun t1 =>
  releaseRanges t1 (aclRangeKeys acl)

/-- Every reference count stored in the range table and in the stat table is a `uint32_t`
value that is at least 1. -/
def CountsPositive (t : BcmAclTable) : Prop :=
  (∀ x ∈ t.aclRangeMap_, 1 ≤ x.2.2 ∧ x.2.2 < refCountModulus) ∧
  (∀ x ∈ t.aclStatMap_, 1 ≤ x.2.2 ∧ x.2.2 < refCountModulus)

/-! ## Concrete inputs -/

/-- A switch with an empty warm boot cache and no collaborator call logged. -/
def sampleSwitch : BcmSwitch := ⟨⟨[]⟩, 1000, []⟩

/-- An entry of priority `p` without any range or action. -/
def bareEntry (p : Int) : AclEntry := ⟨p, none, none, none, none⟩

/-- An entry of priority `p` whose only criterion is the packet-length range [64,64], a
range of one length. -/
def pktLenEntry (p : Int) : AclEntry := ⟨p, none, none, some ⟨64, 64⟩, none⟩

/-- An entry of priority `p` with the source port range [100,200] and the packet counter
"cnt1", and no other range-bearing criterion. -/
def sampleEntry (p : Int) : AclEntry :=
  ⟨p, some ⟨100, 200⟩, none, none, some ⟨some ⟨"cnt1"⟩⟩⟩

/-- The tables after each of the three statements of `releaseAcls`, in the order of the
source: the entries are cleared first, then the stats, then the ranges. -/
def releaseAclsSteps (t : BcmAclTable) : List BcmAclTable :=
  let t1 := { t with aclEntryMap_ := [] }
  let t2 := { t1 with aclStatMap_ := [] }
  let t3 := { t2 with aclRangeMap_ := [] }
  [t1, t2, t3]

/-- Number of `toBeAddedAclStat` calls logged so far. -/
def statAddedCount (t : BcmAclTable) : Nat :=
  t.hw_.calls.countP (fun c => match c with | .toBeAddedAclStat _ _ => true | _ => false)

/-- Number of `toBeRemovedAclStat` calls logged so far. -/
def statRemovedCount (t : BcmAclTable) : Nat :=
  t.hw_.calls.countP (fun c => match c with | .toBeRemovedAclStat _ => true | _ => false)

/-- The table after a sequence of acquires and releases of the counter name `name`. -/
def runStatOps (name : String) (t : BcmAclTable) (ops : List RefOp) : BcmAclTable :=
  ops.foldl (applyStatOp name) t

/-- The table after a sequence of acquires and releases of the range key `range`. -/
def runRangeOps (range : AclRange) (t : BcmAclTable) (ops : List RefOp) : BcmAclTable :=
  ops.foldl (applyRangeOp range) t

/-- A sequence on the counter name `name`, started on `t`, issues no release while the
name is absent. -/
def NoStatReleaseWhileAbsent (name : String) (t : BcmAclTable) : List RefOp → Prop
  | [] => True
  | .acquire g :: ops => NoStatReleaseWhileAbsent name (applyStatOp name t (.acquire g)) ops
  | .release :: ops =>
    getAclStatIf t name ≠ none ∧ NoStatReleaseWhileAbsent name (applyStatOp name t .release) ops

/-- A switch whose warm boot cache holds the range [100,200] of source ports with handle 7
and leftover use-count 3. -/
def cachedSwitch : BcmSwitch := ⟨⟨[(⟨.SRC_L4_PORT, 100, 200⟩, (7, 3))]⟩, 1000, []⟩

/-- The result of a call: `.ok ()` when it returns, the error when it throws. -/
def opResult (t : BcmAclTable) : AclTableOp → Except String Unit
  | .processAddedAcl groupId acl => (processAddedAcl t groupId acl).1
  | .processRemovedAcl acl => (processRemovedAcl t acl).1
  | .releaseAcls => .ok ()

/-- Every call of the sequence, started on `t`, returns without throwing. -/
def AllReturn (t : BcmAclTable) : List AclTableOp → Prop
  | [] => True
  | op :: ops => opResult t op = .ok () ∧ AllReturn (applyOp t op) ops

/-- The sequence of `n` calls `processAddedAcl(1, sampleEntry p)` for the priorities
`first`, `first + 1`, ..., `first + n - 1`: `n` entries that share the range [100,200] and
the counter "cnt1". -/
def sharedAdds (first : Int) : Nat → List AclTableOp
  | 0 => []
  | n + 1 => .processAddedAcl 1 (sampleEntry first) :: sharedAdds (first + 1) n

/-- A table that holds the source port ranges [100,200] (handle 7, count 2) and [300,400]
(handle 8, count 1). -/
def twoRangeTable : BcmAclTable :=
  ⟨sampleSwitch, [],
    [(⟨.SRC_L4_PORT, 100, 200⟩, (⟨7, ⟨.SRC_L4_PORT, 100, 200⟩⟩, 2)),
      (⟨.SRC_L4_PORT, 300, 400⟩, (⟨8, ⟨.SRC_L4_PORT, 300, 400⟩⟩, 1))], []⟩

/-- The calls of `sharedAdds first n` followed by `processRemovedAcl` of an entry of
priority `first` that carries no range and no counter: the call erases the entry of that
priority and releases nothing. -/
def wrapThenFree (first : Int) (n : Nat) : List AclTableOp :=
  sharedAdds first n ++ [.processRemovedAcl (bareEntry first)]

/-- An entry of priority `p` with the source port range [100,200] and the packet counter
"cnt1", like `sampleEntry p`, and the destination port range [300,400] besides. -/
def twoRangeEntry (p : Int) : AclEntry :=
  ⟨p, some ⟨100, 200⟩, some ⟨300, 400⟩, none, some ⟨some ⟨"cnt1"⟩⟩⟩

/-- The sequence of `n` calls `processAddedAcl(1, sampleEntry p)`, all with the same entry:
on a table without priority `p` the first call adds the entry and the later ones are
rejected. -/
def repeatedAdds (p : Int) : Nat → List AclTableOp
  | 0 => []
  | n + 1 => .processAddedAcl 1 (sampleEntry p) :: repeatedAdds p n

end BcmAclTable

/-! ## Egress objects (`BcmEgress.h`) -/

/-- A MAC address, as its 48-bit value. -/
abbrev MacAddress := Nat

/-- An MPLS label (`bcm_mpls_label_t`). -/
abbrev BcmMplsLabel := Nat

/-- The single-path egress object `BcmEgress`, with the members its queries read. -/
structure BcmEgress where
  id_ : Int
  mac_ : MacAddress
  intfId_ : Int
deriving DecidableEq, Repr

/-- The multipath egress object `BcmEcmpEgress`; `paths_` is the multiset of egress ids. -/
structure BcmEcmpEgress where
  id_ : Int
  paths_ : List Int
deriving DecidableEq, Repr

/-- Source `BcmEgress::isEcmp`. -/
def BcmEgress.isEcmp (_e : BcmEgress) : Bool := false

/-- Source `BcmEgress::hasLabel`. -/
def BcmEgress.hasLabel (_e : BcmEgress) : Bool := false

/-- Source `BcmEgress::getLabel`: always throws. -/
def BcmEgress.getLabel (_e : BcmEgress) : Except String BcmMplsLabel :=
  .error "labeled requested on unlabeled egress"

/-- Source `BcmEgress::getMac`. -/
def BcmEgress.getMac (e : BcmEgress) : Except String MacAddress := .ok e.mac_

/-- Source `BcmEcmpEgress::isEcmp`. -/
def BcmEcmpEgress.isEcmp (_e : BcmEcmpEgress) : Bool := true

/-- Source `BcmEcmpEgress::hasLabel`. -/
def BcmEcmpEgress.hasLabel (_e : BcmEcmpEgress) : Bool := false

/-- Source `BcmEcmpEgress::getLabel`: always throws. -/
def BcmEcmpEgress.getLabel (_e : BcmEcmpEgress) : Except String BcmMplsLabel :=
  .error "labeled requested on multipath egress"

/-- Source `BcmEcmpEgress::getMac`: always throws. -/
def BcmEcmpEgress.getMac (_e : BcmEcmpEgress) : Except String MacAddress :=
  .error "mac requested on multipath egress"

/-! ## Route queries of the hardware tests (`HwTestRouteUtils.cpp`) -/

/-- The return expression of source `isHwRouteToCpu`,
`(egress.flags & BCM_L3_L2TOCPU) && (egress.flags | BCM_L3_COPY_TO_CPU)`, on the flags
word read back for the egress of the route. The two SDK masks are parameters; an integer
operand of `&&` counts as true when it is not zero. -/
def isHwRouteToCpu (l2ToCpuMask copyToCpuMask flags : Nat) : Bool :=
  ((flags &&& l2ToCpuMask) != 0) && ((flags ||| copyToCpuMask) != 0)


end Fboss

/-! # Lemmas and theorems -/

namespace Fboss

open BcmAclTable

/-! ## Lemmas on the map interface -/

namespace FlatMap
variable {κ ν : Type}

theorem find_orderedInsert_ne [DecidableEq κ] [LT κ] [DecidableRel (LT.lt : κ → κ → Prop)]
    (m : List (κ × ν)) (k k' : κ) (v : ν) (h : k ≠ k') :
    find (orderedInsert k v m) k' = find m k' := by
  induction m with
  | nil => simp [orderedInsert, find, h]
  | cons e m ih =>
    obtain ⟨a, b⟩ := e
    simp only [orderedInsert]
    split_ifs with hlt
    · simp [find, h]
    · simp [find, ih]

theorem find_orderedInsert_self [DecidableEq κ] [LT κ] [DecidableRel (LT.lt : κ → κ → Prop)]
    (m : List (κ × ν)) (k : κ) (v : ν) (h : find m k = none) :
    find (orderedInsert k v m) k = some v := by
  induction m with
  | nil => simp [orderedInsert, find]
  | cons e m ih =>
    obtain ⟨a, b⟩ := e
    simp only [find] at h
    split_ifs at h with hak
    simp only [orderedInsert]
    split_ifs with hlt
    · simp [find]
    · simp [find, hak, ih h]

theorem find_erase [DecidableEq κ] (m : List (κ × ν)) (k k' : κ) :
    find (erase m k).1 k' = if k' = k then none else find m k' := by
  induction m with
  | nil => simp [erase, find]
  | cons e m ih =>
    obtain ⟨a, b⟩ := e
    simp only [erase] at ih ⊢
    by_cases hak : a = k
    · subst hak
      simp only [List.filter, ne_eq, not_true_eq_false, decide_False, ih, find]
      split_ifs with h1 h2 <;> simp_all
    · simp only [List.filter, ne_eq, hak, not_false_eq_true, decide_True, find, ih]
      split_ifs with h1 h2 <;> simp_all

theorem erase_count_eq_zero [DecidableEq κ] (m : List (κ × ν)) (k : κ) :
    (erase m k).2 = 0 ↔ find m k = none := by
  induction m with
  | nil => simp [erase, find]
  | cons e m ih =>
    obtain ⟨a, b⟩ := e
    simp only [erase] at ih ⊢
    by_cases hak : a = k
    · simp [List.filter, hak, find]
    · simp [List.filter, hak, find, ih]

theorem find_assign [DecidableEq κ] (m : List (κ × ν)) (k k' : κ) (v : ν) :
    find (assign m k v) k' = if k' = k then (find m k).map (fun _ => v) else find m k' := by
  induction m with
  | nil => simp [assign, find]
  | cons e m ih =>
    obtain ⟨a, b⟩ := e
    simp only [assign]
    by_cases hak : a = k
    · subst hak
      by_cases h : k' = a
      · subst h; simp [find]
      · have h2 : ¬ a = k' := fun hh => h hh.symm
        simp [find, h, h2]
    · by_cases h : k' = k
      · subst h; simp [find, hak, ih]
      · simp [find, hak, h, ih]


theorem mem_orderedInsert [LT κ] [DecidableRel (LT.lt : κ → κ → Prop)]
    (m : List (κ × ν)) (k : κ) (v : ν) (e : κ × ν) :
    e ∈ orderedInsert k v m ↔ e = (k, v) ∨ e ∈ m := by
  induction m with
  | nil => simp [orderedInsert]
  | cons a m ih =>
    obtain ⟨a, b⟩ := a
    simp only [orderedInsert]
    split_ifs with hlt
    · simp
    · simp only [List.mem_cons, ih]
      tauto

theorem mem_assign [DecidableEq κ] (m : List (κ × ν)) (k : κ) (v : ν) (e : κ × ν)
    (h : e ∈ assign m k v) : e = (k, v) ∨ e ∈ m := by
  induction m with
  | nil => simp [assign] at h
  | cons a m ih =>
    obtain ⟨a, b⟩ := a
    simp only [assign] at h
    split_ifs at h with hak
    · subst hak
      simp only [List.mem_cons] at h ⊢
      tauto
    · simp only [List.mem_cons] at h ⊢
      rcases h with h | h
      · exact Or.inr (Or.inl h)
      · rcases ih h with h | h
        · exact Or.inl h
        · exact Or.inr (Or.inr h)

theorem mem_erase [DecidableEq κ] (m : List (κ × ν)) (k : κ) (e : κ × ν)
    (h : e ∈ (erase m k).1) : e ∈ m := by
  simp only [erase, List.mem_filter] at h
  exact h.1

theorem find_mem [DecidableEq κ] (m : List (κ × ν)) (k : κ) (v : ν)
    (h : find m k = some v) : (k, v) ∈ m := by
  induction m with
  | nil => simp [find] at h
  | cons a m ih =>
    obtain ⟨a, b⟩ := a
    simp only [find] at h
    split_ifs at h with hak
    · subst hak
      simp only [Option.some.injEq] at h
      subst h
      exact List.mem_cons_self _ _
    · exact List.mem_cons_of_mem _ (ih h)

theorem erase_of_find_none [DecidableEq κ] (m : List (κ × ν)) (k : κ)
    (h : find m k = none) : (erase m k).1 = m := by
  induction m with
  | nil => simp [erase]
  | cons a m ih =>
    obtain ⟨a, b⟩ := a
    simp only [find] at h
    split_ifs at h with hak
    simp only [erase] at ih ⊢
    rw [List.filter_cons, if_pos (by simpa using hak), ih h]

theorem find_emplace [DecidableEq κ] [LT κ] [DecidableRel (LT.lt : κ → κ → Prop)]
    (m : List (κ × ν)) (k k' : κ) (v : ν) :
    find (emplace m k v).1 k' =
      if k' = k then (match find m k with | some w => some w | none => some v) else find m k' := by
  unfold emplace
  cases h : find m k with
  | some w =>
    by_cases hk : k' = k
    · subst hk; simp [h]
    · simp [hk]
  | none =>
    by_cases hk : k' = k
    · subst hk; simp [find_orderedInsert_self m k' v h]
    · simp [hk, find_orderedInsert_ne m k k' v (fun hh => hk hh.symm)]

theorem emplace_inserted [DecidableEq κ] [LT κ] [DecidableRel (LT.lt : κ → κ → Prop)]
    (m : List (κ × ν)) (k : κ) (v : ν) :
    (emplace m k v).2 = true ↔ find m k = none := by
  unfold emplace
  cases h : find m k <;> simp

theorem emplace_of_find_some [DecidableEq κ] [LT κ] [DecidableRel (LT.lt : κ → κ → Prop)]
    (m : List (κ × ν)) (k : κ) (v w : ν) (h : find m k = some w) :
    emplace m k v = (m, false) := by
  simp [emplace, h]

end FlatMap

/-! ## Lemmas on the reference-count arithmetic -/

theorem incCount_lt (c : Nat) : incCount c < refCountModulus :=
  Nat.mod_lt _ (by norm_num [refCountModulus])

theorem decCount_lt (c : Nat) : decCount c < refCountModulus :=
  Nat.mod_lt _ (by norm_num [refCountModulus])

theorem incCount_of_lt (c : Nat) (h : c + 1 < refCountModulus) : incCount c = c + 1 :=
  Nat.mod_eq_of_lt h

theorem decCount_of_pos (c : Nat) (h1 : 1 ≤ c) (h2 : c < refCountModulus) :
    decCount c = c - 1 := by
  unfold decCount refCountModulus at *
  omega

/-! ## Lemmas on acquiring and releasing a range -/

namespace BcmAclTable

theorem incRefRange_entryMap (t : BcmAclTable) (r : AclRange) :
    (incRefOrCreateBcmAclRange t r).2.aclEntryMap_ = t.aclEntryMap_ := by
  unfold incRefOrCreateBcmAclRange
  cases FlatMap.find t.aclRangeMap_ r <;> rfl

theorem incRefRange_statMap (t : BcmAclTable) (r : AclRange) :
    (incRefOrCreateBcmAclRange t r).2.aclStatMap_ = t.aclStatMap_ := by
  unfold incRefOrCreateBcmAclRange
  cases FlatMap.find t.aclRangeMap_ r <;> rfl

theorem incRefRange_find_ne (t : BcmAclTable) (r k : AclRange) (h : k ≠ r) :
    FlatMap.find (incRefOrCreateBcmAclRange t r).2.aclRangeMap_ k =
      FlatMap.find t.aclRangeMap_ k := by
  unfold incRefOrCreateBcmAclRange
  cases hf : FlatMap.find t.aclRangeMap_ r with
  | none => simp [FlatMap.find_emplace, h]
  | some e => simp [FlatMap.find_assign, h]

theorem incRefRange_find_absent (t : BcmAclTable) (r : AclRange)
    (h : FlatMap.find t.aclRangeMap_ r = none) :
    FlatMap.find (incRefOrCreateBcmAclRange t r).2.aclRangeMap_ r =
      some ((BcmAclRange.create t.hw_ r).1, 1) := by
  unfold incRefOrCreateBcmAclRange
  simp [h, FlatMap.find_emplace]

theorem incRefRange_find_present (t : BcmAclTable) (r : AclRange) (e : BcmAclRange × Nat)
    (h : FlatMap.find t.aclRangeMap_ r = some e) :
    FlatMap.find (incRefOrCreateBcmAclRange t r).2.aclRangeMap_ r =
      some (e.1, incCount e.2) := by
  unfold incRefOrCreateBcmAclRange
  simp [h, FlatMap.find_assign]

theorem incRefRange_mem (t : BcmAclTable) (r : AclRange) (x : AclRange × (BcmAclRange × Nat))
    (h : x ∈ (incRefOrCreateBcmAclRange t r).2.aclRangeMap_) :
    x ∈ t.aclRangeMap_ ∨ x.2.2 = incCount (getAclRangeRefCount t r) := by
  unfold incRefOrCreateBcmAclRange at h
  unfold getAclRangeRefCount
  cases hf : FlatMap.find t.aclRangeMap_ r with
  | none =>
    simp only [hf, FlatMap.emplace] at h
    rcases (FlatMap.mem_orderedInsert _ _ _ _).1 h with h | h
    · right; subst h; simp [incCount, refCountModulus]
    · exact Or.inl h
  | some e =>
    simp only [hf] at h
    rcases FlatMap.mem_assign _ _ _ _ h with h | h
    · right; subst h; rfl
    · exact Or.inl h

theorem derefRange_entryMap (t : BcmAclTable) (r : AclRange) :
    (derefBcmAclRange t r).2.aclEntryMap_ = t.aclEntryMap_ := by
  unfold derefBcmAclRange
  cases FlatMap.find t.aclRangeMap_ r with
  | none => rfl
  | some e => dsimp only; split_ifs <;> rfl

theorem derefRange_statMap (t : BcmAclTable) (r : AclRange) :
    (derefBcmAclRange t r).2.aclStatMap_ = t.aclStatMap_ := by
  unfold derefBcmAclRange
  cases FlatMap.find t.aclRangeMap_ r with
  | none => rfl
  | some e => dsimp only; split_ifs <;> rfl

theorem derefRange_hw (t : BcmAclTable) (r : AclRange) :
    (derefBcmAclRange t r).2.hw_ = t.hw_ := by
  unfold derefBcmAclRange
  cases FlatMap.find t.aclRangeMap_ r with
  | none => rfl
  | some e => dsimp only; split_ifs <;> rfl

theorem derefRange_find_ne (t : BcmAclTable) (r k : AclRange) (h : k ≠ r) :
    FlatMap.find (derefBcmAclRange t r).2.aclRangeMap_ k = FlatMap.find t.aclRangeMap_ k := by
  unfold derefBcmAclRange
  cases FlatMap.find t.aclRangeMap_ r with
  | none => rfl
  | some e =>
    dsimp only
    split_ifs
    · rfl
    · simp [FlatMap.find_erase, h]
    · simp [FlatMap.find_assign, h]

theorem derefRange_absent (t : BcmAclTable) (r : AclRange)
    (h : FlatMap.find t.aclRangeMap_ r = none) :
    derefBcmAclRange t r =
      (.error "decrease reference count on a non-existing BcmAclRange", t) := by
  unfold derefBcmAclRange
  simp [h]

theorem derefRange_zero (t : BcmAclTable) (r : AclRange) (e : BcmAclRange × Nat)
    (h : FlatMap.find t.aclRangeMap_ r = some e) (h0 : e.2 = 0) :
    derefBcmAclRange t r =
      (.error "dereference a BcmAclRange whose reference is 0", t) := by
  unfold derefBcmAclRange
  simp [h, h0]

theorem derefRange_present (t : BcmAclTable) (r : AclRange) (e : BcmAclRange × Nat)
    (h : FlatMap.find t.aclRangeMap_ r = some e) (h0 : e.2 ≠ 0) :
    (∃ v, (derefBcmAclRange t r).1 = .ok v) ∧
    FlatMap.find (derefBcmAclRange t r).2.aclRangeMap_ r =
      if decCount e.2 = 0 then none else some (e.1, decCount e.2) := by
  unfold derefBcmAclRange
  simp only [h, h0, if_false]
  split_ifs with hd
  · exact ⟨⟨_, rfl⟩, by simp [FlatMap.find_erase]⟩
  · exact ⟨⟨_, rfl⟩, by simp [FlatMap.find_assign, h]⟩

theorem derefRange_mem (t : BcmAclTable) (r : AclRange) (x : AclRange × (BcmAclRange × Nat))
    (h : x ∈ (derefBcmAclRange t r).2.aclRangeMap_) :
    x ∈ t.aclRangeMap_ ∨ (1 ≤ x.2.2 ∧ x.2.2 < refCountModulus) := by
  unfold derefBcmAclRange at h
  cases hf : FlatMap.find t.aclRangeMap_ r with
  | none => simp only [hf] at h; exact Or.inl h
  | some e =>
    simp only [hf] at h
    split_ifs at h with h0 hd
    · exact Or.inl h
    · exact Or.inl (FlatMap.mem_erase _ _ _ h)
    · rcases FlatMap.mem_assign _ _ _ _ h with h | h
      · right; subst h
        exact ⟨Nat.one_le_iff_ne_zero.2 hd, decCount_lt _⟩
      · exact Or.inl h

end BcmAclTable

/-! ## Lemmas on acquiring and releasing a counter -/

namespace BcmAclTable

theorem incRefStat_entryMap (t : BcmAclTable) (g : Int) (n : String) :
    (incRefOrCreateBcmAclStat t g n).2.aclEntryMap_ = t.aclEntryMap_ := by
  unfold incRefOrCreateBcmAclStat
  cases FlatMap.find t.aclStatMap_ n <;> rfl

theorem incRefStat_rangeMap (t : BcmAclTable) (g : Int) (n : String) :
    (incRefOrCreateBcmAclStat t g n).2.aclRangeMap_ = t.aclRangeMap_ := by
  unfold incRefOrCreateBcmAclStat
  cases FlatMap.find t.aclStatMap_ n <;> rfl

theorem incRefStat_find_ne (t : BcmAclTable) (g : Int) (n k : String) (h : k ≠ n) :
    FlatMap.find (incRefOrCreateBcmAclStat t g n).2.aclStatMap_ k =
      FlatMap.find t.aclStatMap_ k := by
  unfold incRefOrCreateBcmAclStat
  cases hf : FlatMap.find t.aclStatMap_ n with
  | none => simp [FlatMap.find_emplace, h]
  | some e => simp [FlatMap.find_assign, h]

theorem incRefStat_find_absent (t : BcmAclTable) (g : Int) (n : String)
    (h : FlatMap.find t.aclStatMap_ n = none) :
    FlatMap.find (incRefOrCreateBcmAclStat t g n).2.aclStatMap_ n =
      some ((BcmAclStat.create t.hw_ g).1, 1) := by
  unfold incRefOrCreateBcmAclStat
  simp [h, FlatMap.find_emplace]

theorem incRefStat_find_present (t : BcmAclTable) (g : Int) (n : String) (e : BcmAclStat × Nat)
    (h : FlatMap.find t.aclStatMap_ n = some e) :
    FlatMap.find (incRefOrCreateBcmAclStat t g n).2.aclStatMap_ n =
      some (e.1, incCount e.2) := by
  unfold incRefOrCreateBcmAclStat
  simp [h, FlatMap.find_assign]

theorem incRefStat_mem (t : BcmAclTable) (g : Int) (n : String)
    (x : String × (BcmAclStat × Nat))
    (h : x ∈ (incRefOrCreateBcmAclStat t g n).2.aclStatMap_) :
    x ∈ t.aclStatMap_ ∨ x.2.2 = incCount (getAclStatRefCount t n) := by
  unfold incRefOrCreateBcmAclStat at h
  unfold getAclStatRefCount
  cases hf : FlatMap.find t.aclStatMap_ n with
  | none =>
    simp only [hf, FlatMap.emplace] at h
    rcases (FlatMap.mem_orderedInsert _ _ _ _).1 h with h | h
    · right; subst h; simp [incCount, refCountModulus]
    · exact Or.inl h
  | some e =>
    simp only [hf] at h
    rcases FlatMap.mem_assign _ _ _ _ h with h | h
    · right; subst h; rfl
    · exact Or.inl h

theorem derefStat_entryMap (t : BcmAclTable) (n : String) :
    (derefBcmAclStat t n).2.aclEntryMap_ = t.aclEntryMap_ := by
  unfold derefBcmAclStat
  cases FlatMap.find t.aclStatMap_ n with
  | none => rfl
  | some e => dsimp only; split_ifs <;> rfl

theorem derefStat_rangeMap (t : BcmAclTable) (n : String) :
    (derefBcmAclStat t n).2.aclRangeMap_ = t.aclRangeMap_ := by
  unfold derefBcmAclStat
  cases FlatMap.find t.aclStatMap_ n with
  | none => rfl
  | some e => dsimp only; split_ifs <;> rfl

theorem derefStat_find_ne (t : BcmAclTable) (n k : String) (h : k ≠ n) :
    FlatMap.find (derefBcmAclStat t n).2.aclStatMap_ k = FlatMap.find t.aclStatMap_ k := by
  unfold derefBcmAclStat
  cases FlatMap.find t.aclStatMap_ n with
  | none => rfl
  | some e =>
    dsimp only
    split_ifs
    · simp [FlatMap.find_erase, h]
    · simp [FlatMap.find_assign, h]

theorem derefStat_absent (t : BcmAclTable) (n : String)
    (h : FlatMap.find t.aclStatMap_ n = none) :
    derefBcmAclStat t n =
      (.error ("Tried to decrease reference count on a non-existing BcmAclStat, name=" ++ n),
        t) := by
  unfold derefBcmAclStat
  simp [h]

theorem derefStat_present (t : BcmAclTable) (n : String) (e : BcmAclStat × Nat)
    (h : FlatMap.find t.aclStatMap_ n = some e) :
    (derefBcmAclStat t n).1 = .ok () ∧
    FlatMap.find (derefBcmAclStat t n).2.aclStatMap_ n =
      if decCount e.2 = 0 then none else some (e.1, decCount e.2) := by
  unfold derefBcmAclStat
  simp only [h]
  split_ifs with hd
  · exact ⟨rfl, by simp [FlatMap.find_erase]⟩
  · exact ⟨rfl, by simp [FlatMap.find_assign, h]⟩

theorem derefStat_mem (t : BcmAclTable) (n : String) (x : String × (BcmAclStat × Nat))
    (h : x ∈ (derefBcmAclStat t n).2.aclStatMap_) :
    x ∈ t.aclStatMap_ ∨ (1 ≤ x.2.2 ∧ x.2.2 < refCountModulus) := by
  unfold derefBcmAclStat at h
  cases hf : FlatMap.find t.aclStatMap_ n with
  | none => simp only [hf] at h; exact Or.inl h
  | some e =>
    simp only [hf] at h
    split_ifs at h with hd
    · exact Or.inl (FlatMap.mem_erase _ _ _ h)
    · rcases FlatMap.mem_assign _ _ _ _ h with h | h
      · right; subst h
        exact ⟨Nat.one_le_iff_ne_zero.2 hd, decCount_lt _⟩
      · exact Or.inl h

end BcmAclTable

/-! ## The two entry operations as passes over the keys of the entry -/

namespace BcmAclTable

theorem andThen_ok {α β : Type} (a : α) (t : BcmAclTable)
    (rest : BcmAclTable → Except String β × BcmAclTable) :
    andThen (Except.ok a, t) rest = rest t := rfl

theorem andThen_error {α β : Type} (e : String) (t : BcmAclTable)
    (rest : BcmAclTable → Except String β × BcmAclTable) :
    andThen ((Except.error e : Except String α), t) rest = (Except.error e, t) := rfl

theorem andThen_assoc {α β γ : Type} (s : Except String α × BcmAclTable)
    (f : BcmAclTable → Except String β × BcmAclTable)
    (g : BcmAclTable → Except String γ × BcmAclTable) :
    andThen (andThen s f) g = andThen s (fun t => andThen (f t) g) := by
  rcases s with ⟨_ | _, t⟩ <;> rfl

theorem andThen_pure (s : Except String Unit × BcmAclTable) :
    andThen s (fun t => ((Except.ok (), t) : Except String Unit × BcmAclTable)) = s := by
  rcases s with ⟨_ | _, t⟩ <;> rfl

theorem releaseRanges_append (t : BcmAclTable) (xs ys : List AclRange) :
    releaseRanges t (xs ++ ys) = andThen (releaseRanges t xs) (fun t1 => releaseRanges t1 ys) := by
  induction xs generalizing t with
  | nil => rfl
  | cons x xs ih =>
    simp only [List.cons_append, releaseRanges, andThen_assoc]
    congr 1
    funext t1
    exact ih t1

theorem releaseRanges_singleton {β : Type} (t : BcmAclTable) (r : AclRange)
    (rest : BcmAclTable → Except String β × BcmAclTable) :
    andThen (releaseRanges t [r]) rest = andThen (derefBcmAclRange t r) rest := by
  simp only [releaseRanges, andThen_assoc, andThen_ok]

theorem andThen_portStage {β : Type} (k : AclRangeKind) (o : Option AclL4PortRange)
    (t : BcmAclTable) (rest : BcmAclTable → Except String β × BcmAclTable) :
    andThen
      (match o with
        | some r =>
          if !r.isExactMatch then derefBcmAclRange t ⟨k, r.getMin, r.getMax⟩
          else (.ok none, t)
        | none => (.ok none, t)) rest =
    andThen
      (releaseRanges t
        (match o with
          | some r => if !r.isExactMatch then [⟨k, r.getMin, r.getMax⟩] else []
          | none => [])) rest := by
  cases o with
  | none => rfl
  | some r =>
    cases h : r.isExactMatch
    · simp only [h, Bool.not_false, if_true, releaseRanges_singleton]
    · simp only [h, Bool.not_true, Bool.false_eq_true, if_false, releaseRanges, andThen_ok]

theorem andThen_pktStage {β : Type} (o : Option AclPktLenRange)
    (t : BcmAclTable) (rest : BcmAclTable → Except String β × BcmAclTable) :
    andThen
      (match o with
        | some r => derefBcmAclRange t ⟨.PKT_LEN, r.getMin, r.getMax⟩
        | none => (.ok none, t)) rest =
    andThen
      (releaseRanges t
        (match o with
          | some r => [⟨.PKT_LEN, r.getMin, r.getMax⟩]
          | none => [])) rest := by
  cases o with
  | none => rfl
  | some r => simp only [releaseRanges_singleton]

theorem processAddedAcl_eq (t : BcmAclTable) (g : Int) (acl : AclEntry) :
    processAddedAcl t g acl = processAddedAclOnKeys t g acl := by
  obtain ⟨p, src, dst, pkt, act⟩ := acl
  rcases src with _ | src <;> rcases dst with _ | dst <;> rcases pkt with _ | pkt <;>
    rcases act with _ | ⟨_ | pc⟩ <;>
    (try cases hs : src.isExactMatch) <;> (try cases hd : dst.isExactMatch) <;>
    simp [processAddedAcl, processAddedAclOnKeys, aclRangeKeys, aclCounterName, acquireRanges, *]

theorem processRemovedAcl_eq (t : BcmAclTable) (acl : AclEntry) :
    processRemovedAcl t acl = processRemovedAclOnKeys t acl := by
  have hstat : ∀ t0 : BcmAclTable,
      (match acl.getAclAction with
        | some action =>
          match action.getPacketCounter with
          | some pc => derefBcmAclStat t0 pc.counterName
          | none => (.ok (), t0)
        | none => (.ok (), t0)) =
      (match aclCounterName acl with
        | some name => derefBcmAclStat t0 name
        | none => (.ok (), t0)) := by
    intro t0
    obtain ⟨p, src, dst, pkt, act⟩ := acl
    rcases act with _ | ⟨_ | pc⟩ <;> rfl
  have hranges : ∀ t1 : BcmAclTable,
      (andThen
        (match acl.getSrcL4PortRange with
          | some r =>
            if !r.isExactMatch then derefBcmAclRange t1 ⟨.SRC_L4_PORT, r.getMin, r.getMax⟩
            else (.ok none, t1)
          | none => (.ok none, t1)) fun t2 =>
      andThen
        (match acl.getDstL4PortRange with
          | some r =>
            if !r.isExactMatch then derefBcmAclRange t2 ⟨.DST_L4_PORT, r.getMin, r.getMax⟩
            else (.ok none, t2)
          | none => (.ok none, t2)) fun t3 =>
      andThen
        (match acl.getPktLenRange with
          | some r => derefBcmAclRange t3 ⟨.PKT_LEN, r.getMin, r.getMax⟩
          | none => (.ok none, t3)) fun t4 =>
      ((.ok (), t4) : Except String Unit × BcmAclTable)) =
      releaseRanges t1 (aclRangeKeys acl) := by
    intro t1
    refine (andThen_portStage _ _ _ _).trans ?_
    refine (congrArg (andThen _) (funext fun t2 =>
      (andThen_portStage _ _ _ _).trans (congrArg (andThen _) (funext fun t3 =>
        (andThen_pktStage _ _ _).trans (andThen_pure _))))).trans ?_
    unfold aclRangeKeys
    rw [releaseRanges_append, releaseRanges_append, andThen_assoc]
  unfold processRemovedAcl processRemovedAclOnKeys
  dsimp only
  split_ifs with h0
  · rfl
  · exact (congrArg (fun s => andThen s _) (hstat _)).trans
      (congrArg (andThen _) (funext fun t1 => hranges t1))

end BcmAclTable

/-! ## The counts stay positive -/

namespace BcmAclTable

theorem getAclRangeRefCount_of_find (t : BcmAclTable) (r : AclRange) (e : BcmAclRange × Nat)
    (h : FlatMap.find t.aclRangeMap_ r = some e) : getAclRangeRefCount t r = e.2 := by
  simp [getAclRangeRefCount, h]

theorem getAclStatRefCount_of_find (t : BcmAclTable) (n : String) (e : BcmAclStat × Nat)
    (h : FlatMap.find t.aclStatMap_ n = some e) : getAclStatRefCount t n = e.2 := by
  simp [getAclStatRefCount, h]

theorem incRefRange_refCount_ne (t : BcmAclTable) (r k : AclRange) (h : k ≠ r) :
    getAclRangeRefCount (incRefOrCreateBcmAclRange t r).2 k = getAclRangeRefCount t k := by
  simp [getAclRangeRefCount, incRefRange_find_ne t r k h]

theorem countsPositive_incRefRange (t : BcmAclTable) (r : AclRange) (hc : CountsPositive t)
    (hw : getAclRangeRefCount t r + 1 < refCountModulus) :
    CountsPositive (incRefOrCreateBcmAclRange t r).2 := by
  refine ⟨fun x hx => ?_, ?_⟩
  · rcases incRefRange_mem t r x hx with h | h
    · exact hc.1 x h
    · rw [h, incCount_of_lt _ hw]
      exact ⟨Nat.le_add_left _ _, hw⟩
  · rw [incRefRange_statMap]; exact hc.2

theorem countsPositive_derefRange (t : BcmAclTable) (r : AclRange) (hc : CountsPositive t) :
    CountsPositive (derefBcmAclRange t r).2 := by
  refine ⟨fun x hx => ?_, ?_⟩
  · rcases derefRange_mem t r x hx with h | h
    · exact hc.1 x h
    · exact h
  · rw [derefRange_statMap]; exact hc.2

theorem countsPositive_incRefStat (t : BcmAclTable) (g : Int) (n : String)
    (hc : CountsPositive t) (hw : getAclStatRefCount t n + 1 < refCountModulus) :
    CountsPositive (incRefOrCreateBcmAclStat t g n).2 := by
  refine ⟨?_, fun x hx => ?_⟩
  · rw [incRefStat_rangeMap]; exact hc.1
  · rcases incRefStat_mem t g n x hx with h | h
    · exact hc.2 x h
    · rw [h, incCount_of_lt _ hw]
      exact ⟨Nat.le_add_left _ _, hw⟩

theorem countsPositive_derefStat (t : BcmAclTable) (n : String) (hc : CountsPositive t) :
    CountsPositive (derefBcmAclStat t n).2 := by
  refine ⟨?_, fun x hx => ?_⟩
  · rw [derefStat_rangeMap]; exact hc.1
  · rcases derefStat_mem t n x hx with h | h
    · exact hc.2 x h
    · exact h

theorem acquireRanges_statMap (t : BcmAclTable) (rs : List AclRange) :
    (acquireRanges t rs).2.aclStatMap_ = t.aclStatMap_ := by
  induction rs generalizing t with
  | nil => rfl
  | cons r rs ih => simp only [acquireRanges]; rw [ih, incRefRange_statMap]

theorem acquireRanges_entryMap (t : BcmAclTable) (rs : List AclRange) :
    (acquireRanges t rs).2.aclEntryMap_ = t.aclEntryMap_ := by
  induction rs generalizing t with
  | nil => rfl
  | cons r rs ih => simp only [acquireRanges]; rw [ih, incRefRange_entryMap]

theorem countsPositive_acquireRanges (t : BcmAclTable) (rs : List AclRange)
    (hn : rs.Nodup) (hc : CountsPositive t)
    (hw : ∀ r ∈ rs, getAclRangeRefCount t r + 1 < refCountModulus) :
    CountsPositive (acquireRanges t rs).2 := by
  induction rs generalizing t with
  | nil => exact hc
  | cons r rs ih =>
    simp only [acquireRanges]
    rw [List.nodup_cons] at hn
    apply ih _ hn.2 (countsPositive_incRefRange t r hc (hw r (List.mem_cons_self _ _)))
    intro k hk
    have hkr : k ≠ r := fun h => hn.1 (h ▸ hk)
    rw [incRefRange_refCount_ne t r k hkr]
    exact hw k (List.mem_cons_of_mem _ hk)

theorem countsPositive_andThen {α β : Type} (s : Except String α × BcmAclTable)
    (rest : BcmAclTable → Except String β × BcmAclTable) (hs : CountsPositive s.2)
    (hr : ∀ t, CountsPositive t → CountsPositive (rest t).2) :
    CountsPositive (andThen s rest).2 := by
  rcases s with ⟨_ | _, t⟩
  · exact hs
  · exact hr t hs

theorem countsPositive_releaseRanges (t : BcmAclTable) (rs : List AclRange)
    (hc : CountsPositive t) : CountsPositive (releaseRanges t rs).2 := by
  induction rs generalizing t with
  | nil => exact hc
  | cons r rs ih =>
    simp only [releaseRanges]
    exact countsPositive_andThen _ _ (countsPositive_derefRange t r hc) (fun t1 h1 => ih t1 h1)

theorem aclRangeKeys_nodup (acl : AclEntry) : (aclRangeKeys acl).Nodup := by
  obtain ⟨p, src, dst, pkt, act⟩ := acl
  rcases src with _ | src <;> rcases dst with _ | dst <;> rcases pkt with _ | pkt <;>
    (try cases hs : src.isExactMatch) <;> (try cases hd : dst.isExactMatch) <;>
    simp [aclRangeKeys, *]

theorem countsPositive_processAddedAcl (t : BcmAclTable) (g : Int) (acl : AclEntry)
    (hc : CountsPositive t) (hw : NoWrapOnAdd t acl) :
    CountsPositive (processAddedAcl t g acl).2 := by
  rw [processAddedAcl_eq]
  have h3 := countsPositive_acquireRanges t (aclRangeKeys acl) (aclRangeKeys_nodup acl) hc hw.1
  have h4 : CountsPositive (match aclCounterName acl with
      | some name => (incRefOrCreateBcmAclStat (acquireRanges t (aclRangeKeys acl)).2 g name).2
      | none => (acquireRanges t (aclRangeKeys acl)).2) := by
    cases hn : aclCounterName acl with
    | none => exact h3
    | some name =>
      apply countsPositive_incRefStat _ _ _ h3
      have := hw.2 name (by simp [hn])
      simpa [getAclStatRefCount, acquireRanges_statMap] using this
  unfold processAddedAclOnKeys
  dsimp only
  split_ifs <;> exact h4

theorem countsPositive_processRemovedAcl (t : BcmAclTable) (acl : AclEntry)
    (hc : CountsPositive t) : CountsPositive (processRemovedAcl t acl).2 := by
  rw [processRemovedAcl_eq]
  unfold processRemovedAclOnKeys
  dsimp only
  split_ifs
  · exact hc
  · apply countsPositive_andThen
    · cases aclCounterName acl with
      | none => exact hc
      | some name => exact countsPositive_derefStat _ name hc
    · intro t1 h1
      exact countsPositive_releaseRanges t1 _ h1

theorem countsPositive_releaseAcls (t : BcmAclTable) : CountsPositive (releaseAcls t) := by
  simp [CountsPositive, releaseAcls]

theorem countsPositive_init (hw : BcmSwitch) : CountsPositive (BcmAclTable.init hw) := by
  simp [CountsPositive, BcmAclTable.init]

theorem countsPositive_run (t : BcmAclTable) (ops : List AclTableOp)
    (hc : CountsPositive t) (hw : NoWrap t ops) : CountsPositive (run t ops) := by
  induction ops generalizing t with
  | nil => exact hc
  | cons op ops ih =>
    simp only [run, List.foldl_cons]
    obtain ⟨h1, h2⟩ := hw
    apply ih _ _ h2
    cases op with
    | processAddedAcl g acl => exact countsPositive_processAddedAcl t g acl hc h1
    | processRemovedAcl acl => exact countsPositive_processRemovedAcl t acl hc
    | releaseAcls => exact countsPositive_releaseAcls t

end BcmAclTable

/-! ## C1: the sharing scenario -/

/-- C1, as the code has it: two entries with distinct priorities that carry the same
non-exact-match source L4 port range `[lo, hi]` and the same packet counter `name`, and no
other range that the table acquires (a destination port range, if any, is an exact match,
and there is no packet-length range), are added to an empty table and removed again. After
both adds there is one range entry and one counter entry, each with reference count 2, and
both priorities are found; after the first remove both counts are 1 and both shared entries
are still there; after the second remove both counts are 0, both lookups are null and both
tables are empty. All four calls return without throwing. -/
theorem sharing_scenario (hw : BcmSwitch) (g1 g2 : Int) (e1 e2 : AclEntry)
    (lo hi : Nat) (name : String)
    (hp : e1.getPriority ≠ e2.getPriority) (hne : lo ≠ hi)
    (h1s : e1.getSrcL4PortRange = some ⟨lo, hi⟩)
    (h1x : ∀ r, e1.getDstL4PortRange = some r → r.isExactMatch = true)
    (h1p : e1.getPktLenRange = none) (h1a : e1.getAclAction = some ⟨some ⟨name⟩⟩)
    (h2s : e2.getSrcL4PortRange = some ⟨lo, hi⟩)
    (h2x : ∀ r, e2.getDstL4PortRange = some r → r.isExactMatch = true)
    (h2p : e2.getPktLenRange = none) (h2a : e2.getAclAction = some ⟨some ⟨name⟩⟩) :
    let a1 := processAddedAcl (BcmAclTable.init hw) g1 e1
    let a2 := processAddedAcl a1.2 g2 e2
    let r1 := processRemovedAcl a2.2 e1
    let r2 := processRemovedAcl r1.2 e2
    (a1.1 = .ok () ∧ a2.1 = .ok () ∧
      a2.2.getAclRangeCount = 1 ∧ a2.2.getAclStatCount = 1 ∧
      a2.2.getAclRangeRefCount ⟨.SRC_L4_PORT, lo, hi⟩ = 2 ∧ a2.2.getAclStatRefCount name = 2 ∧
      (a2.2.getAclIf e1.getPriority).isSome ∧ (a2.2.getAclIf e2.getPriority).isSome) ∧
    (r1.1 = .ok () ∧
      r1.2.getAclRangeRefCount ⟨.SRC_L4_PORT, lo, hi⟩ = 1 ∧ r1.2.getAclStatRefCount name = 1 ∧
      (r1.2.getAclRangeIf ⟨.SRC_L4_PORT, lo, hi⟩).isSome ∧ (r1.2.getAclStatIf name).isSome) ∧
    (r2.1 = .ok () ∧
      r2.2.getAclRangeRefCount ⟨.SRC_L4_PORT, lo, hi⟩ = 0 ∧ r2.2.getAclStatRefCount name = 0 ∧
      r2.2.getAclRangeIf ⟨.SRC_L4_PORT, lo, hi⟩ = none ∧ r2.2.getAclStatIf name = none ∧
      r2.2.getAclRangeCount = 0 ∧ r2.2.getAclStatCount = 0) := by
  have hp' : e2.getPriority ≠ e1.getPriority := fun h => hp h.symm
  intro a1 a2 r1 r2
  obtain ⟨d1, h1d, hm1⟩ : ∃ d1, e1.getDstL4PortRange = d1 ∧
      ∀ r, d1 = some r → r.getMin = r.getMax :=
    ⟨_, rfl, fun r hr => by simpa [AclL4PortRange.isExactMatch] using h1x r hr⟩
  obtain ⟨d2, h2d, hm2⟩ : ∃ d2, e2.getDstL4PortRange = d2 ∧
      ∀ r, d2 = some r → r.getMin = r.getMax :=
    ⟨_, rfl, fun r hr => by simpa [AclL4PortRange.isExactMatch] using h2x r hr⟩
  clear h1x h2x
  rcases d1 with _ | q1 <;> rcases d2 with _ | q2
  all_goals
    have ea1 : a1 = processAddedAcl (BcmAclTable.init hw) g1 e1 := rfl
    have ea2 : processAddedAcl a1.2 g2 e2 = a2 := rfl
    have er1 : processRemovedAcl a2.2 e1 = r1 := rfl
    have er2 : processRemovedAcl r1.2 e2 = r2 := rfl
    clear_value a1 a2 r1 r2
    have hi1 : incCount 1 = 2 := by norm_num [incCount, refCountModulus]
    have hd2 : decCount 2 = 1 := by norm_num [decCount, refCountModulus]
    have hd1 : decCount 1 = 0 := by norm_num [decCount, refCountModulus]
    -- first add
    obtain ⟨hA1, ob, st, b1, hA1r, hA1s, hA1e⟩ : a1.1 = .ok () ∧ ∃ ob st b1,
        a1.2.aclRangeMap_ = [(⟨.SRC_L4_PORT, lo, hi⟩, (ob, 1))] ∧
        a1.2.aclStatMap_ = [(name, (st, 1))] ∧ a1.2.aclEntryMap_ = [(e1.getPriority, b1)] := by
      simp [ea1, processAddedAcl, h1s, h1d, hm1, h1p, h1a, AclL4PortRange.isExactMatch, hne,
        BcmAclTable.init, incRefOrCreateBcmAclRange, incRefOrCreateBcmAclStat, FlatMap.find,
        FlatMap.emplace, FlatMap.orderedInsert]
    -- second add
    have step2 : ∀ t : BcmAclTable,
        t.aclRangeMap_ = [(⟨.SRC_L4_PORT, lo, hi⟩, (ob, 1))] → t.aclStatMap_ = [(name, (st, 1))] →
        t.aclEntryMap_ = [(e1.getPriority, b1)] →
        (processAddedAcl t g2 e2).1 = .ok () ∧ ∃ b2,
        (processAddedAcl t g2 e2).2.aclRangeMap_ = [(⟨.SRC_L4_PORT, lo, hi⟩, (ob, 2))] ∧
        (processAddedAcl t g2 e2).2.aclStatMap_ = [(name, (st, 2))] ∧
        ((processAddedAcl t g2 e2).2.aclEntryMap_ = [(e1.getPriority, b1), (e2.getPriority, b2)] ∨
         (processAddedAcl t g2 e2).2.aclEntryMap_ = [(e2.getPriority, b2), (e1.getPriority, b1)]) := by
      intro t hr hs he
      by_cases hlt : e2.getPriority < e1.getPriority <;>
      simp [processAddedAcl, h2s, h2d, hm2, h2p, h2a, AclL4PortRange.isExactMatch, hne,
        incRefOrCreateBcmAclRange, incRefOrCreateBcmAclStat, FlatMap.find,
        FlatMap.emplace, FlatMap.orderedInsert, FlatMap.assign, hr, hs, he, hp, hi1, hlt]
    obtain ⟨hA2, b2, hA2r, hA2s, hA2e⟩ := step2 a1.2 hA1r hA1s hA1e
    rw [ea2] at hA2 hA2r hA2s hA2e
    -- first remove
    have step3 : ∀ t : BcmAclTable,
        t.aclRangeMap_ = [(⟨.SRC_L4_PORT, lo, hi⟩, (ob, 2))] → t.aclStatMap_ = [(name, (st, 2))] →
        (t.aclEntryMap_ = [(e1.getPriority, b1), (e2.getPriority, b2)] ∨
         t.aclEntryMap_ = [(e2.getPriority, b2), (e1.getPriority, b1)]) →
        (processRemovedAcl t e1).1 = .ok () ∧
        (processRemovedAcl t e1).2.aclRangeMap_ = [(⟨.SRC_L4_PORT, lo, hi⟩, (ob, 1))] ∧
        (processRemovedAcl t e1).2.aclStatMap_ = [(name, (st, 1))] ∧
        (processRemovedAcl t e1).2.aclEntryMap_ = [(e2.getPriority, b2)] := by
      intro t hr hs he
      rcases he with h | h <;>
      simp [processRemovedAcl, h1s, h1d, hm1, h1p, h1a, AclL4PortRange.isExactMatch, hne,
        derefBcmAclRange, derefBcmAclStat, FlatMap.find, FlatMap.erase,
        FlatMap.assign, hr, hs, h, hp, hp', hd2, List.filter, andThen]
    obtain ⟨hR1, hR1r, hR1s, hR1e⟩ := step3 a2.2 hA2r hA2s hA2e
    rw [er1] at hR1 hR1r hR1s hR1e
    -- second remove
    have step4 : ∀ t : BcmAclTable,
        t.aclRangeMap_ = [(⟨.SRC_L4_PORT, lo, hi⟩, (ob, 1))] → t.aclStatMap_ = [(name, (st, 1))] →
        t.aclEntryMap_ = [(e2.getPriority, b2)] →
        (processRemovedAcl t e2).1 = .ok () ∧
        (processRemovedAcl t e2).2.aclRangeMap_ = [] ∧
        (processRemovedAcl t e2).2.aclStatMap_ = [] := by
      intro t hr hs he
      simp [processRemovedAcl, h2s, h2d, hm2, h2p, h2a, AclL4PortRange.isExactMatch, hne,
        derefBcmAclRange, derefBcmAclStat, FlatMap.find, FlatMap.erase,
        FlatMap.assign, hr, hs, he, hd1, List.filter, andThen]
    obtain ⟨hR2, hR2r, hR2s⟩ := step4 r1.2 hR1r hR1s hR1e
    rw [er2] at hR2 hR2r hR2s
    refine ⟨⟨hA1, hA2, ?_, ?_, ?_, ?_, ?_, ?_⟩, ⟨hR1, ?_, ?_, ?_, ?_⟩, ⟨hR2, ?_, ?_, ?_, ?_, ?_, ?_⟩⟩
    all_goals first
      | (rcases hA2e with h | h <;>
          simp [getAclRangeCount, getAclStatCount, getAclRangeRefCount, getAclStatRefCount, getAclIf,
            getAclRangeIf, getAclStatIf, FlatMap.find, hA2r, hA2s, h, hR1r, hR1s, hR2r, hR2s,
            refCountModulus, hp, hp'])

/-- Witness of `sharing_scenario`: priorities 10 and 20, range [100,200], counter "cnt1". -/
theorem sharing_scenario_witness :
    (sampleEntry 10).getPriority ≠ (sampleEntry 20).getPriority ∧ (100 : Nat) ≠ 200 ∧
    (let a1 := processAddedAcl (BcmAclTable.init sampleSwitch) 1 (sampleEntry 10)
    let a2 := processAddedAcl a1.2 1 (sampleEntry 20)
    let r1 := processRemovedAcl a2.2 (sampleEntry 10)
    let r2 := processRemovedAcl r1.2 (sampleEntry 20)
    (a1.1 = .ok () ∧ a2.1 = .ok () ∧
      a2.2.getAclRangeCount = 1 ∧ a2.2.getAclStatCount = 1 ∧
      a2.2.getAclRangeRefCount ⟨.SRC_L4_PORT, 100, 200⟩ = 2 ∧
      a2.2.getAclStatRefCount "cnt1" = 2 ∧
      (a2.2.getAclIf (sampleEntry 10).getPriority).isSome ∧
      (a2.2.getAclIf (sampleEntry 20).getPriority).isSome) ∧
    (r1.1 = .ok () ∧
      r1.2.getAclRangeRefCount ⟨.SRC_L4_PORT, 100, 200⟩ = 1 ∧
      r1.2.getAclStatRefCount "cnt1" = 1 ∧
      (r1.2.getAclRangeIf ⟨.SRC_L4_PORT, 100, 200⟩).isSome ∧
      (r1.2.getAclStatIf "cnt1").isSome) ∧
    (r2.1 = .ok () ∧
      r2.2.getAclRangeRefCount ⟨.SRC_L4_PORT, 100, 200⟩ = 0 ∧
      r2.2.getAclStatRefCount "cnt1" = 0 ∧
      r2.2.getAclRangeIf ⟨.SRC_L4_PORT, 100, 200⟩ = none ∧ r2.2.getAclStatIf "cnt1" = none ∧
      r2.2.getAclRangeCount = 0 ∧ r2.2.getAclStatCount = 0)) :=
  ⟨by decide, by decide,
    sharing_scenario sampleSwitch 1 1 (sampleEntry 10) (sampleEntry 20) 100 200 "cnt1"
      (by decide) (by decide) rfl (fun _ h => Option.noConfusion h) rfl rfl rfl
      (fun _ h => Option.noConfusion h) rfl rfl⟩

/-- C1 fails as stated: the entries of priorities 10 and 20 carry the same non-exact-match
source port range [100,200] and the same counter "cnt1", and the second one carries the
destination port range [300,400] besides. Both adds return, and afterwards the range table
holds two ranges, not one: the shared source range with count 2 and the destination range
with count 1. -/
theorem sharing_with_second_range :
    (sampleEntry 10).getPriority ≠ (twoRangeEntry 20).getPriority ∧
    (sampleEntry 10).getSrcL4PortRange = some ⟨100, 200⟩ ∧
    (twoRangeEntry 20).getSrcL4PortRange = some ⟨100, 200⟩ ∧
    AclL4PortRange.isExactMatch ⟨100, 200⟩ = false ∧
    (sampleEntry 10).getAclAction = some ⟨some ⟨"cnt1"⟩⟩ ∧
    (twoRangeEntry 20).getAclAction = some ⟨some ⟨"cnt1"⟩⟩ ∧
    (processAddedAcl (BcmAclTable.init sampleSwitch) 1 (sampleEntry 10)).1 = .ok () ∧
    (processAddedAcl (processAddedAcl (BcmAclTable.init sampleSwitch) 1 (sampleEntry 10)).2 1
      (twoRangeEntry 20)).1 = .ok () ∧
    getAclRangeCount
      (processAddedAcl (processAddedAcl (BcmAclTable.init sampleSwitch) 1 (sampleEntry 10)).2 1
        (twoRangeEntry 20)).2 = 2 ∧
    getAclRangeRefCount
      (processAddedAcl (processAddedAcl (BcmAclTable.init sampleSwitch) 1 (sampleEntry 10)).2 1
        (twoRangeEntry 20)).2 ⟨.SRC_L4_PORT, 100, 200⟩ = 2 ∧
    getAclRangeRefCount
      (processAddedAcl (processAddedAcl (BcmAclTable.init sampleSwitch) 1 (sampleEntry 10)).2 1
        (twoRangeEntry 20)).2 ⟨.DST_L4_PORT, 300, 400⟩ = 1 :=
  ⟨by decide, rfl, rfl, rfl, rfl, rfl, rfl, rfl, by decide, by decide, by decide⟩

/-! ## What a pass of acquires and a pass of releases do to the range table -/

namespace BcmAclTable

theorem acquireRanges_find_not_mem (t : BcmAclTable) (rs : List AclRange) (k : AclRange)
    (hk : k ∉ rs) :
    FlatMap.find (acquireRanges t rs).2.aclRangeMap_ k = FlatMap.find t.aclRangeMap_ k := by
  induction rs generalizing t with
  | nil => rfl
  | cons r rs ih =>
    simp only [acquireRanges]
    rw [List.mem_cons, not_or] at hk
    rw [ih _ hk.2, incRefRange_find_ne t r k hk.1]

theorem acquireRanges_find_mem (t : BcmAclTable) (rs : List AclRange) (hn : rs.Nodup)
    (k : AclRange) (hk : k ∈ rs) :
    (∀ e, FlatMap.find t.aclRangeMap_ k = some e →
      FlatMap.find (acquireRanges t rs).2.aclRangeMap_ k = some (e.1, incCount e.2)) ∧
    (FlatMap.find t.aclRangeMap_ k = none →
      ∃ o, FlatMap.find (acquireRanges t rs).2.aclRangeMap_ k = some (o, 1)) := by
  induction rs generalizing t with
  | nil => simp at hk
  | cons r rs ih =>
    simp only [acquireRanges]
    rw [List.nodup_cons] at hn
    by_cases hkr : k = r
    · subst hkr
      rw [acquireRanges_find_not_mem _ rs k hn.1]
      exact ⟨fun e he => incRefRange_find_present t k e he,
        fun he => ⟨_, incRefRange_find_absent t k he⟩⟩
    · have hk2 : k ∈ rs := by
        rcases List.mem_cons.1 hk with h | h
        · exact absurd h hkr
        · exact h
      have := ih (incRefOrCreateBcmAclRange t r).2 hn.2 hk2
      rw [incRefRange_find_ne t r k hkr] at this
      exact this

theorem derefRange_ok (t : BcmAclTable) (r : AclRange) (e : BcmAclRange × Nat)
    (h : FlatMap.find t.aclRangeMap_ r = some e) (h0 : e.2 ≠ 0) :
    ∃ v, derefBcmAclRange t r = (.ok v, (derefBcmAclRange t r).2) := by
  obtain ⟨⟨v, hv⟩, _⟩ := derefRange_present t r e h h0
  exact ⟨v, Prod.ext hv rfl⟩

theorem decCount_incCount (c : Nat) (h : c + 1 < refCountModulus) : decCount (incCount c) = c := by
  rw [incCount_of_lt _ h, decCount_of_pos _ (Nat.le_add_left _ _) h, Nat.add_sub_cancel]

theorem decCount_one : decCount 1 = 0 := by
  norm_num [decCount, refCountModulus]

theorem releaseRanges_restore (s : BcmAclTable) (rs : List AclRange) (hn : rs.Nodup)
    (v0 : AclRange → Option (BcmAclRange × Nat))
    (h : ∀ k ∈ rs,
      (∀ e, v0 k = some e → 1 ≤ e.2 ∧ e.2 + 1 < refCountModulus ∧
        FlatMap.find s.aclRangeMap_ k = some (e.1, incCount e.2)) ∧
      (v0 k = none → ∃ o, FlatMap.find s.aclRangeMap_ k = some (o, 1))) :
    (releaseRanges s rs).1 = .ok () ∧
    (∀ k ∈ rs, FlatMap.find (releaseRanges s rs).2.aclRangeMap_ k = v0 k) ∧
    (∀ k, k ∉ rs →
      FlatMap.find (releaseRanges s rs).2.aclRangeMap_ k = FlatMap.find s.aclRangeMap_ k) ∧
    (releaseRanges s rs).2.aclStatMap_ = s.aclStatMap_ ∧
    (releaseRanges s rs).2.aclEntryMap_ = s.aclEntryMap_ := by
  induction rs generalizing s with
  | nil => exact ⟨rfl, fun k hk => by simp at hk, fun _ _ => rfl, rfl, rfl⟩
  | cons r rs ih =>
    rw [List.nodup_cons] at hn
    -- the entry of `r` before the release, and after it
    have hr := h r (List.mem_cons_self _ _)
    obtain ⟨e1, he1, he1pos, hafter⟩ : ∃ e1, FlatMap.find s.aclRangeMap_ r = some e1 ∧
        e1.2 ≠ 0 ∧ (if decCount e1.2 = 0 then none else some (e1.1, decCount e1.2)) = v0 r := by
      cases hv : v0 r with
      | none =>
        obtain ⟨o, ho⟩ := hr.2 hv
        refine ⟨_, ho, Nat.one_ne_zero, ?_⟩
        show (if decCount 1 = 0 then none else some (o, decCount 1)) = none
        rw [if_pos decCount_one]
      | some e =>
        obtain ⟨h1, h2, h3⟩ := hr.1 e hv
        refine ⟨_, h3, ?_, ?_⟩
        · rw [incCount_of_lt _ h2]; omega
        · have hd : decCount (incCount e.2) = e.2 := decCount_incCount _ h2
          simp only [hd]
          rw [if_neg (by omega)]
    obtain ⟨v, hv⟩ := derefRange_ok s r e1 he1 he1pos
    have hfind_r := (derefRange_present s r e1 he1 he1pos).2
    rw [hafter] at hfind_r
    have hstep : releaseRanges s (r :: rs) = releaseRanges (derefBcmAclRange s r).2 rs := by
      rw [releaseRanges, hv, andThen_ok]
    have hs1 : ∀ k ∈ rs,
        (∀ e, v0 k = some e → 1 ≤ e.2 ∧ e.2 + 1 < refCountModulus ∧
          FlatMap.find (derefBcmAclRange s r).2.aclRangeMap_ k = some (e.1, incCount e.2)) ∧
        (v0 k = none → ∃ o, FlatMap.find (derefBcmAclRange s r).2.aclRangeMap_ k = some (o, 1)) := by
      intro k hk
      have hkr : k ≠ r := fun hh => hn.1 (hh ▸ hk)
      rw [derefRange_find_ne s r k hkr]
      exact h k (List.mem_cons_of_mem _ hk)
    obtain ⟨i1, i2, i3, i4, i5⟩ := ih (derefBcmAclRange s r).2 hn.2 hs1
    rw [hstep]
    refine ⟨i1, ?_, ?_, ?_, ?_⟩
    · intro k hk
      rcases List.mem_cons.1 hk with hk | hk
      · subst hk
        rw [i3 k hn.1, hfind_r]
      · exact i2 k hk
    · intro k hk
      rw [List.mem_cons, not_or] at hk
      rw [i3 k hk.2, derefRange_find_ne s r k hk.1]
    · rw [i4, derefRange_statMap]
    · rw [i5, derefRange_entryMap]

end BcmAclTable

/-! ## What `processAddedAcl` and `processRemovedAcl` do to the three maps -/

namespace BcmAclTable

theorem processAddedAcl_shape (t : BcmAclTable) (g : Int) (acl : AclEntry) :
    ∃ t4 : BcmAclTable,
      t4.aclEntryMap_ = t.aclEntryMap_ ∧
      t4.aclRangeMap_ = (acquireRanges t (aclRangeKeys acl)).2.aclRangeMap_ ∧
      (aclCounterName acl = none → t4.aclStatMap_ = t.aclStatMap_) ∧
      (∀ n, aclCounterName acl = some n → t4.aclStatMap_ =
        (incRefOrCreateBcmAclStat (acquireRanges t (aclRangeKeys acl)).2 g n).2.aclStatMap_) ∧
      processAddedAcl t g acl =
        (if !(FlatMap.emplace t4.aclEntryMap_ acl.getPriority
                ⟨g, acl, (acquireRanges t (aclRangeKeys acl)).1⟩).2
          then .error "failed to add an existing acl entry" else .ok (),
         { t4 with aclEntryMap_ := (FlatMap.emplace t4.aclEntryMap_ acl.getPriority
                ⟨g, acl, (acquireRanges t (aclRangeKeys acl)).1⟩).1 }) := by
  rw [processAddedAcl_eq]
  unfold processAddedAclOnKeys
  cases hn : aclCounterName acl with
  | none =>
    refine ⟨(acquireRanges t (aclRangeKeys acl)).2, acquireRanges_entryMap t _, rfl,
      fun _ => acquireRanges_statMap t _, fun n h => (by cases h), ?_⟩
    dsimp only
    split_ifs <;> rfl
  | some name =>
    refine ⟨(incRefOrCreateBcmAclStat (acquireRanges t (aclRangeKeys acl)).2 g name).2,
      (incRefStat_entryMap _ g name).trans (acquireRanges_entryMap t _),
      incRefStat_rangeMap _ _ _, fun h => (by cases h), fun n h => ?_, ?_⟩
    · cases h; rfl
    · dsimp only
      split_ifs <;> rfl

theorem processAddedAcl_ok_iff (t : BcmAclTable) (g : Int) (acl : AclEntry) :
    (processAddedAcl t g acl).1 = .ok () ↔
      FlatMap.find t.aclEntryMap_ acl.getPriority = none := by
  obtain ⟨t4, he, -, -, -, heq⟩ := processAddedAcl_shape t g acl
  rw [heq, he]
  cases hf : FlatMap.find t.aclEntryMap_ acl.getPriority with
  | none => simp [FlatMap.emplace, hf]
  | some w => simp [FlatMap.emplace, hf]

theorem processAddedAcl_error (t : BcmAclTable) (g : Int) (acl : AclEntry)
    (h : (processAddedAcl t g acl).1 ≠ .ok ()) :
    (processAddedAcl t g acl).1 = .error "failed to add an existing acl entry" := by
  obtain ⟨t4, -, -, -, -, heq⟩ := processAddedAcl_shape t g acl
  rw [heq] at h ⊢
  dsimp only at h ⊢
  split_ifs at h ⊢ with hb
  · rfl
  · exact absurd rfl h

theorem processAddedAcl_rangeMap (t : BcmAclTable) (g : Int) (acl : AclEntry) :
    (processAddedAcl t g acl).2.aclRangeMap_ =
      (acquireRanges t (aclRangeKeys acl)).2.aclRangeMap_ := by
  obtain ⟨t4, -, hr, -, -, heq⟩ := processAddedAcl_shape t g acl
  rw [heq]
  exact hr

theorem processAddedAcl_statMap_none (t : BcmAclTable) (g : Int) (acl : AclEntry)
    (hn : aclCounterName acl = none) :
    (processAddedAcl t g acl).2.aclStatMap_ = t.aclStatMap_ := by
  obtain ⟨t4, -, -, hs, -, heq⟩ := processAddedAcl_shape t g acl
  rw [heq]
  exact hs hn

theorem processAddedAcl_statMap_some (t : BcmAclTable) (g : Int) (acl : AclEntry) (n : String)
    (hn : aclCounterName acl = some n) :
    (processAddedAcl t g acl).2.aclStatMap_ =
      (incRefOrCreateBcmAclStat (acquireRanges t (aclRangeKeys acl)).2 g n).2.aclStatMap_ := by
  obtain ⟨t4, -, -, -, hs, heq⟩ := processAddedAcl_shape t g acl
  rw [heq]
  exact hs n hn

theorem processAddedAcl_entry_find_ne (t : BcmAclTable) (g : Int) (acl : AclEntry) (k : Int)
    (hk : k ≠ acl.getPriority) :
    FlatMap.find (processAddedAcl t g acl).2.aclEntryMap_ k = FlatMap.find t.aclEntryMap_ k := by
  obtain ⟨t4, he, -, -, -, heq⟩ := processAddedAcl_shape t g acl
  rw [heq]
  dsimp only
  rw [he, FlatMap.find_emplace, if_neg hk]

theorem processAddedAcl_entry_find_fresh (t : BcmAclTable) (g : Int) (acl : AclEntry)
    (hf : FlatMap.find t.aclEntryMap_ acl.getPriority = none) :
    FlatMap.find (processAddedAcl t g acl).2.aclEntryMap_ acl.getPriority =
      some ⟨g, acl, (acquireRanges t (aclRangeKeys acl)).1⟩ := by
  obtain ⟨t4, he, -, -, -, heq⟩ := processAddedAcl_shape t g acl
  rw [heq]
  dsimp only
  rw [he, FlatMap.find_emplace, if_pos rfl, hf]

theorem processAddedAcl_entryMap_of_present (t : BcmAclTable) (g : Int) (acl : AclEntry)
    (w : BcmAclEntry) (h : FlatMap.find t.aclEntryMap_ acl.getPriority = some w) :
    (processAddedAcl t g acl).2.aclEntryMap_ = t.aclEntryMap_ := by
  obtain ⟨t4, he, -, -, -, heq⟩ := processAddedAcl_shape t g acl
  rw [heq]
  dsimp only
  rw [he, FlatMap.emplace_of_find_some t.aclEntryMap_ acl.getPriority _ w h]

theorem processRemovedAcl_absent (t : BcmAclTable) (acl : AclEntry)
    (h : FlatMap.find t.aclEntryMap_ acl.getPriority = none) :
    processRemovedAcl t acl = (.error "failed to erase an existing bcm acl entry", t) := by
  unfold processRemovedAcl
  dsimp only
  rw [if_pos ((FlatMap.erase_count_eq_zero _ _).2 h), FlatMap.erase_of_find_none _ _ h]

theorem processRemovedAcl_present_none (s : BcmAclTable) (acl : AclEntry)
    (h : FlatMap.find s.aclEntryMap_ acl.getPriority ≠ none)
    (hn : aclCounterName acl = none) :
    processRemovedAcl s acl =
      releaseRanges { s with aclEntryMap_ := (FlatMap.erase s.aclEntryMap_ acl.getPriority).1 }
        (aclRangeKeys acl) := by
  rw [processRemovedAcl_eq]
  unfold processRemovedAclOnKeys
  dsimp only
  rw [if_neg (fun h0 => h ((FlatMap.erase_count_eq_zero _ _).1 h0)), hn]
  rfl

theorem processRemovedAcl_present_some (s : BcmAclTable) (acl : AclEntry) (n : String)
    (h : FlatMap.find s.aclEntryMap_ acl.getPriority ≠ none)
    (hn : aclCounterName acl = some n) :
    processRemovedAcl s acl =
      andThen
        (derefBcmAclStat
          { s with aclEntryMap_ := (FlatMap.erase s.aclEntryMap_ acl.getPriority).1 } n)
        (fun t1 => releaseRanges t1 (aclRangeKeys acl)) := by
  rw [processRemovedAcl_eq]
  unfold processRemovedAclOnKeys
  dsimp only
  rw [if_neg (fun h0 => h ((FlatMap.erase_count_eq_zero _ _).1 h0)), hn]

end BcmAclTable

/-! ## The round trip of an add and a remove -/

namespace BcmAclTable

theorem restore_hyp (t s1 : BcmAclTable) (acl : AclEntry) (hc : CountsPositive t)
    (hw : NoWrapOnAdd t acl)
    (h1 : s1.aclRangeMap_ = (acquireRanges t (aclRangeKeys acl)).2.aclRangeMap_) :
    ∀ k ∈ aclRangeKeys acl,
      (∀ e, FlatMap.find t.aclRangeMap_ k = some e → 1 ≤ e.2 ∧ e.2 + 1 < refCountModulus ∧
        FlatMap.find s1.aclRangeMap_ k = some (e.1, incCount e.2)) ∧
      (FlatMap.find t.aclRangeMap_ k = none →
        ∃ o, FlatMap.find s1.aclRangeMap_ k = some (o, 1)) := by
  intro k hk
  rw [h1]
  obtain ⟨a, b⟩ := acquireRanges_find_mem t _ (aclRangeKeys_nodup acl) k hk
  refine ⟨fun e he => ⟨?_, ?_, a e he⟩, b⟩
  · exact (hc.1 _ (FlatMap.find_mem _ _ _ he)).1
  · have := hw.1 k hk
    rwa [getAclRangeRefCount_of_find t k e he] at this

theorem round_trip_ranges (t s0 : BcmAclTable) (acl : AclEntry) (hc : CountsPositive t)
    (hw : NoWrapOnAdd t acl)
    (h1 : s0.aclRangeMap_ = (acquireRanges t (aclRangeKeys acl)).2.aclRangeMap_) :
    (releaseRanges s0 (aclRangeKeys acl)).1 = .ok () ∧
    (∀ k, FlatMap.find (releaseRanges s0 (aclRangeKeys acl)).2.aclRangeMap_ k =
      FlatMap.find t.aclRangeMap_ k) ∧
    (releaseRanges s0 (aclRangeKeys acl)).2.aclStatMap_ = s0.aclStatMap_ ∧
    (releaseRanges s0 (aclRangeKeys acl)).2.aclEntryMap_ = s0.aclEntryMap_ := by
  obtain ⟨i1, i2, i3, i4, i5⟩ := releaseRanges_restore s0 (aclRangeKeys acl)
    (aclRangeKeys_nodup acl) (fun k => FlatMap.find t.aclRangeMap_ k)
    (restore_hyp t s0 acl hc hw h1)
  refine ⟨i1, fun k => ?_, i4, i5⟩
  by_cases hk : k ∈ aclRangeKeys acl
  · exact i2 k hk
  · rw [i3 k hk, h1, acquireRanges_find_not_mem t _ k hk]

theorem derefStat_ok (t : BcmAclTable) (n : String) (e : BcmAclStat × Nat)
    (h : FlatMap.find t.aclStatMap_ n = some e) :
    derefBcmAclStat t n = (.ok (), (derefBcmAclStat t n).2) :=
  Prod.ext (derefStat_present t n e h).1 rfl

theorem round_trip_stat (t s0 : BcmAclTable) (g : Int) (n : String)
    (hpos : ∀ e, FlatMap.find t.aclStatMap_ n = some e → 1 ≤ e.2 ∧ e.2 + 1 < refCountModulus)
    (q : BcmAclTable) (hq : q.aclStatMap_ = t.aclStatMap_)
    (h0 : s0.aclStatMap_ = (incRefOrCreateBcmAclStat q g n).2.aclStatMap_) :
    derefBcmAclStat s0 n = (.ok (), (derefBcmAclStat s0 n).2) ∧
    (∀ k, FlatMap.find (derefBcmAclStat s0 n).2.aclStatMap_ k = FlatMap.find t.aclStatMap_ k) := by
  cases hf : FlatMap.find t.aclStatMap_ n with
  | none =>
    have hs0 : FlatMap.find s0.aclStatMap_ n = some ((BcmAclStat.create q.hw_ g).1, 1) := by
      rw [h0]; exact incRefStat_find_absent q g n (by rw [hq]; exact hf)
    refine ⟨derefStat_ok s0 n _ hs0, fun k => ?_⟩
    by_cases hk : k = n
    · subst hk
      rw [(derefStat_present s0 k _ hs0).2, hf]
      show (if decCount 1 = 0 then none else _) = none
      rw [if_pos decCount_one]
    · rw [derefStat_find_ne s0 n k hk, h0, incRefStat_find_ne q g n k hk, hq]
  | some e =>
    obtain ⟨p1, p2⟩ := hpos e hf
    have hs0 : FlatMap.find s0.aclStatMap_ n = some (e.1, incCount e.2) := by
      rw [h0]; exact incRefStat_find_present q g n e (by rw [hq]; exact hf)
    refine ⟨derefStat_ok s0 n _ hs0, fun k => ?_⟩
    by_cases hk : k = n
    · subst hk
      rw [(derefStat_present s0 k _ hs0).2, hf]
      show (if decCount (incCount e.2) = 0 then none
        else some (e.1, decCount (incCount e.2))) = some e
      rw [decCount_incCount _ p2, if_neg (by omega)]
    · rw [derefStat_find_ne s0 n k hk, h0, incRefStat_find_ne q g n k hk, hq]

theorem round_trip_core (t : BcmAclTable) (g : Int) (acl : AclEntry) (hc : CountsPositive t)
    (hw : NoWrapOnAdd t acl)
    (hf : FlatMap.find t.aclEntryMap_ acl.getPriority = none) :
    (processRemovedAcl (processAddedAcl t g acl).2 acl).1 = .ok () ∧
    (∀ k, FlatMap.find (processRemovedAcl (processAddedAcl t g acl).2 acl).2.aclRangeMap_ k =
      FlatMap.find t.aclRangeMap_ k) ∧
    (∀ n, FlatMap.find (processRemovedAcl (processAddedAcl t g acl).2 acl).2.aclStatMap_ n =
      FlatMap.find t.aclStatMap_ n) ∧
    (∀ p, FlatMap.find (processRemovedAcl (processAddedAcl t g acl).2 acl).2.aclEntryMap_ p =
      FlatMap.find t.aclEntryMap_ p) := by
  have hsp : FlatMap.find (processAddedAcl t g acl).2.aclEntryMap_ acl.getPriority ≠ none := by
    rw [processAddedAcl_entry_find_fresh t g acl hf]; simp
  have hsr := processAddedAcl_rangeMap t g acl
  have hentry : ∀ p, FlatMap.find
      (FlatMap.erase (processAddedAcl t g acl).2.aclEntryMap_ acl.getPriority).1 p =
      FlatMap.find t.aclEntryMap_ p := by
    intro p
    rw [FlatMap.find_erase]
    by_cases hp : p = acl.getPriority
    · rw [if_pos hp, hp, hf]
    · rw [if_neg hp, processAddedAcl_entry_find_ne t g acl p hp]
  cases hn : aclCounterName acl with
  | none =>
    rw [processRemovedAcl_present_none _ acl hsp hn]
    have hsn := processAddedAcl_statMap_none t g acl hn
    have key : ∀ s0 : BcmAclTable,
        s0.aclRangeMap_ = (processAddedAcl t g acl).2.aclRangeMap_ →
        s0.aclStatMap_ = (processAddedAcl t g acl).2.aclStatMap_ →
        s0.aclEntryMap_ =
          (FlatMap.erase (processAddedAcl t g acl).2.aclEntryMap_ acl.getPriority).1 →
        (releaseRanges s0 (aclRangeKeys acl)).1 = .ok () ∧
        (∀ k, FlatMap.find (releaseRanges s0 (aclRangeKeys acl)).2.aclRangeMap_ k =
          FlatMap.find t.aclRangeMap_ k) ∧
        (∀ n, FlatMap.find (releaseRanges s0 (aclRangeKeys acl)).2.aclStatMap_ n =
          FlatMap.find t.aclStatMap_ n) ∧
        (∀ p, FlatMap.find (releaseRanges s0 (aclRangeKeys acl)).2.aclEntryMap_ p =
          FlatMap.find t.aclEntryMap_ p) := by
      intro s0 e1 e2 e3
      obtain ⟨j1, j2, j3, j4⟩ := round_trip_ranges t s0 acl hc hw (e1.trans hsr)
      refine ⟨j1, j2, fun n => ?_, fun p => ?_⟩
      · rw [j3, e2, hsn]
      · rw [j4, e3]
        exact hentry p
    exact key _ rfl rfl rfl
  | some n =>
    rw [processRemovedAcl_present_some _ acl n hsp hn]
    have hss := processAddedAcl_statMap_some t g acl n hn
    have hpos : ∀ e, FlatMap.find t.aclStatMap_ n = some e →
        1 ≤ e.2 ∧ e.2 + 1 < refCountModulus := by
      intro e he
      refine ⟨(hc.2 _ (FlatMap.find_mem _ _ _ he)).1, ?_⟩
      have := hw.2 n (by rw [hn]; exact rfl)
      rwa [getAclStatRefCount_of_find t n e he] at this
    have key : ∀ s0 : BcmAclTable,
        s0.aclRangeMap_ = (processAddedAcl t g acl).2.aclRangeMap_ →
        s0.aclStatMap_ = (processAddedAcl t g acl).2.aclStatMap_ →
        s0.aclEntryMap_ =
          (FlatMap.erase (processAddedAcl t g acl).2.aclEntryMap_ acl.getPriority).1 →
        (andThen (derefBcmAclStat s0 n) (fun t1 => releaseRanges t1 (aclRangeKeys acl))).1 =
          .ok () ∧
        (∀ k, FlatMap.find (andThen (derefBcmAclStat s0 n)
            (fun t1 => releaseRanges t1 (aclRangeKeys acl))).2.aclRangeMap_ k =
          FlatMap.find t.aclRangeMap_ k) ∧
        (∀ m, FlatMap.find (andThen (derefBcmAclStat s0 n)
            (fun t1 => releaseRanges t1 (aclRangeKeys acl))).2.aclStatMap_ m =
          FlatMap.find t.aclStatMap_ m) ∧
        (∀ p, FlatMap.find (andThen (derefBcmAclStat s0 n)
            (fun t1 => releaseRanges t1 (aclRangeKeys acl))).2.aclEntryMap_ p =
          FlatMap.find t.aclEntryMap_ p) := by
      intro s0 e1 e2 e3
      obtain ⟨k1, k2⟩ := round_trip_stat t s0 g n hpos (acquireRanges t (aclRangeKeys acl)).2
        (acquireRanges_statMap t _) (e2.trans hss)
      rw [k1, andThen_ok]
      obtain ⟨j1, j2, j3, j4⟩ := round_trip_ranges t (derefBcmAclStat s0 n).2 acl hc hw
        ((derefStat_rangeMap s0 n).trans (e1.trans hsr))
      refine ⟨j1, j2, fun m => ?_, fun p => ?_⟩
      · rw [j3]
        exact k2 m
      · rw [j4, derefStat_entryMap, e3]
        exact hentry p
    exact key _ rfl rfl rfl

end BcmAclTable

/-! ## C2: add followed by remove -/

theorem noWrapOnAdd_of_not_max (t : BcmAclTable) (acl : AclEntry) (hc : CountsPositive t)
    (hmax : (∀ x ∈ t.aclRangeMap_, x.2.2 ≠ refCountModulus - 1) ∧
      (∀ x ∈ t.aclStatMap_, x.2.2 ≠ refCountModulus - 1)) :
    NoWrapOnAdd t acl := by
  have hM : 1 < refCountModulus := by norm_num [refCountModulus]
  refine ⟨fun r _ => ?_, fun n _ => ?_⟩
  · cases hf : FlatMap.find t.aclRangeMap_ r with
    | none => simpa [getAclRangeRefCount, hf] using hM
    | some e =>
      rw [getAclRangeRefCount_of_find t r e hf]
      have h1 := (hc.1 _ (FlatMap.find_mem _ _ _ hf)).2
      have h2 := hmax.1 _ (FlatMap.find_mem _ _ _ hf)
      simp only at h1 h2
      omega
  · cases hf : FlatMap.find t.aclStatMap_ n with
    | none => simpa [getAclStatRefCount, hf] using hM
    | some e =>
      rw [getAclStatRefCount_of_find t n e hf]
      have h1 := (hc.2 _ (FlatMap.find_mem _ _ _ hf)).2
      have h2 := hmax.2 _ (FlatMap.find_mem _ _ _ hf)
      simp only at h1 h2
      omega

/-- C2, as the code has it: in a table reached from the empty one by public calls none of
which wrapped a count, where no stored count is at the `uint32_t` maximum, adding an entry whose priority
is not in the entry map and removing it right away both succeed, and afterwards every
range key and every counter name has the stored object and reference count it had before
the add (absent keys are absent again), and every priority has the entry it had before. -/
theorem add_remove_round_trip (hw : BcmSwitch) (ops : List AclTableOp) (g : Int)
    (acl : AclEntry)
    (hreach : NoWrap (BcmAclTable.init hw) ops)
    (hfresh : getAclIf (run (BcmAclTable.init hw) ops) acl.getPriority = none)
    (hmax : (∀ x ∈ (run (BcmAclTable.init hw) ops).aclRangeMap_, x.2.2 ≠ refCountModulus - 1) ∧
      (∀ x ∈ (run (BcmAclTable.init hw) ops).aclStatMap_, x.2.2 ≠ refCountModulus - 1)) :
    let t := run (BcmAclTable.init hw) ops
    let added := processAddedAcl t g acl
    let removed := processRemovedAcl added.2 acl
    added.1 = .ok () ∧ removed.1 = .ok () ∧
    (∀ r, FlatMap.find removed.2.aclRangeMap_ r = FlatMap.find t.aclRangeMap_ r) ∧
    (∀ r, getAclRangeRefCount removed.2 r = getAclRangeRefCount t r) ∧
    (∀ n, FlatMap.find removed.2.aclStatMap_ n = FlatMap.find t.aclStatMap_ n) ∧
    (∀ n, getAclStatRefCount removed.2 n = getAclStatRefCount t n) ∧
    (∀ p, getAclIf removed.2 p = getAclIf t p) := by
  intro t added removed
  have hc : CountsPositive t := countsPositive_run _ ops (countsPositive_init hw) hreach
  have hnw := noWrapOnAdd_of_not_max t acl hc hmax
  obtain ⟨h1, h2, h3, h4⟩ := round_trip_core t g acl hc hnw hfresh
  refine ⟨(processAddedAcl_ok_iff t g acl).2 hfresh, h1, h2, fun r => ?_, h3, fun n => ?_, h4⟩
  · show getAclRangeRefCount (processRemovedAcl (processAddedAcl t g acl).2 acl).2 r = _
    unfold getAclRangeRefCount
    rw [h2 r]
  · show getAclStatRefCount (processRemovedAcl (processAddedAcl t g acl).2 acl).2 n = _
    unfold getAclStatRefCount
    rw [h3 n]

/-- Witness of `add_remove_round_trip`: after priority 10 was added to the empty table,
priority 20 with the same range and counter is added and removed. -/
theorem add_remove_round_trip_witness :
    NoWrap (BcmAclTable.init sampleSwitch) [.processAddedAcl 1 (sampleEntry 10)] ∧
    getAclIf (run (BcmAclTable.init sampleSwitch) [.processAddedAcl 1 (sampleEntry 10)])
      (sampleEntry 20).getPriority = none ∧
    (let t := run (BcmAclTable.init sampleSwitch) [.processAddedAcl 1 (sampleEntry 10)]
    let added := processAddedAcl t 1 (sampleEntry 20)
    let removed := processRemovedAcl added.2 (sampleEntry 20)
    added.1 = .ok () ∧ removed.1 = .ok () ∧
    (∀ r, FlatMap.find removed.2.aclRangeMap_ r = FlatMap.find t.aclRangeMap_ r) ∧
    (∀ r, getAclRangeRefCount removed.2 r = getAclRangeRefCount t r) ∧
    (∀ n, FlatMap.find removed.2.aclStatMap_ n = FlatMap.find t.aclStatMap_ n) ∧
    (∀ n, getAclStatRefCount removed.2 n = getAclStatRefCount t n) ∧
    (∀ p, getAclIf removed.2 p = getAclIf t p)) :=
  have hreach : NoWrap (BcmAclTable.init sampleSwitch) [.processAddedAcl 1 (sampleEntry 10)] :=
    ⟨⟨by decide, by decide⟩, trivial⟩
  ⟨hreach, by decide,
    add_remove_round_trip sampleSwitch [.processAddedAcl 1 (sampleEntry 10)] 1 (sampleEntry 20)
      hreach (by decide) ⟨by decide, by decide⟩⟩


/-! ## C11: queries that a variant of egress does not support -/

/-- C11: on every multipath egress `isEcmp` is true and both `getMac` and `getLabel` throw;
on every single-path egress `isEcmp` and `hasLabel` are false, `getMac` returns the stored
MAC and `getLabel` throws; the three failures carry pairwise distinct messages. -/
theorem egress_variant_queries (m : BcmEcmpEgress) (s : BcmEgress) :
    m.isEcmp = true ∧
    m.getMac = .error "mac requested on multipath egress" ∧
    m.getLabel = .error "labeled requested on multipath egress" ∧
    s.isEcmp = false ∧ s.hasLabel = false ∧
    s.getMac = .ok s.mac_ ∧
    s.getLabel = .error "labeled requested on unlabeled egress" ∧
    m.getMac ≠ m.getLabel ∧ m.getMac ≠ s.getLabel ∧ m.getLabel ≠ s.getLabel := by
  refine ⟨rfl, rfl, rfl, rfl, rfl, rfl, rfl, ?_, ?_, ?_⟩ <;>
    simp only [BcmEcmpEgress.getMac, BcmEcmpEgress.getLabel, BcmEgress.getLabel, ne_eq,
      Except.error.injEq] <;> decide

/-! ## C16: the route-to-CPU predicate -/

theorem lor_ne_zero_of_right (a b : Nat) (hb : b ≠ 0) : a ||| b ≠ 0 := by
  intro h
  obtain ⟨i, hi⟩ := Nat.ne_zero_implies_bit_true hb
  have := congrArg (fun x => Nat.testBit x i) h
  simp [Nat.testBit_or, hi] at this

/-- C16: whenever the mask `BCM_L3_COPY_TO_CPU` is not zero, `isHwRouteToCpu` is true exactly
when the `BCM_L3_L2TOCPU` bit is set in the flags, whatever the `BCM_L3_COPY_TO_CPU` bit is:
the second operand is the bitwise or of the flags with the mask, which is never zero. An
egress with `L2TOCPU` set and `COPY_TO_CPU` clear is reported as a route to CPU. -/
theorem isHwRouteToCpu_ignores_copy_bit (l2ToCpuMask copyToCpuMask flags : Nat)
    (hc : copyToCpuMask ≠ 0) :
    isHwRouteToCpu l2ToCpuMask copyToCpuMask flags = ((flags &&& l2ToCpuMask) != 0) := by
  unfold isHwRouteToCpu
  have h : ((flags ||| copyToCpuMask) != 0) = true := by
    simpa using lor_ne_zero_of_right flags copyToCpuMask hc
  rw [h, Bool.and_true]

/-- Witness of `isHwRouteToCpu_ignores_copy_bit`: with the masks `2^0` and `2^1`, the flags
word that has only the first bit set is reported as a route to CPU although its second bit
is clear. -/
theorem isHwRouteToCpu_ignores_copy_bit_witness :
    (2 : Nat) ≠ 0 ∧ (1 &&& 2 : Nat) = 0 ∧ isHwRouteToCpu 1 2 1 = ((1 &&& 1 : Nat) != 0) ∧
    isHwRouteToCpu 1 2 1 = true :=
  ⟨by decide, by decide, isHwRouteToCpu_ignores_copy_bit 1 2 1 (by decide), by decide⟩

/-! ## C14: full teardown -/

/-- C14: after `releaseAcls` the three maps are empty: every lookup is null, every
reference count reads 0 and both table counts are 0. The source clears the entries first,
then the stats, then the ranges: the tables after the three statements are listed, the
entry map is empty in each of them, and the last one is the table `releaseAcls` returns. -/
theorem releaseAcls_teardown (t : BcmAclTable) :
    (∀ p, getAclIf (releaseAcls t) p = none) ∧
    (∀ r, getAclRangeIf (releaseAcls t) r = none ∧ getAclRangeRefCount (releaseAcls t) r = 0) ∧
    (∀ n, getAclStatIf (releaseAcls t) n = none ∧ getAclStatRefCount (releaseAcls t) n = 0) ∧
    getAclRangeCount (releaseAcls t) = 0 ∧ getAclStatCount (releaseAcls t) = 0 ∧
    releaseAclsSteps t =
      [⟨t.hw_, [], t.aclRangeMap_, t.aclStatMap_⟩, ⟨t.hw_, [], t.aclRangeMap_, []⟩,
        ⟨t.hw_, [], [], []⟩] ∧
    (releaseAclsSteps t).map (fun s => s.aclEntryMap_) = [[], [], []] ∧
    (releaseAclsSteps t).getLast? = some (releaseAcls t) :=
  ⟨fun _ => rfl, fun _ => ⟨rfl, rfl⟩, fun _ => ⟨rfl, rfl⟩, rfl, rfl, rfl, rfl, rfl⟩


/-! ## C15: what a rejected add leaves behind -/

/-- C15: the table holds priority 10 with the range [100,200] and the counter "cnt1"; a
second `processAddedAcl` of an entry of priority 10 with the same range and counter throws,
and leaves the reference counts of the range and of the counter at 2 instead of 1. When
the table holds priority 10 without any range or counter, the rejected add of an entry of
priority 10 with the range and the counter leaves both created in the tables with count
1, and the counter registered with the stat updater. -/
theorem rejected_add_keeps_acquisitions :
    (getAclRangeRefCount
        (processAddedAcl (BcmAclTable.init sampleSwitch) 1 (sampleEntry 10)).2
        ⟨.SRC_L4_PORT, 100, 200⟩ = 1 ∧
      getAclStatRefCount
        (processAddedAcl (BcmAclTable.init sampleSwitch) 1 (sampleEntry 10)).2 "cnt1" = 1 ∧
      (processAddedAcl (processAddedAcl (BcmAclTable.init sampleSwitch) 1 (sampleEntry 10)).2
        1 (sampleEntry 10)).1 = .error "failed to add an existing acl entry" ∧
      getAclRangeRefCount
        (processAddedAcl (processAddedAcl (BcmAclTable.init sampleSwitch) 1 (sampleEntry 10)).2
          1 (sampleEntry 10)).2 ⟨.SRC_L4_PORT, 100, 200⟩ = 2 ∧
      getAclStatRefCount
        (processAddedAcl (processAddedAcl (BcmAclTable.init sampleSwitch) 1 (sampleEntry 10)).2
          1 (sampleEntry 10)).2 "cnt1" = 2 ∧
      (processAddedAcl (processAddedAcl (BcmAclTable.init sampleSwitch) 1 (sampleEntry 10)).2
          1 (sampleEntry 10)).2.aclEntryMap_ =
        (processAddedAcl (BcmAclTable.init sampleSwitch) 1 (sampleEntry 10)).2.aclEntryMap_) ∧
    (getAclRangeIf (processAddedAcl (BcmAclTable.init sampleSwitch) 1 (bareEntry 10)).2
        ⟨.SRC_L4_PORT, 100, 200⟩ = none ∧
      getAclStatIf (processAddedAcl (BcmAclTable.init sampleSwitch) 1 (bareEntry 10)).2
        "cnt1" = none ∧
      (processAddedAcl (BcmAclTable.init sampleSwitch) 1 (bareEntry 10)).2.hw_.calls = [] ∧
      (processAddedAcl (processAddedAcl (BcmAclTable.init sampleSwitch) 1 (bareEntry 10)).2
        1 (sampleEntry 10)).1 = .error "failed to add an existing acl entry" ∧
      getAclRangeRefCount
        (processAddedAcl (processAddedAcl (BcmAclTable.init sampleSwitch) 1 (bareEntry 10)).2
          1 (sampleEntry 10)).2 ⟨.SRC_L4_PORT, 100, 200⟩ = 1 ∧
      getAclStatRefCount
        (processAddedAcl (processAddedAcl (BcmAclTable.init sampleSwitch) 1 (bareEntry 10)).2
          1 (sampleEntry 10)).2 "cnt1" = 1 ∧
      (processAddedAcl (processAddedAcl (BcmAclTable.init sampleSwitch) 1 (bareEntry 10)).2
          1 (sampleEntry 10)).2.hw_.calls = [HwCall.toBeAddedAclStat 1001 "cnt1"] ∧
      (processAddedAcl (processAddedAcl (BcmAclTable.init sampleSwitch) 1 (bareEntry 10)).2
          1 (sampleEntry 10)).2.aclEntryMap_ =
        (processAddedAcl (BcmAclTable.init sampleSwitch) 1 (bareEntry 10)).2.aclEntryMap_) :=
  ⟨⟨rfl, rfl, rfl, rfl, rfl, rfl⟩, ⟨rfl, rfl, rfl, rfl, rfl, rfl, rfl, rfl⟩⟩

/-! ## C13: which resources an add acquires -/

theorem incCount_zero : incCount 0 = 1 := by
  norm_num [incCount, refCountModulus]

theorem mem_aclRangeKeys (acl : AclEntry) (r : AclRange) :
    r ∈ aclRangeKeys acl ↔
      (∃ p, acl.getSrcL4PortRange = some p ∧ p.isExactMatch = false ∧
        r = ⟨.SRC_L4_PORT, p.getMin, p.getMax⟩) ∨
      (∃ p, acl.getDstL4PortRange = some p ∧ p.isExactMatch = false ∧
        r = ⟨.DST_L4_PORT, p.getMin, p.getMax⟩) ∨
      (∃ p, acl.getPktLenRange = some p ∧ r = ⟨.PKT_LEN, p.getMin, p.getMax⟩) := by
  obtain ⟨p, src, dst, pkt, act⟩ := acl
  rcases src with _ | src <;> rcases dst with _ | dst <;> rcases pkt with _ | pkt <;>
    (try cases hs : src.isExactMatch) <;> (try cases hd : dst.isExactMatch) <;>
    simp [aclRangeKeys, *]

theorem aclCounterName_eq_some (acl : AclEntry) (n : String) :
    aclCounterName acl = some n ↔
      ∃ a pc, acl.getAclAction = some a ∧ a.getPacketCounter = some pc ∧ pc.counterName = n := by
  obtain ⟨p, src, dst, pkt, act⟩ := acl
  rcases act with _ | ⟨_ | pc⟩ <;> simp [aclCounterName]

namespace BcmAclTable

theorem acquireRanges_refCount (t : BcmAclTable) (rs : List AclRange) (hn : rs.Nodup)
    (k : AclRange) :
    getAclRangeRefCount (acquireRanges t rs).2 k =
      if k ∈ rs then incCount (getAclRangeRefCount t k) else getAclRangeRefCount t k := by
  by_cases hk : k ∈ rs
  · rw [if_pos hk]
    obtain ⟨a, b⟩ := acquireRanges_find_mem t rs hn k hk
    cases hf : FlatMap.find t.aclRangeMap_ k with
    | none =>
      obtain ⟨o, ho⟩ := b hf
      simp only [getAclRangeRefCount, ho, hf, incCount_zero]
    | some e =>
      simp only [getAclRangeRefCount, a e hf, hf]
  · rw [if_neg hk]
    simp only [getAclRangeRefCount, acquireRanges_find_not_mem t rs k hk]

theorem incRefStat_refCount (t : BcmAclTable) (g : Int) (n k : String) :
    getAclStatRefCount (incRefOrCreateBcmAclStat t g n).2 k =
      if k = n then incCount (getAclStatRefCount t k) else getAclStatRefCount t k := by
  by_cases hk : k = n
  · subst hk
    rw [if_pos rfl]
    cases hf : FlatMap.find t.aclStatMap_ k with
    | none => simp only [getAclStatRefCount, incRefStat_find_absent t g k hf, hf, incCount_zero]
    | some e => simp only [getAclStatRefCount, incRefStat_find_present t g k e hf, hf]
  · rw [if_neg hk]
    simp only [getAclStatRefCount, incRefStat_find_ne t g n k hk]

theorem processAddedAcl_rangeRefCount (t : BcmAclTable) (g : Int) (acl : AclEntry)
    (r : AclRange) :
    getAclRangeRefCount (processAddedAcl t g acl).2 r =
      if r ∈ aclRangeKeys acl then incCount (getAclRangeRefCount t r)
      else getAclRangeRefCount t r := by
  rw [← acquireRanges_refCount t _ (aclRangeKeys_nodup acl) r]
  simp only [getAclRangeRefCount, processAddedAcl_rangeMap]

theorem processAddedAcl_statRefCount (t : BcmAclTable) (g : Int) (acl : AclEntry)
    (n : String) :
    getAclStatRefCount (processAddedAcl t g acl).2 n =
      if aclCounterName acl = some n then incCount (getAclStatRefCount t n)
      else getAclStatRefCount t n := by
  cases hc : aclCounterName acl with
  | none =>
    rw [if_neg (by simp)]
    simp only [getAclStatRefCount, processAddedAcl_statMap_none t g acl hc]
  | some m =>
    have h1 : getAclStatRefCount (processAddedAcl t g acl).2 n =
        getAclStatRefCount (incRefOrCreateBcmAclStat (acquireRanges t (aclRangeKeys acl)).2 g m).2
          n := by
      simp only [getAclStatRefCount, processAddedAcl_statMap_some t g acl m hc]
    have h2 : getAclStatRefCount (acquireRanges t (aclRangeKeys acl)).2 n =
        getAclStatRefCount t n := by
      simp only [getAclStatRefCount, acquireRanges_statMap]
    rw [h1, incRefStat_refCount, h2]
    by_cases hnm : n = m
    · subst hnm; simp
    · have : ¬ (some m = some n) := fun h => hnm (Option.some.inj h).symm
      rw [if_neg hnm, if_neg this]

end BcmAclTable

/-- C13, as the code has it: `processAddedAcl` of an entry whose priority is not in the
table adds 1 (in `uint32_t` arithmetic, so an absent key comes to read 1) to the count of
one range key for the source port range and one for the destination port range when that
criterion is present and not an exact match, of one range key for the packet-length range
whenever that criterion is present, exact match or not, and of the counter name when the
action carries a packet counter; the count of every other range key and of every other
counter name is unchanged. -/
theorem processAddedAcl_acquires (t : BcmAclTable) (g : Int) (acl : AclEntry)
    (hfresh : getAclIf t acl.getPriority = none) :
    (processAddedAcl t g acl).1 = .ok () ∧
    (∀ r, r ∈ aclRangeKeys acl ↔
      (∃ p, acl.getSrcL4PortRange = some p ∧ p.isExactMatch = false ∧
        r = ⟨.SRC_L4_PORT, p.getMin, p.getMax⟩) ∨
      (∃ p, acl.getDstL4PortRange = some p ∧ p.isExactMatch = false ∧
        r = ⟨.DST_L4_PORT, p.getMin, p.getMax⟩) ∨
      (∃ p, acl.getPktLenRange = some p ∧ r = ⟨.PKT_LEN, p.getMin, p.getMax⟩)) ∧
    (∀ n, aclCounterName acl = some n ↔
      ∃ a pc, acl.getAclAction = some a ∧ a.getPacketCounter = some pc ∧ pc.counterName = n) ∧
    (∀ r, getAclRangeRefCount (processAddedAcl t g acl).2 r =
      if r ∈ aclRangeKeys acl then incCount (getAclRangeRefCount t r)
      else getAclRangeRefCount t r) ∧
    (∀ n, getAclStatRefCount (processAddedAcl t g acl).2 n =
      if aclCounterName acl = some n then incCount (getAclStatRefCount t n)
      else getAclStatRefCount t n) ∧
    incCount 0 = 1 ∧ (∀ c, c + 1 < refCountModulus → incCount c = c + 1) :=
  ⟨(processAddedAcl_ok_iff t g acl).2 hfresh, mem_aclRangeKeys acl, aclCounterName_eq_some acl,
    processAddedAcl_rangeRefCount t g acl, processAddedAcl_statRefCount t g acl,
    incCount_zero, incCount_of_lt⟩

/-- Witness of `processAddedAcl_acquires`: priority 10 with the source port range [100,200]
and the counter "cnt1", added to the empty table. -/
theorem processAddedAcl_acquires_witness :
    getAclIf (BcmAclTable.init sampleSwitch) (sampleEntry 10).getPriority = none ∧
    getAclRangeRefCount (processAddedAcl (BcmAclTable.init sampleSwitch) 1 (sampleEntry 10)).2
      ⟨.SRC_L4_PORT, 100, 200⟩ =
      (if (⟨.SRC_L4_PORT, 100, 200⟩ : AclRange) ∈ aclRangeKeys (sampleEntry 10)
        then incCount (getAclRangeRefCount (BcmAclTable.init sampleSwitch) ⟨.SRC_L4_PORT, 100, 200⟩)
        else getAclRangeRefCount (BcmAclTable.init sampleSwitch) ⟨.SRC_L4_PORT, 100, 200⟩) :=
  ⟨rfl, (processAddedAcl_acquires (BcmAclTable.init sampleSwitch) 1 (sampleEntry 10) rfl).2.2.2.1 _⟩

/-- C13 fails as stated: an entry whose only criterion is the packet-length range [64,64],
an exact match, makes `processAddedAcl` acquire the range key `(PKT_LEN, 64, 64)`: absent
before the call, it is in the table with count 1 after it. -/
theorem pktLen_exact_match_is_acquired :
    getAclIf (BcmAclTable.init sampleSwitch) (pktLenEntry 10).getPriority = none ∧
    (pktLenEntry 10).getPktLenRange = some ⟨64, 64⟩ ∧
    getAclRangeIf (BcmAclTable.init sampleSwitch) ⟨.PKT_LEN, 64, 64⟩ = none ∧
    (processAddedAcl (BcmAclTable.init sampleSwitch) 1 (pktLenEntry 10)).1 = .ok () ∧
    getAclRangeRefCount (processAddedAcl (BcmAclTable.init sampleSwitch) 1 (pktLenEntry 10)).2
      ⟨.PKT_LEN, 64, 64⟩ = 1 ∧
    getAclRangeIf (processAddedAcl (BcmAclTable.init sampleSwitch) 1 (pktLenEntry 10)).2
      ⟨.PKT_LEN, 64, 64⟩ = some ⟨1000, ⟨.PKT_LEN, 64, 64⟩⟩ :=
  ⟨rfl, rfl, rfl, rfl, rfl, rfl⟩

/-! ## C12: creations and destructions of a counter -/

namespace BcmAclTable

theorem incRefStat_added (t : BcmAclTable) (g : Int) (n : String) :
    statAddedCount (incRefOrCreateBcmAclStat t g n).2 =
      statAddedCount t + (if getAclStatIf t n = none then 1 else 0) ∧
    statRemovedCount (incRefOrCreateBcmAclStat t g n).2 = statRemovedCount t ∧
    getAclStatIf (incRefOrCreateBcmAclStat t g n).2 n ≠ none := by
  unfold incRefOrCreateBcmAclStat statAddedCount statRemovedCount getAclStatIf
  cases hf : FlatMap.find t.aclStatMap_ n with
  | none =>
    simp [BcmAclStat.create, List.countP_append, FlatMap.find_emplace, hf]
  | some e =>
    simp [FlatMap.find_assign, hf]

theorem derefStat_calls (t : BcmAclTable) (n : String) (e : BcmAclStat × Nat)
    (hf : FlatMap.find t.aclStatMap_ n = some e) :
    (derefBcmAclStat t n).2.hw_.calls =
      if decCount e.2 = 0 then t.hw_.calls ++ [HwCall.toBeRemovedAclStat e.1.getHandle]
      else t.hw_.calls := by
  unfold derefBcmAclStat
  simp only [hf]
  split_ifs <;> rfl

theorem derefStat_removed (t : BcmAclTable) (n : String) :
    statAddedCount (derefBcmAclStat t n).2 = statAddedCount t ∧
    statRemovedCount (derefBcmAclStat t n).2 =
      statRemovedCount t +
        (if getAclStatIf t n ≠ none ∧ getAclStatIf (derefBcmAclStat t n).2 n = none
          then 1 else 0) := by
  cases hf : FlatMap.find t.aclStatMap_ n with
  | none =>
    rw [derefStat_absent t n hf]
    have : getAclStatIf t n = none := by simp [getAclStatIf, hf]
    simp [this]
  | some e =>
    have hc := derefStat_calls t n e hf
    have hp := (derefStat_present t n e hf).2
    have h1 : getAclStatIf t n ≠ none := by simp [getAclStatIf, hf]
    by_cases hd : decCount e.2 = 0
    · rw [if_pos hd] at hc hp
      have h2 : getAclStatIf (derefBcmAclStat t n).2 n = none := by simp [getAclStatIf, hp]
      rw [if_pos ⟨h1, h2⟩]
      simp [statAddedCount, statRemovedCount, hc, List.countP_append]
    · rw [if_neg hd] at hc hp
      have h2 : getAclStatIf (derefBcmAclStat t n).2 n ≠ none := by simp [getAclStatIf, hp]
      rw [if_neg (fun h => h2 h.2)]
      simp [statAddedCount, statRemovedCount, hc]

theorem decCount_eq_zero_iff (c : Nat) (h : c < refCountModulus) : decCount c = 0 ↔ c = 1 := by
  constructor
  · intro h0
    by_contra hne
    by_cases hc : c = 0
    · subst hc
      have : decCount 0 = refCountModulus - 1 := by
        norm_num [decCount, refCountModulus]
      rw [this] at h0
      norm_num [refCountModulus] at h0
    · have := decCount_of_pos c (Nat.one_le_iff_ne_zero.2 hc) h
      omega
  · intro h1
    subst h1
    exact decCount_one

theorem derefStat_erases_iff (t : BcmAclTable) (n : String) (e : BcmAclStat × Nat)
    (hf : FlatMap.find t.aclStatMap_ n = some e) (hlt : e.2 < refCountModulus) :
    getAclStatIf (derefBcmAclStat t n).2 n = none ↔ getAclStatRefCount t n = 1 := by
  have h := (derefStat_present t n e hf).2
  unfold getAclStatIf getAclStatRefCount
  rw [h, hf]
  dsimp only
  rw [← decCount_eq_zero_iff e.2 hlt]
  split_ifs with hd <;> simp [hd]

theorem stat_balance (name : String) (t0 : BcmAclTable) (ops : List RefOp)
    (hv : NoStatReleaseWhileAbsent name t0 ops) :
    statAddedCount (runStatOps name t0 ops) + statRemovedCount t0 +
        (if getAclStatIf t0 name = none then 0 else 1) =
      statAddedCount t0 + statRemovedCount (runStatOps name t0 ops) +
        (if getAclStatIf (runStatOps name t0 ops) name = none then 0 else 1) := by
  induction ops generalizing t0 with
  | nil => simp only [runStatOps, List.foldl_nil, Nat.add_comm (statAddedCount t0)]
  | cons op ops ih =>
    cases op with
    | acquire g =>
      have hv2 : NoStatReleaseWhileAbsent name (applyStatOp name t0 (.acquire g)) ops := hv
      have := ih _ hv2
      simp only [runStatOps, List.foldl_cons] at this ⊢
      obtain ⟨a1, a2, a3⟩ := incRefStat_added t0 g name
      simp only [applyStatOp] at this ⊢
      rw [a1, a2, if_neg a3] at this
      split_ifs at this ⊢ <;> omega
    | release =>
      obtain ⟨hp, hv2⟩ := hv
      have := ih _ hv2
      simp only [runStatOps, List.foldl_cons] at this ⊢
      obtain ⟨d1, d2⟩ := derefStat_removed t0 name
      simp only [applyStatOp] at this ⊢
      rw [d1, d2] at this
      rw [if_neg hp]
      split_ifs at this ⊢ with h1 h2 h3 <;> first | omega | (exfalso; tauto)

theorem incRefStat_hw_absent (t : BcmAclTable) (g : Int) (n : String)
    (h : FlatMap.find t.aclStatMap_ n = none) :
    (incRefOrCreateBcmAclStat t g n).1 = ⟨t.hw_.nextHandle, g⟩ ∧
    (incRefOrCreateBcmAclStat t g n).2.hw_ =
      { t.hw_ with nextHandle := t.hw_.nextHandle + 1,
                   calls := t.hw_.calls ++ [HwCall.toBeAddedAclStat t.hw_.nextHandle n] } ∧
    FlatMap.find (incRefOrCreateBcmAclStat t g n).2.aclStatMap_ n =
      some (⟨t.hw_.nextHandle, g⟩, 1) := by
  refine ⟨?_, ?_, incRefStat_find_absent t g n h⟩
  · unfold incRefOrCreateBcmAclStat
    rw [h]
    rfl
  · unfold incRefOrCreateBcmAclStat
    rw [h]
    rfl

theorem incRefStat_hw_present (t : BcmAclTable) (g : Int) (n : String) (e : BcmAclStat × Nat)
    (h : FlatMap.find t.aclStatMap_ n = some e) :
    (incRefOrCreateBcmAclStat t g n).1 = e.1 ∧
    (incRefOrCreateBcmAclStat t g n).2.hw_ = t.hw_ ∧
    FlatMap.find (incRefOrCreateBcmAclStat t g n).2.aclStatMap_ n =
      some (e.1, incCount e.2) := by
  refine ⟨?_, ?_, incRefStat_find_present t g n e h⟩
  · unfold incRefOrCreateBcmAclStat
    rw [h]
  · unfold incRefOrCreateBcmAclStat
    rw [h]

theorem derefStat_hw (t : BcmAclTable) (n : String) (e : BcmAclStat × Nat)
    (h : FlatMap.find t.aclStatMap_ n = some e) :
    (derefBcmAclStat t n).2.hw_ =
      if decCount e.2 = 0 then
        { t.hw_ with calls := t.hw_.calls ++ [HwCall.toBeRemovedAclStat e.1.getHandle] }
      else t.hw_ := by
  unfold derefBcmAclStat
  simp only [h]
  split_ifs <;> rfl

theorem derefStat_nextHandle (t : BcmAclTable) (n : String) :
    (derefBcmAclStat t n).2.hw_.nextHandle = t.hw_.nextHandle := by
  cases hf : FlatMap.find t.aclStatMap_ n with
  | none => rw [derefStat_absent t n hf]
  | some e =>
    rw [derefStat_hw t n e hf]
    split_ifs <;> rfl

theorem incRefStat_nextHandle (t : BcmAclTable) (g : Int) (n : String) :
    (incRefOrCreateBcmAclStat t g n).2.hw_.nextHandle =
      t.hw_.nextHandle + (if getAclStatIf t n = none then 1 else 0) := by
  cases hf : FlatMap.find t.aclStatMap_ n with
  | none =>
    rw [(incRefStat_hw_absent t g n hf).2.1]
    simp [getAclStatIf, hf]
  | some e =>
    rw [(incRefStat_hw_present t g n e hf).2.1]
    simp [getAclStatIf, hf]

theorem stat_created_eq_added (name : String) (t0 : BcmAclTable) (ops : List RefOp) :
    (runStatOps name t0 ops).hw_.nextHandle + (statAddedCount t0 : Int) =
      t0.hw_.nextHandle + (statAddedCount (runStatOps name t0 ops) : Int) := by
  induction ops generalizing t0 with
  | nil => rfl
  | cons op ops ih =>
    have := ih (applyStatOp name t0 op)
    simp only [runStatOps, List.foldl_cons] at this ⊢
    cases op with
    | acquire g =>
      have h1 := incRefStat_nextHandle t0 g name
      have h2 := (incRefStat_added t0 g name).1
      simp only [applyStatOp] at this ⊢
      rw [h1, h2] at this
      split_ifs at this <;> push_cast at this <;> omega
    | release =>
      have h1 := derefStat_nextHandle t0 name
      have h2 := (derefStat_removed t0 name).1
      simp only [applyStatOp] at this ⊢
      rw [h1, h2] at this
      omega

end BcmAclTable

/-- C12, as the code has it: on one counter name, an acquire that finds the name absent
creates one stat object (the switch hands out one hardware handle), stores it with count 1
and registers its handle (`toBeAddedAclStat`); an acquire that finds the name present
creates and registers nothing (the switch is as before) and keeps the stored object; a
release of a present name never creates anything, and it unregisters the stored object
(`toBeRemovedAclStat`) and drops it from the table exactly when it leaves the name absent,
which for a stored `uint32_t` count is when it finds the count at 1, keeping the object
otherwise. Over a whole sequence the objects created are as many as the registrations;
when the sequence starts with the name absent and never releases while it is absent, the
creations are as many as the destructions when the name is absent at the end, and one more
when it is present: each stretch from a creation to the next destruction creates once and
releases once, and a sequence may hold several such stretches. -/
theorem stat_created_and_released (name : String) (t0 : BcmAclTable) (ops : List RefOp)
    (h0 : getAclStatIf t0 name = none) (hv : NoStatReleaseWhileAbsent name t0 ops) :
    (∀ s g, FlatMap.find s.aclStatMap_ name = none →
      (incRefOrCreateBcmAclStat s g name).1 = ⟨s.hw_.nextHandle, g⟩ ∧
      (applyStatOp name s (.acquire g)).hw_ =
        { s.hw_ with nextHandle := s.hw_.nextHandle + 1,
                     calls := s.hw_.calls ++ [HwCall.toBeAddedAclStat s.hw_.nextHandle name] } ∧
      FlatMap.find (applyStatOp name s (.acquire g)).aclStatMap_ name =
        some (⟨s.hw_.nextHandle, g⟩, 1)) ∧
    (∀ s g e, FlatMap.find s.aclStatMap_ name = some e →
      (incRefOrCreateBcmAclStat s g name).1 = e.1 ∧
      (applyStatOp name s (.acquire g)).hw_ = s.hw_ ∧
      FlatMap.find (applyStatOp name s (.acquire g)).aclStatMap_ name =
        some (e.1, incCount e.2)) ∧
    (∀ s e, FlatMap.find s.aclStatMap_ name = some e →
      (applyStatOp name s .release).hw_ =
        (if decCount e.2 = 0 then
          { s.hw_ with calls := s.hw_.calls ++ [HwCall.toBeRemovedAclStat e.1.getHandle] }
        else s.hw_) ∧
      FlatMap.find (applyStatOp name s .release).aclStatMap_ name =
        (if decCount e.2 = 0 then none else some (e.1, decCount e.2))) ∧
    (∀ s g, statAddedCount (applyStatOp name s (.acquire g)) =
        statAddedCount s + (if getAclStatIf s name = none then 1 else 0) ∧
      statRemovedCount (applyStatOp name s (.acquire g)) = statRemovedCount s) ∧
    (∀ s, statAddedCount (applyStatOp name s .release) = statAddedCount s ∧
      statRemovedCount (applyStatOp name s .release) =
        statRemovedCount s +
          (if getAclStatIf s name ≠ none ∧ getAclStatIf (applyStatOp name s .release) name = none
            then 1 else 0)) ∧
    (∀ s e, FlatMap.find s.aclStatMap_ name = some e → e.2 < refCountModulus →
      (getAclStatIf (applyStatOp name s .release) name = none ↔
        getAclStatRefCount s name = 1)) ∧
    (runStatOps name t0 ops).hw_.nextHandle + (statAddedCount t0 : Int) =
      t0.hw_.nextHandle + (statAddedCount (runStatOps name t0 ops) : Int) ∧
    statAddedCount (runStatOps name t0 ops) + statRemovedCount t0 =
      statAddedCount t0 + statRemovedCount (runStatOps name t0 ops) +
        (if getAclStatIf (runStatOps name t0 ops) name = none then 0 else 1) := by
  refine ⟨fun s g hf => incRefStat_hw_absent s g name hf,
    fun s g e hf => incRefStat_hw_present s g name e hf,
    fun s e hf => ⟨derefStat_hw s name e hf, (derefStat_present s name e hf).2⟩,
    fun s g => ⟨(incRefStat_added s g name).1, (incRefStat_added s g name).2.1⟩,
    fun s => derefStat_removed s name, fun s e hf hlt => derefStat_erases_iff s name e hf hlt,
    stat_created_eq_added name t0 ops, ?_⟩
  have := stat_balance name t0 ops hv
  rw [if_pos h0] at this
  exact this

/-- Witness of `stat_created_and_released`: two acquires and one release of "cnt1" on the
empty table; one object is created (one handle taken, one registration) and none is
destroyed. -/
theorem stat_created_and_released_witness :
    getAclStatIf (BcmAclTable.init sampleSwitch) "cnt1" = none ∧
    NoStatReleaseWhileAbsent "cnt1" (BcmAclTable.init sampleSwitch)
      [.acquire 1, .acquire 1, .release] ∧
    (runStatOps "cnt1" (BcmAclTable.init sampleSwitch)
        [.acquire 1, .acquire 1, .release]).hw_.nextHandle +
        (statAddedCount (BcmAclTable.init sampleSwitch) : Int) =
      (BcmAclTable.init sampleSwitch).hw_.nextHandle +
        (statAddedCount (runStatOps "cnt1" (BcmAclTable.init sampleSwitch)
          [.acquire 1, .acquire 1, .release]) : Int) ∧
    statAddedCount (runStatOps "cnt1" (BcmAclTable.init sampleSwitch)
        [.acquire 1, .acquire 1, .release]) + statRemovedCount (BcmAclTable.init sampleSwitch) =
      statAddedCount (BcmAclTable.init sampleSwitch) +
        statRemovedCount (runStatOps "cnt1" (BcmAclTable.init sampleSwitch)
          [.acquire 1, .acquire 1, .release]) +
        (if getAclStatIf (runStatOps "cnt1" (BcmAclTable.init sampleSwitch)
          [.acquire 1, .acquire 1, .release]) "cnt1" = none then 0 else 1) :=
  have hv : NoStatReleaseWhileAbsent "cnt1" (BcmAclTable.init sampleSwitch)
      [.acquire 1, .acquire 1, .release] := ⟨by decide, trivial⟩
  ⟨rfl, hv,
    (stat_created_and_released "cnt1" (BcmAclTable.init sampleSwitch)
      [.acquire 1, .acquire 1, .release] rfl hv).2.2.2.2.2.2⟩

/-- C12 fails as stated: acquire, release, acquire, release of "cnt1" on the empty table
never releases while the name is absent, and creates the stat object twice and destroys it
twice. -/
theorem stat_created_twice :
    getAclStatIf (BcmAclTable.init sampleSwitch) "cnt1" = none ∧
    NoStatReleaseWhileAbsent "cnt1" (BcmAclTable.init sampleSwitch)
      [.acquire 1, .release, .acquire 1, .release] ∧
    (runStatOps "cnt1" (BcmAclTable.init sampleSwitch)
      [.acquire 1, .release, .acquire 1, .release]).hw_.calls =
      [.toBeAddedAclStat 1000 "cnt1", .toBeRemovedAclStat 1000,
        .toBeAddedAclStat 1001 "cnt1", .toBeRemovedAclStat 1001] ∧
    statAddedCount (runStatOps "cnt1" (BcmAclTable.init sampleSwitch)
      [.acquire 1, .release, .acquire 1, .release]) = 2 ∧
    statRemovedCount (runStatOps "cnt1" (BcmAclTable.init sampleSwitch)
      [.acquire 1, .release, .acquire 1, .release]) = 2 :=
  ⟨rfl, ⟨by decide, by decide, trivial⟩, rfl, rfl, rfl⟩


/-! ## C3: the net-count law -/

namespace BcmAclTable

theorem range_net_count (range : AclRange) (t : BcmAclTable) (ops : List RefOp)
    (hi : ∀ e, FlatMap.find t.aclRangeMap_ range = some e → 1 ≤ e.2 ∧ e.2 < refCountModulus)
    (hv : ValidRangeOps range t ops) :
    getAclRangeRefCount (runRangeOps range t ops) range + releases ops =
      getAclRangeRefCount t range + acquires ops ∧
    (∀ e, FlatMap.find (runRangeOps range t ops).aclRangeMap_ range = some e →
      1 ≤ e.2 ∧ e.2 < refCountModulus) := by
  induction ops generalizing t with
  | nil => exact ⟨rfl, hi⟩
  | cons op ops ih =>
    cases op with
    | acquire g =>
      obtain ⟨h1, h2⟩ := hv
      have hstep : getAclRangeRefCount (applyRangeOp range t (.acquire g)) range =
          getAclRangeRefCount t range + 1 := by
        show getAclRangeRefCount (incRefOrCreateBcmAclRange t range).2 range = _
        cases hf : FlatMap.find t.aclRangeMap_ range with
        | none =>
          simp only [getAclRangeRefCount, incRefRange_find_absent t range hf, hf]
        | some e =>
          rw [getAclRangeRefCount_of_find t range e hf] at h1
          simp only [getAclRangeRefCount, incRefRange_find_present t range e hf, hf,
            incCount_of_lt _ h1]
      have hi2 : ∀ e, FlatMap.find (applyRangeOp range t (.acquire g)).aclRangeMap_ range =
          some e → 1 ≤ e.2 ∧ e.2 < refCountModulus := by
        intro e he
        have := getAclRangeRefCount_of_find _ range e he
        rw [hstep] at this
        omega
      obtain ⟨j1, j2⟩ := ih _ hi2 h2
      refine ⟨?_, j2⟩
      simp only [runRangeOps, List.foldl_cons, acquires, releases] at j1 ⊢
      rw [hstep] at j1
      omega
    | release =>
      obtain ⟨h1, h2⟩ := hv
      cases hf : FlatMap.find t.aclRangeMap_ range with
      | none => exact absurd (by simp [getAclRangeIf, hf]) h1
      | some e =>
        obtain ⟨p1, p2⟩ := hi e hf
        have hd := decCount_of_pos e.2 p1 p2
        have hfind := (derefRange_present t range e hf (by omega)).2
        have hstep : getAclRangeRefCount (applyRangeOp range t .release) range + 1 =
            getAclRangeRefCount t range := by
          show getAclRangeRefCount (derefBcmAclRange t range).2 range + 1 = _
          rw [getAclRangeRefCount_of_find t range e hf]
          unfold getAclRangeRefCount
          rw [hfind]
          split_ifs with h0
          · simp only; omega
          · simp only; omega
        have hi2 : ∀ e', FlatMap.find (applyRangeOp range t .release).aclRangeMap_ range =
            some e' → 1 ≤ e'.2 ∧ e'.2 < refCountModulus := by
          intro e' he'
          have he2 : FlatMap.find (derefBcmAclRange t range).2.aclRangeMap_ range = some e' := he'
          rw [hfind] at he2
          split_ifs at he2 with h0
          simp only [Option.some.injEq] at he2
          subst he2
          exact ⟨Nat.one_le_iff_ne_zero.2 h0, decCount_lt _⟩
        obtain ⟨j1, j2⟩ := ih _ hi2 h2
        refine ⟨?_, j2⟩
        simp only [runRangeOps, List.foldl_cons, acquires, releases] at j1 ⊢
        omega

theorem stat_net_count (name : String) (t : BcmAclTable) (ops : List RefOp)
    (hi : ∀ e, FlatMap.find t.aclStatMap_ name = some e → 1 ≤ e.2 ∧ e.2 < refCountModulus)
    (hv : ValidStatOps name t ops) :
    getAclStatRefCount (runStatOps name t ops) name + releases ops =
      getAclStatRefCount t name + acquires ops ∧
    (∀ e, FlatMap.find (runStatOps name t ops).aclStatMap_ name = some e →
      1 ≤ e.2 ∧ e.2 < refCountModulus) := by
  induction ops generalizing t with
  | nil => exact ⟨rfl, hi⟩
  | cons op ops ih =>
    cases op with
    | acquire g =>
      obtain ⟨h1, h2⟩ := hv
      have hstep : getAclStatRefCount (applyStatOp name t (.acquire g)) name =
          getAclStatRefCount t name + 1 := by
        show getAclStatRefCount (incRefOrCreateBcmAclStat t g name).2 name = _
        rw [incRefStat_refCount, if_pos rfl, incCount_of_lt _ h1]
      have hi2 : ∀ e, FlatMap.find (applyStatOp name t (.acquire g)).aclStatMap_ name =
          some e → 1 ≤ e.2 ∧ e.2 < refCountModulus := by
        intro e he
        have := getAclStatRefCount_of_find _ name e he
        rw [hstep] at this
        omega
      obtain ⟨j1, j2⟩ := ih _ hi2 h2
      refine ⟨?_, j2⟩
      simp only [runStatOps, List.foldl_cons, acquires, releases] at j1 ⊢
      rw [hstep] at j1
      omega
    | release =>
      obtain ⟨h1, h2⟩ := hv
      cases hf : FlatMap.find t.aclStatMap_ name with
      | none => exact absurd (by simp [getAclStatIf, hf]) h1
      | some e =>
        obtain ⟨p1, p2⟩ := hi e hf
        have hd := decCount_of_pos e.2 p1 p2
        have hfind := (derefStat_present t name e hf).2
        have hstep : getAclStatRefCount (applyStatOp name t .release) name + 1 =
            getAclStatRefCount t name := by
          show getAclStatRefCount (derefBcmAclStat t name).2 name + 1 = _
          rw [getAclStatRefCount_of_find t name e hf]
          unfold getAclStatRefCount
          rw [hfind]
          split_ifs with h0
          · simp only; omega
          · simp only; omega
        have hi2 : ∀ e', FlatMap.find (applyStatOp name t .release).aclStatMap_ name =
            some e' → 1 ≤ e'.2 ∧ e'.2 < refCountModulus := by
          intro e' he'
          have he2 : FlatMap.find (derefBcmAclStat t name).2.aclStatMap_ name = some e' := he'
          rw [hfind] at he2
          split_ifs at he2 with h0
          simp only [Option.some.injEq] at he2
          subst he2
          exact ⟨Nat.one_le_iff_ne_zero.2 h0, decCount_lt _⟩
        obtain ⟨j1, j2⟩ := ih _ hi2 h2
        refine ⟨?_, j2⟩
        simp only [runStatOps, List.foldl_cons, acquires, releases] at j1 ⊢
        omega

theorem getAclRangeIf_ne_none_iff (t : BcmAclTable) (r : AclRange)
    (hi : ∀ e, FlatMap.find t.aclRangeMap_ r = some e → 1 ≤ e.2) :
    getAclRangeIf t r ≠ none ↔ 1 ≤ getAclRangeRefCount t r := by
  unfold getAclRangeIf getAclRangeRefCount
  cases hf : FlatMap.find t.aclRangeMap_ r with
  | none => simp
  | some e => simpa using hi e hf

theorem getAclStatIf_ne_none_iff (t : BcmAclTable) (n : String)
    (hi : ∀ e, FlatMap.find t.aclStatMap_ n = some e → 1 ≤ e.2) :
    getAclStatIf t n ≠ none ↔ 1 ≤ getAclStatRefCount t n := by
  unfold getAclStatIf getAclStatRefCount
  cases hf : FlatMap.find t.aclStatMap_ n with
  | none => simp
  | some e => simpa using hi e hf

end BcmAclTable

/-- C3: a sequence of acquires and releases of one range key, and one of one counter name,
run on a table whose range table and stat table are empty, with no release issued while
the key is absent and no count taken to `2^32`: the reference count read afterwards is the
number of acquires minus the number of releases, and the key is in the table exactly when
there were more acquires than releases. -/
theorem net_count_law (range : AclRange) (name : String) (t0 : BcmAclTable)
    (rangeOps statOps : List RefOp)
    (hr : t0.aclRangeMap_ = []) (hs : t0.aclStatMap_ = [])
    (hvr : ValidRangeOps range t0 rangeOps) (hvs : ValidStatOps name t0 statOps) :
    (getAclRangeRefCount (runRangeOps range t0 rangeOps) range + releases rangeOps =
        acquires rangeOps ∧
      (getAclRangeIf (runRangeOps range t0 rangeOps) range ≠ none ↔
        releases rangeOps < acquires rangeOps)) ∧
    (getAclStatRefCount (runStatOps name t0 statOps) name + releases statOps =
        acquires statOps ∧
      (getAclStatIf (runStatOps name t0 statOps) name ≠ none ↔
        releases statOps < acquires statOps)) := by
  have hr0 : ∀ e, FlatMap.find t0.aclRangeMap_ range = some e →
      1 ≤ e.2 ∧ e.2 < refCountModulus := by
    intro e he; rw [hr] at he; simp [FlatMap.find] at he
  have hs0 : ∀ e, FlatMap.find t0.aclStatMap_ name = some e →
      1 ≤ e.2 ∧ e.2 < refCountModulus := by
    intro e he; rw [hs] at he; simp [FlatMap.find] at he
  obtain ⟨a1, a2⟩ := range_net_count range t0 rangeOps hr0 hvr
  obtain ⟨b1, b2⟩ := stat_net_count name t0 statOps hs0 hvs
  have hc0 : getAclRangeRefCount t0 range = 0 := by
    simp [getAclRangeRefCount, hr, FlatMap.find]
  have hd0 : getAclStatRefCount t0 name = 0 := by
    simp [getAclStatRefCount, hs, FlatMap.find]
  rw [hc0, Nat.zero_add] at a1
  rw [hd0, Nat.zero_add] at b1
  refine ⟨⟨a1, ?_⟩, ⟨b1, ?_⟩⟩
  · rw [getAclRangeIf_ne_none_iff _ _ (fun e he => (a2 e he).1)]
    omega
  · rw [getAclStatIf_ne_none_iff _ _ (fun e he => (b2 e he).1)]
    omega

/-- Witness of `net_count_law`: acquire, acquire, release on the range [100,200] and on the
counter "cnt1", from the empty table. -/
theorem net_count_law_witness :
    ValidRangeOps ⟨.SRC_L4_PORT, 100, 200⟩ (BcmAclTable.init sampleSwitch)
      [.acquire 1, .acquire 1, .release] ∧
    ValidStatOps "cnt1" (BcmAclTable.init sampleSwitch) [.acquire 1, .acquire 1, .release] ∧
    getAclRangeRefCount
      (runRangeOps ⟨.SRC_L4_PORT, 100, 200⟩ (BcmAclTable.init sampleSwitch)
        [.acquire 1, .acquire 1, .release]) ⟨.SRC_L4_PORT, 100, 200⟩ +
      releases [.acquire 1, .acquire 1, .release] = acquires [.acquire 1, .acquire 1, .release] ∧
    getAclStatRefCount
      (runStatOps "cnt1" (BcmAclTable.init sampleSwitch) [.acquire 1, .acquire 1, .release])
      "cnt1" + releases [.acquire 1, .acquire 1, .release] =
      acquires [.acquire 1, .acquire 1, .release] :=
  have hvr : ValidRangeOps ⟨.SRC_L4_PORT, 100, 200⟩ (BcmAclTable.init sampleSwitch)
      [.acquire 1, .acquire 1, .release] := ⟨by decide, by decide, by decide, trivial⟩
  have hvs : ValidStatOps "cnt1" (BcmAclTable.init sampleSwitch)
      [.acquire 1, .acquire 1, .release] := ⟨by decide, by decide, by decide, trivial⟩
  have h := net_count_law ⟨.SRC_L4_PORT, 100, 200⟩ "cnt1" (BcmAclTable.init sampleSwitch)
    [.acquire 1, .acquire 1, .release] [.acquire 1, .acquire 1, .release] rfl rfl hvr hvs
  ⟨hvr, hvs, h.1.1, h.2.1⟩


/-! ## C4: stored counts are positive -/

namespace BcmAclTable

theorem derefRange_of_count_one (t : BcmAclTable) (r : AclRange)
    (h : getAclRangeRefCount t r = 1) :
    (derefBcmAclRange t r).1 = .ok none ∧ getAclRangeIf (derefBcmAclRange t r).2 r = none := by
  cases hf : FlatMap.find t.aclRangeMap_ r with
  | none => simp [getAclRangeRefCount, hf] at h
  | some e =>
    rw [getAclRangeRefCount_of_find t r e hf] at h
    have hfind := (derefRange_present t r e hf (by omega)).2
    rw [h, if_pos decCount_one] at hfind
    refine ⟨?_, by simp [getAclRangeIf, hfind]⟩
    unfold derefBcmAclRange
    simp only [hf, h, Nat.one_ne_zero, if_false, decCount_one, if_true]

theorem derefStat_of_count_one (t : BcmAclTable) (n : String)
    (h : getAclStatRefCount t n = 1) :
    (derefBcmAclStat t n).1 = .ok () ∧ getAclStatIf (derefBcmAclStat t n).2 n = none := by
  cases hf : FlatMap.find t.aclStatMap_ n with
  | none => simp [getAclStatRefCount, hf] at h
  | some e =>
    rw [getAclStatRefCount_of_find t n e hf] at h
    obtain ⟨hok, hfind⟩ := derefStat_present t n e hf
    rw [h, if_pos decCount_one] at hfind
    exact ⟨hok, by simp [getAclStatIf, hfind]⟩

end BcmAclTable

/-- C4, as the code has it: in every table reached from the empty one by `processAddedAcl`,
`processRemovedAcl` and `releaseAcls` calls, throwing ones included, in which no increment
takes a reference count to `2^32`, every entry stored in the range table and in the stat
table has reference count at least 1: a key is in the table exactly when its count reads at
least 1, and the release that finds the count at 1 removes the entry in the same call. -/
theorem positive_count_invariant (hw : BcmSwitch) (ops : List AclTableOp)
    (h : NoWrap (BcmAclTable.init hw) ops) :
    (∀ x ∈ (run (BcmAclTable.init hw) ops).aclRangeMap_, 1 ≤ x.2.2) ∧
    (∀ x ∈ (run (BcmAclTable.init hw) ops).aclStatMap_, 1 ≤ x.2.2) ∧
    (∀ r, getAclRangeIf (run (BcmAclTable.init hw) ops) r ≠ none ↔
      1 ≤ getAclRangeRefCount (run (BcmAclTable.init hw) ops) r) ∧
    (∀ n, getAclStatIf (run (BcmAclTable.init hw) ops) n ≠ none ↔
      1 ≤ getAclStatRefCount (run (BcmAclTable.init hw) ops) n) ∧
    (∀ r, getAclRangeRefCount (run (BcmAclTable.init hw) ops) r = 1 →
      (derefBcmAclRange (run (BcmAclTable.init hw) ops) r).1 = .ok none ∧
      getAclRangeIf (derefBcmAclRange (run (BcmAclTable.init hw) ops) r).2 r = none) ∧
    (∀ n, getAclStatRefCount (run (BcmAclTable.init hw) ops) n = 1 →
      (derefBcmAclStat (run (BcmAclTable.init hw) ops) n).1 = .ok () ∧
      getAclStatIf (derefBcmAclStat (run (BcmAclTable.init hw) ops) n).2 n = none) := by
  have hc := countsPositive_run _ ops (countsPositive_init hw) h
  refine ⟨fun x hx => (hc.1 x hx).1, fun x hx => (hc.2 x hx).1, fun r => ?_, fun n => ?_,
    fun r => derefRange_of_count_one _ r, fun n => derefStat_of_count_one _ n⟩
  · exact getAclRangeIf_ne_none_iff _ r (fun e he => (hc.1 _ (FlatMap.find_mem _ _ _ he)).1)
  · exact getAclStatIf_ne_none_iff _ n (fun e he => (hc.2 _ (FlatMap.find_mem _ _ _ he)).1)

/-- Witness of `positive_count_invariant`: add priority 10, add priority 10 again (the call
throws), add priority 20, remove priority 10. -/
theorem positive_count_invariant_witness :
    NoWrap (BcmAclTable.init sampleSwitch)
      [.processAddedAcl 1 (sampleEntry 10), .processAddedAcl 1 (sampleEntry 10),
        .processAddedAcl 1 (sampleEntry 20), .processRemovedAcl (sampleEntry 10)] ∧
    (∀ x ∈ (run (BcmAclTable.init sampleSwitch)
        [.processAddedAcl 1 (sampleEntry 10), .processAddedAcl 1 (sampleEntry 10),
          .processAddedAcl 1 (sampleEntry 20), .processRemovedAcl (sampleEntry 10)]).aclRangeMap_,
      1 ≤ x.2.2) :=
  have hv : NoWrap (BcmAclTable.init sampleSwitch)
      [.processAddedAcl 1 (sampleEntry 10), .processAddedAcl 1 (sampleEntry 10),
        .processAddedAcl 1 (sampleEntry 20), .processRemovedAcl (sampleEntry 10)] :=
    ⟨⟨by decide, by decide⟩, ⟨by decide, by decide⟩, ⟨by decide, by decide⟩, trivial, trivial⟩
  ⟨hv, (positive_count_invariant sampleSwitch _ hv).1⟩

/-! ## C7: removing a priority that is not in the table -/

/-- C7: `processRemovedAcl` of an entry whose priority is not in the entry map throws, and
the table it leaves is the table it found: entry map, range table, stat table and switch
are untouched, the check comes before any release. -/
theorem missing_priority_on_remove (t : BcmAclTable) (acl : AclEntry)
    (h : getAclIf t acl.getPriority = none) :
    processRemovedAcl t acl = (.error "failed to erase an existing bcm acl entry", t) :=
  processRemovedAcl_absent t acl h

/-- Witness of `missing_priority_on_remove`: priority 20 is removed from the table that
holds priority 10 only. -/
theorem missing_priority_on_remove_witness :
    getAclIf (processAddedAcl (BcmAclTable.init sampleSwitch) 1 (sampleEntry 10)).2
      (sampleEntry 20).getPriority = none ∧
    processRemovedAcl (processAddedAcl (BcmAclTable.init sampleSwitch) 1 (sampleEntry 10)).2
        (sampleEntry 20) =
      (.error "failed to erase an existing bcm acl entry",
        (processAddedAcl (BcmAclTable.init sampleSwitch) 1 (sampleEntry 10)).2) :=
  ⟨by decide, missing_priority_on_remove _ (sampleEntry 20) (by decide)⟩

/-! ## C8: releases that must fail -/

/-- C8: `derefBcmAclRange` throws and leaves the table as it is on a range key that is
absent and on one whose stored count is 0; `derefBcmAclStat` throws and leaves the table as
it is on a counter name that is absent. On a counter name whose stored count is 0,
`derefBcmAclStat` has no test: it returns without throwing and stores the count
`2^32 - 1`, as the table with "cnt1" at count 0 shows. -/
theorem bad_release (t : BcmAclTable) (r : AclRange) (n : String) :
    (getAclRangeIf t r = none → derefBcmAclRange t r =
      (.error "decrease reference count on a non-existing BcmAclRange", t)) ∧
    (getAclRangeIf t r ≠ none → getAclRangeRefCount t r = 0 → derefBcmAclRange t r =
      (.error "dereference a BcmAclRange whose reference is 0", t)) ∧
    (getAclStatIf t n = none → derefBcmAclStat t n =
      (.error ("Tried to decrease reference count on a non-existing BcmAclStat, name=" ++ n),
        t)) ∧
    derefBcmAclStat ⟨sampleSwitch, [], [], [("cnt1", (⟨5, 1⟩, 0))]⟩ "cnt1" =
      (.ok (), ⟨sampleSwitch, [], [], [("cnt1", (⟨5, 1⟩, 4294967295))]⟩) := by
  refine ⟨fun h => ?_, fun h h0 => ?_, fun h => ?_, ?_⟩
  · apply derefRange_absent
    unfold getAclRangeIf at h
    cases hf : FlatMap.find t.aclRangeMap_ r with
    | none => rfl
    | some e => simp [hf] at h
  · cases hf : FlatMap.find t.aclRangeMap_ r with
    | none => simp [getAclRangeIf, hf] at h
    | some e =>
      rw [getAclRangeRefCount_of_find t r e hf] at h0
      exact derefRange_zero t r e hf h0
  · apply derefStat_absent
    unfold getAclStatIf at h
    cases hf : FlatMap.find t.aclStatMap_ n with
    | none => rfl
    | some e => simp [hf] at h
  · have hd : decCount 0 = 4294967295 := by norm_num [decCount, refCountModulus]
    simp [derefBcmAclStat, FlatMap.find, FlatMap.assign, hd]

/-- Witness of `bad_release`: on the empty table both releases throw and leave it empty. -/
theorem bad_release_witness :
    getAclRangeIf (BcmAclTable.init sampleSwitch) ⟨.SRC_L4_PORT, 100, 200⟩ = none ∧
    getAclStatIf (BcmAclTable.init sampleSwitch) "cnt1" = none ∧
    derefBcmAclRange (BcmAclTable.init sampleSwitch) ⟨.SRC_L4_PORT, 100, 200⟩ =
      (.error "decrease reference count on a non-existing BcmAclRange",
        BcmAclTable.init sampleSwitch) ∧
    derefBcmAclStat (BcmAclTable.init sampleSwitch) "cnt1" =
      (.error ("Tried to decrease reference count on a non-existing BcmAclStat, name=" ++ "cnt1"),
        BcmAclTable.init sampleSwitch) :=
  ⟨rfl, rfl,
    (bad_release (BcmAclTable.init sampleSwitch) ⟨.SRC_L4_PORT, 100, 200⟩ "cnt1").1 rfl,
    (bad_release (BcmAclTable.init sampleSwitch) ⟨.SRC_L4_PORT, 100, 200⟩ "cnt1").2.2.1 rfl⟩


/-! ## C6: adding a priority that is already in the table -/

namespace FlatMap
variable {κ ν : Type}

theorem keys_orderedInsert_perm [LT κ] [DecidableRel (LT.lt : κ → κ → Prop)]
    (m : List (κ × ν)) (k : κ) (v : ν) :
    ((orderedInsert k v m).map Prod.fst).Perm (k :: m.map Prod.fst) := by
  induction m with
  | nil => exact List.Perm.refl _
  | cons e m ih =>
    obtain ⟨a, b⟩ := e
    simp only [orderedInsert]
    split_ifs with hlt
    · exact List.Perm.refl _
    · simp only [List.map_cons]
      exact (List.Perm.cons a ih).trans (List.Perm.swap k a _)

theorem not_mem_keys_of_find_none [DecidableEq κ] (m : List (κ × ν)) (k : κ)
    (h : find m k = none) : k ∉ m.map Prod.fst := by
  induction m with
  | nil => simp
  | cons e m ih =>
    obtain ⟨a, b⟩ := e
    simp only [find] at h
    split_ifs at h with hak
    simp only [List.map_cons, List.mem_cons, not_or]
    exact ⟨fun hh => hak hh.symm, ih h⟩

theorem keys_nodup_emplace [DecidableEq κ] [LT κ] [DecidableRel (LT.lt : κ → κ → Prop)]
    (m : List (κ × ν)) (k : κ) (v : ν) (h : (m.map Prod.fst).Nodup) :
    ((emplace m k v).1.map Prod.fst).Nodup := by
  unfold emplace
  cases hf : find m k with
  | some w => exact h
  | none =>
    exact (keys_orderedInsert_perm m k v).nodup_iff.2
      (List.nodup_cons.2 ⟨not_mem_keys_of_find_none m k hf, h⟩)

theorem keys_nodup_erase [DecidableEq κ] (m : List (κ × ν)) (k : κ)
    (h : (m.map Prod.fst).Nodup) : ((erase m k).1.map Prod.fst).Nodup := by
  unfold erase
  exact List.Nodup.sublist (List.Sublist.map _ (List.filter_sublist _)) h

end FlatMap

namespace BcmAclTable

theorem processAddedAcl_entryMap (t : BcmAclTable) (g : Int) (acl : AclEntry) :
    (processAddedAcl t g acl).2.aclEntryMap_ =
      (FlatMap.emplace t.aclEntryMap_ acl.getPriority
        ⟨g, acl, (acquireRanges t (aclRangeKeys acl)).1⟩).1 := by
  obtain ⟨t4, he, -, -, -, heq⟩ := processAddedAcl_shape t g acl
  rw [heq]
  dsimp only
  rw [he]

theorem releaseRanges_entryMap (t : BcmAclTable) (rs : List AclRange) :
    (releaseRanges t rs).2.aclEntryMap_ = t.aclEntryMap_ := by
  induction rs generalizing t with
  | nil => rfl
  | cons r rs ih =>
    simp only [releaseRanges]
    have hd := derefRange_entryMap t r
    rcases hr : derefBcmAclRange t r with ⟨_ | _, t1⟩
    · rw [hr] at hd; exact hd
    · rw [hr] at hd
      rw [andThen_ok, ih t1]; exact hd

theorem processRemovedAcl_entryMap (t : BcmAclTable) (acl : AclEntry) :
    (processRemovedAcl t acl).2.aclEntryMap_ =
      (FlatMap.erase t.aclEntryMap_ acl.getPriority).1 := by
  rw [processRemovedAcl_eq]
  unfold processRemovedAclOnKeys
  dsimp only
  split_ifs with h0
  · rfl
  · cases aclCounterName acl with
    | none =>
      dsimp only
      rw [andThen_ok, releaseRanges_entryMap]
    | some n =>
      dsimp only
      have hd := derefStat_entryMap
        { t with aclEntryMap_ := (FlatMap.erase t.aclEntryMap_ acl.getPriority).1 } n
      rcases hr : derefBcmAclStat
        { t with aclEntryMap_ := (FlatMap.erase t.aclEntryMap_ acl.getPriority).1 } n
        with ⟨_ | _, t1⟩
      · rw [hr] at hd; exact hd
      · rw [hr] at hd
        rw [andThen_ok, releaseRanges_entryMap]; exact hd

theorem entry_keys_nodup_run (t : BcmAclTable) (ops : List AclTableOp)
    (h : (t.aclEntryMap_.map Prod.fst).Nodup) :
    ((run t ops).aclEntryMap_.map Prod.fst).Nodup := by
  induction ops generalizing t with
  | nil => exact h
  | cons op ops ih =>
    simp only [run, List.foldl_cons]
    apply ih
    cases op with
    | processAddedAcl g acl =>
      show ((processAddedAcl t g acl).2.aclEntryMap_.map Prod.fst).Nodup
      rw [processAddedAcl_entryMap]
      exact FlatMap.keys_nodup_emplace _ _ _ h
    | processRemovedAcl acl =>
      show ((processRemovedAcl t acl).2.aclEntryMap_.map Prod.fst).Nodup
      rw [processRemovedAcl_entryMap]
      exact FlatMap.keys_nodup_erase _ _ h
    | releaseAcls => exact List.nodup_nil

end BcmAclTable

/-- C6: `processAddedAcl` throws exactly when an entry with the priority of the new entry
is in the entry map. When it throws, the entry map is left as it was, so the entry stored
under that priority is kept; when it returns, the new entry is stored under its priority
and every other priority has the entry it had. In every table reached from the empty one by
the public calls, no priority occurs twice in the entry map. -/
theorem duplicate_priority_on_add (t : BcmAclTable) (g : Int) (acl : AclEntry) :
    ((processAddedAcl t g acl).1 = .error "failed to add an existing acl entry" ↔
      getAclIf t acl.getPriority ≠ none) ∧
    ((processAddedAcl t g acl).1 = .ok () ↔ getAclIf t acl.getPriority = none) ∧
    (getAclIf t acl.getPriority ≠ none →
      (processAddedAcl t g acl).2.aclEntryMap_ = t.aclEntryMap_) ∧
    (getAclIf t acl.getPriority = none →
      getAclIf (processAddedAcl t g acl).2 acl.getPriority =
        some ⟨g, acl, (acquireRanges t (aclRangeKeys acl)).1⟩ ∧
      ∀ p, p ≠ acl.getPriority → getAclIf (processAddedAcl t g acl).2 p = getAclIf t p) ∧
    (∀ hw ops, ((run (BcmAclTable.init hw) ops).aclEntryMap_.map Prod.fst).Nodup) := by
  have hok := processAddedAcl_ok_iff t g acl
  refine ⟨⟨fun h hn => ?_, fun h => ?_⟩, hok, fun h => ?_, fun h => ⟨?_, fun p hp => ?_⟩,
    fun hw ops => entry_keys_nodup_run _ ops List.nodup_nil⟩
  · have := hok.2 hn
    rw [h] at this
    cases this
  · exact processAddedAcl_error t g acl (fun hh => h (hok.1 hh))
  · cases hf : FlatMap.find t.aclEntryMap_ acl.getPriority with
    | none => exact absurd hf h
    | some w => exact processAddedAcl_entryMap_of_present t g acl w hf
  · exact processAddedAcl_entry_find_fresh t g acl h
  · exact processAddedAcl_entry_find_ne t g acl p hp

/-- Witness of `duplicate_priority_on_add`: priority 10 is added twice and priority 20
once to the table that holds priority 10. -/
theorem duplicate_priority_on_add_witness :
    getAclIf (processAddedAcl (BcmAclTable.init sampleSwitch) 1 (sampleEntry 10)).2
      (sampleEntry 10).getPriority ≠ none ∧
    getAclIf (processAddedAcl (BcmAclTable.init sampleSwitch) 1 (sampleEntry 10)).2
      (sampleEntry 20).getPriority = none ∧
    (processAddedAcl (processAddedAcl (BcmAclTable.init sampleSwitch) 1 (sampleEntry 10)).2
      1 (sampleEntry 10)).2.aclEntryMap_ =
      (processAddedAcl (BcmAclTable.init sampleSwitch) 1 (sampleEntry 10)).2.aclEntryMap_ ∧
    (processAddedAcl (processAddedAcl (BcmAclTable.init sampleSwitch) 1 (sampleEntry 10)).2
      1 (sampleEntry 20)).1 = .ok () :=
  ⟨by decide, by decide,
    (duplicate_priority_on_add _ 1 (sampleEntry 10)).2.2.1 (by decide),
    (duplicate_priority_on_add
      (processAddedAcl (BcmAclTable.init sampleSwitch) 1 (sampleEntry 10)).2 1
      (sampleEntry 20)).2.1.2 (by decide)⟩


/-! ## C5: consumption of a warm boot cache entry -/

theorem cache_programmed_find (c : BcmWarmBootCache) (r : AclRange) (h : BcmAclRangeHandle)
    (n : Nat) (hf : c.findBcmAclRange r = some (h, n)) :
    (c.programmed r).findBcmAclRange r = if n > 1 then some (h, n - 1) else none := by
  unfold BcmWarmBootCache.findBcmAclRange at hf ⊢
  unfold BcmWarmBootCache.programmed
  simp only [hf]
  split_ifs with hn
  · simp [FlatMap.find_assign, hf]
  · simp [FlatMap.find_erase]

theorem cache_programmed_miss (c : BcmWarmBootCache) (r : AclRange)
    (hf : c.findBcmAclRange r = none) : c.programmed r = c := by
  unfold BcmWarmBootCache.findBcmAclRange at hf
  unfold BcmWarmBootCache.programmed
  simp only [hf]

namespace BcmAclTable

theorem incRefRange_hw_hit (t : BcmAclTable) (r : AclRange) (x : BcmAclRangeHandle × Nat)
    (hc : t.hw_.warmBootCache.findBcmAclRange r = some x) :
    (incRefOrCreateBcmAclRange t r).2.hw_ = t.hw_.programmed r := by
  unfold incRefOrCreateBcmAclRange
  cases hf : FlatMap.find t.aclRangeMap_ r with
  | none => simp only [BcmAclRange.create, hc]
  | some e => simp only [hc]

theorem incRefRange_hw_miss (t : BcmAclTable) (r : AclRange)
    (hc : t.hw_.warmBootCache.findBcmAclRange r = none) :
    (incRefOrCreateBcmAclRange t r).2.hw_.calls = t.hw_.calls ∧
    (incRefOrCreateBcmAclRange t r).2.hw_.warmBootCache = t.hw_.warmBootCache := by
  unfold incRefOrCreateBcmAclRange
  cases hf : FlatMap.find t.aclRangeMap_ r with
  | none => simp only [BcmAclRange.create, hc, and_self]
  | some e => simp only [hc, and_self]

theorem programmedCount_miss (r : AclRange) (t : BcmAclTable) (n : Nat)
    (hc : t.hw_.warmBootCache.findBcmAclRange r = none) :
    programmedCount (acquireTimes r t n) r = programmedCount t r := by
  induction n generalizing t with
  | zero => rfl
  | succ n ih =>
    simp only [acquireTimes]
    obtain ⟨h1, h2⟩ := incRefRange_hw_miss t r hc
    rw [ih _ (by rw [h2]; exact hc)]
    simp only [programmedCount, h1]

theorem programmedCount_hit (r : AclRange) (t : BcmAclTable) (n : Nat)
    (h : BcmAclRangeHandle) (c : Nat)
    (hc : t.hw_.warmBootCache.findBcmAclRange r = some (h, c)) (hpos : 1 ≤ c) :
    programmedCount (acquireTimes r t n) r = programmedCount t r + min n c := by
  induction n generalizing t c with
  | zero => simp [acquireTimes]
  | succ n ih =>
    simp only [acquireTimes]
    have hhw := incRefRange_hw_hit t r (h, c) hc
    have hcount : programmedCount (incRefOrCreateBcmAclRange t r).2 r =
        programmedCount t r + 1 := by
      simp [programmedCount, hhw, BcmSwitch.programmed, List.count_append]
    have hcache : (incRefOrCreateBcmAclRange t r).2.hw_.warmBootCache.findBcmAclRange r =
        if c > 1 then some (h, c - 1) else none := by
      rw [hhw]
      exact cache_programmed_find _ r h c hc
    by_cases hc1 : c > 1
    · rw [if_pos hc1] at hcache
      rw [ih _ (c - 1) hcache (by omega), hcount]
      omega
    · rw [if_neg hc1] at hcache
      rw [programmedCount_miss r _ n hcache, hcount]
      have : c = 1 := by omega
      subst this
      omega

end BcmAclTable

/-- C5, as the code has it: when the warm boot cache holds an entry for the range with
leftover use-count `c ≥ 1`, `n` successive `incRefOrCreateBcmAclRange` calls on that range
call `programmed` on the entry once per call until the entry is used up, `min n c` times
in all; a cache without an entry for the range gets no `programmed` call. -/
theorem programmed_once_per_acquire (range : AclRange) (t : BcmAclTable) (n : Nat)
    (h : BcmAclRangeHandle) (c : Nat)
    (hc : t.hw_.warmBootCache.findBcmAclRange range = some (h, c)) (hpos : 1 ≤ c) :
    programmedCount (acquireTimes range t n) range = programmedCount t range + min n c :=
  programmedCount_hit range t n h c hc hpos

/-- Witness of `programmed_once_per_acquire`: a cache entry with use-count 3 and two
acquires. -/
theorem programmed_once_per_acquire_witness :
    (BcmAclTable.init cachedSwitch).hw_.warmBootCache.findBcmAclRange ⟨.SRC_L4_PORT, 100, 200⟩ =
      some (7, 3) ∧
    programmedCount (acquireTimes ⟨.SRC_L4_PORT, 100, 200⟩ (BcmAclTable.init cachedSwitch) 2)
      ⟨.SRC_L4_PORT, 100, 200⟩ =
      programmedCount (BcmAclTable.init cachedSwitch) ⟨.SRC_L4_PORT, 100, 200⟩ + min 2 3 :=
  ⟨rfl, programmed_once_per_acquire ⟨.SRC_L4_PORT, 100, 200⟩ (BcmAclTable.init cachedSwitch) 2
    7 3 rfl (by decide)⟩

/-- C5 fails as stated: the cache holds the range [100,200] with handle 7 and leftover
use-count 3; three `incRefOrCreateBcmAclRange` calls on the range call `programmed` on the
entry three times, the second and the third from the branch of the source that finds the
range in the table. -/
theorem programmed_three_times :
    (BcmAclTable.init cachedSwitch).hw_.warmBootCache.findBcmAclRange ⟨.SRC_L4_PORT, 100, 200⟩ =
      some (7, 3) ∧
    (acquireTimes ⟨.SRC_L4_PORT, 100, 200⟩ (BcmAclTable.init cachedSwitch) 3).hw_.calls =
      [.programmed ⟨.SRC_L4_PORT, 100, 200⟩, .programmed ⟨.SRC_L4_PORT, 100, 200⟩,
        .programmed ⟨.SRC_L4_PORT, 100, 200⟩] ∧
    programmedCount (acquireTimes ⟨.SRC_L4_PORT, 100, 200⟩ (BcmAclTable.init cachedSwitch) 3)
      ⟨.SRC_L4_PORT, 100, 200⟩ = 3 ∧
    getAclRangeRefCount (acquireTimes ⟨.SRC_L4_PORT, 100, 200⟩ (BcmAclTable.init cachedSwitch) 3)
      ⟨.SRC_L4_PORT, 100, 200⟩ = 3 :=
  ⟨rfl, rfl, rfl, rfl⟩


/-! ## C9: a count of 0 and an absent key -/

namespace BcmAclTable

theorem sampleEntry_counter (p : Int) : aclCounterName (sampleEntry p) = some "cnt1" := rfl

theorem processAddedAcl_stat_present (t : BcmAclTable) (g : Int) (acl : AclEntry) (n : String)
    (hn : aclCounterName acl = some n) : getAclStatIf (processAddedAcl t g acl).2 n ≠ none := by
  have h := (incRefStat_added (acquireRanges t (aclRangeKeys acl)).2 g n).2.2
  unfold getAclStatIf at h ⊢
  rw [processAddedAcl_statMap_some t g acl n hn]
  exact h

theorem run_cons (t : BcmAclTable) (op : AclTableOp) (ops : List AclTableOp) :
    run t (op :: ops) = run (applyOp t op) ops := rfl

theorem sharedAdds_succ (first : Int) (n : Nat) :
    sharedAdds first (n + 1) =
      AclTableOp.processAddedAcl 1 (sampleEntry first) :: sharedAdds (first + 1) n := rfl

theorem allReturn_cons (t : BcmAclTable) (op : AclTableOp) (ops : List AclTableOp) :
    AllReturn t (op :: ops) ↔ opResult t op = .ok () ∧ AllReturn (applyOp t op) ops := Iff.rfl

theorem sharedAdds_run (n : Nat) (first : Int) (t : BcmAclTable)
    (hfree : ∀ p, first ≤ p → FlatMap.find t.aclEntryMap_ p = none) :
    AllReturn t (sharedAdds first (n + 1)) ∧
    getAclStatRefCount (run t (sharedAdds first (n + 1))) "cnt1" =
      (getAclStatRefCount t "cnt1" + n + 1) % refCountModulus ∧
    getAclStatIf (run t (sharedAdds first (n + 1))) "cnt1" ≠ none := by
  induction n generalizing first t with
  | zero =>
    have hok : opResult t (.processAddedAcl 1 (sampleEntry first)) = .ok () :=
      (processAddedAcl_ok_iff t 1 (sampleEntry first)).2 (hfree first (le_refl _))
    have hnil : sharedAdds (first + 1) 0 = [] := rfl
    rw [sharedAdds_succ, run_cons, allReturn_cons, hnil]
    refine ⟨⟨hok, trivial⟩, ?_, ?_⟩
    · show getAclStatRefCount (processAddedAcl t 1 (sampleEntry first)).2 "cnt1" = _
      rw [processAddedAcl_statRefCount, if_pos (sampleEntry_counter first)]
      rfl
    · exact processAddedAcl_stat_present t 1 (sampleEntry first) "cnt1" (sampleEntry_counter _)
  | succ n ih =>
    have hok : opResult t (.processAddedAcl 1 (sampleEntry first)) = .ok () :=
      (processAddedAcl_ok_iff t 1 (sampleEntry first)).2 (hfree first (le_refl _))
    have hfree2 : ∀ p, first + 1 ≤ p →
        FlatMap.find (processAddedAcl t 1 (sampleEntry first)).2.aclEntryMap_ p = none := by
      intro p hp
      have hne : p ≠ (sampleEntry first).getPriority := by
        show p ≠ first
        omega
      rw [processAddedAcl_entry_find_ne t 1 (sampleEntry first) p hne]
      exact hfree p (by omega)
    obtain ⟨i1, i2, i3⟩ := ih (first + 1) (processAddedAcl t 1 (sampleEntry first)).2 hfree2
    rw [sharedAdds_succ, run_cons, allReturn_cons]
    refine ⟨⟨hok, i1⟩, ?_, i3⟩
    show getAclStatRefCount
      (run (processAddedAcl t 1 (sampleEntry first)).2 (sharedAdds (first + 1) (n + 1))) "cnt1" = _
    rw [i2, processAddedAcl_statRefCount, if_pos (sampleEntry_counter first)]
    unfold incCount
    rw [Nat.add_assoc ((getAclStatRefCount t "cnt1" + 1) % refCountModulus), Nat.mod_add_mod]
    congr 1
    omega

end BcmAclTable

/-- C9, as the code has it: the five lookups are total functions of the table that return
a value and no table. In every table reached from the empty one by public calls none of
which wrapped a count, `getAclRangeRefCount` reads 0 exactly when `getAclRangeIf` is null
and `getAclStatRefCount` reads 0 exactly when `getAclStatIf` is null; on every table an
absent key reads 0. -/
theorem zero_count_means_absent (hw : BcmSwitch) (ops : List AclTableOp)
    (h : NoWrap (BcmAclTable.init hw) ops) :
    (∀ r, getAclRangeRefCount (run (BcmAclTable.init hw) ops) r = 0 ↔
      getAclRangeIf (run (BcmAclTable.init hw) ops) r = none) ∧
    (∀ n, getAclStatRefCount (run (BcmAclTable.init hw) ops) n = 0 ↔
      getAclStatIf (run (BcmAclTable.init hw) ops) n = none) ∧
    (∀ (t : BcmAclTable) r, getAclRangeIf t r = none → getAclRangeRefCount t r = 0) ∧
    (∀ (t : BcmAclTable) n, getAclStatIf t n = none → getAclStatRefCount t n = 0) := by
  have hc := countsPositive_run _ ops (countsPositive_init hw) h
  refine ⟨fun r => ?_, fun n => ?_, fun t r hr => ?_, fun t n hn => ?_⟩
  · have := getAclRangeIf_ne_none_iff (run (BcmAclTable.init hw) ops) r
      (fun e he => (hc.1 _ (FlatMap.find_mem _ _ _ he)).1)
    constructor
    · intro h0
      by_contra hne
      have := this.1 hne
      omega
    · intro hn
      by_contra h0
      exact (this.2 (by omega)) hn
  · have := getAclStatIf_ne_none_iff (run (BcmAclTable.init hw) ops) n
      (fun e he => (hc.2 _ (FlatMap.find_mem _ _ _ he)).1)
    constructor
    · intro h0
      by_contra hne
      have := this.1 hne
      omega
    · intro hn
      by_contra h0
      exact (this.2 (by omega)) hn
  · unfold getAclRangeIf at hr
    unfold getAclRangeRefCount
    cases hf : FlatMap.find t.aclRangeMap_ r with
    | none => rfl
    | some e => simp [hf] at hr
  · unfold getAclStatIf at hn
    unfold getAclStatRefCount
    cases hf : FlatMap.find t.aclStatMap_ n with
    | none => rfl
    | some e => simp [hf] at hn

/-- Witness of `zero_count_means_absent`: priority 10 added, priority 20 added, priority 10
removed. -/
theorem zero_count_means_absent_witness :
    NoWrap (BcmAclTable.init sampleSwitch)
      [.processAddedAcl 1 (sampleEntry 10), .processAddedAcl 1 (sampleEntry 20),
        .processRemovedAcl (sampleEntry 10)] ∧
    (∀ n, getAclStatRefCount (run (BcmAclTable.init sampleSwitch)
        [.processAddedAcl 1 (sampleEntry 10), .processAddedAcl 1 (sampleEntry 20),
          .processRemovedAcl (sampleEntry 10)]) n = 0 ↔
      getAclStatIf (run (BcmAclTable.init sampleSwitch)
        [.processAddedAcl 1 (sampleEntry 10), .processAddedAcl 1 (sampleEntry 20),
          .processRemovedAcl (sampleEntry 10)]) n = none) :=
  have hv : NoWrap (BcmAclTable.init sampleSwitch)
      [.processAddedAcl 1 (sampleEntry 10), .processAddedAcl 1 (sampleEntry 20),
        .processRemovedAcl (sampleEntry 10)] :=
    ⟨⟨by decide, by decide⟩, ⟨by decide, by decide⟩, trivial, trivial⟩
  ⟨hv, (zero_count_means_absent sampleSwitch _ hv).2.1⟩

/-- C9 fails as stated: `2^32` entries with the priorities `-2^31`, ..., `2^31 - 1`, all of
the `int` values, that share the counter "cnt1" are added to the empty table. Every call
returns without throwing; afterwards the counter is in the stat table and its reference
count reads 0. -/
theorem zero_count_of_present_counter :
    AllReturn (BcmAclTable.init sampleSwitch) (sharedAdds (-2147483648) 4294967296) ∧
    getAclStatRefCount
      (run (BcmAclTable.init sampleSwitch) (sharedAdds (-2147483648) 4294967296)) "cnt1" = 0 ∧
    getAclStatIf
      (run (BcmAclTable.init sampleSwitch) (sharedAdds (-2147483648) 4294967296)) "cnt1" ≠
      none := by
  obtain ⟨h1, h2, h3⟩ := sharedAdds_run 4294967295 (-2147483648) (BcmAclTable.init sampleSwitch)
    (fun p _ => rfl)
  have e : (4294967295 + 1 : Nat) = 4294967296 := rfl
  rw [e] at h1 h2 h3
  refine ⟨h1, ?_, h3⟩
  rw [h2]
  have h0 : getAclStatRefCount (BcmAclTable.init sampleSwitch) "cnt1" = 0 := rfl
  rw [h0]
  norm_num [refCountModulus]


/-! ## C10: the reverse lookup by handle -/

theorem AclRange.lt_iff (a b : AclRange) :
    a < b ↔ a.flags.toNat < b.flags.toNat ∨
      (a.flags.toNat = b.flags.toNat ∧ (a.min < b.min ∨ (a.min = b.min ∧ a.max < b.max))) :=
  Iff.rfl

theorem AclRangeKind.toNat_inj (a b : AclRangeKind) (h : a.toNat = b.toNat) : a = b := by
  cases a <;> cases b <;> simp [AclRangeKind.toNat] at h ⊢

theorem AclRange.lt_trans (a b c : AclRange) (h1 : a < b) (h2 : b < c) : a < c := by
  rw [AclRange.lt_iff] at *
  omega

theorem AclRange.lt_of_not_lt (a b : AclRange) (h1 : ¬ a < b) (h2 : a ≠ b) : b < a := by
  rw [AclRange.lt_iff] at *
  have hne : ¬ (a.flags.toNat = b.flags.toNat ∧ a.min = b.min ∧ a.max = b.max) := by
    rintro ⟨f, m1, m2⟩
    apply h2
    obtain ⟨af, amin, amax⟩ := a
    obtain ⟨bf, bmin, bmax⟩ := b
    simp only at f m1 m2
    rw [AclRangeKind.toNat_inj _ _ f, m1, m2]
  omega

namespace FlatMap

theorem lt_of_find_none (m : List (AclRange × ν)) (k : AclRange)
    (hf : find m k = none) : ∀ x ∈ m, x.1 ≠ k := by
  intro x hx hk
  have := not_mem_keys_of_find_none m k hf
  exact this (List.mem_map.2 ⟨x, hx, hk⟩)

theorem sorted_orderedInsert {ν : Type} (m : List (AclRange × ν)) (k : AclRange) (v : ν)
    (hs : m.Pairwise (fun a b => a.1 < b.1)) (hf : ∀ x ∈ m, x.1 ≠ k) :
    (orderedInsert k v m).Pairwise (fun a b => a.1 < b.1) := by
  induction m with
  | nil => simp [orderedInsert]
  | cons e m ih =>
    obtain ⟨a, b⟩ := e
    rw [List.pairwise_cons] at hs
    simp only [orderedInsert]
    split_ifs with hlt
    · rw [List.pairwise_cons]
      refine ⟨fun x hx => ?_, List.pairwise_cons.2 hs⟩
      rcases List.mem_cons.1 hx with hx | hx
      · subst hx; exact hlt
      · exact AclRange.lt_trans _ _ _ hlt (hs.1 x hx)
    · rw [List.pairwise_cons]
      have hak : a ≠ k := hf (a, b) (List.mem_cons_self _ _)
      refine ⟨fun x hx => ?_, ih hs.2 (fun x hx => hf x (List.mem_cons_of_mem _ hx))⟩
      rcases (mem_orderedInsert m k v x).1 hx with hx | hx
      · subst hx
        exact AclRange.lt_of_not_lt _ _ hlt (fun h => hak h.symm)
      · exact hs.1 x hx

theorem keys_assign {κ ν : Type} [DecidableEq κ] (m : List (κ × ν)) (k : κ) (v : ν) :
    (assign m k v).map Prod.fst = m.map Prod.fst := by
  induction m with
  | nil => rfl
  | cons e m ih =>
    obtain ⟨a, b⟩ := e
    simp only [assign]
    split_ifs with h
    · rfl
    · simp only [List.map_cons, ih]

theorem sorted_iff_keys {ν : Type} (m : List (AclRange × ν)) :
    m.Pairwise (fun a b => a.1 < b.1) ↔ (m.map Prod.fst).Pairwise (fun a b => a < b) := by
  rw [List.pairwise_map]

theorem sorted_assign {ν : Type} (m : List (AclRange × ν)) (k : AclRange) (v : ν)
    (hs : m.Pairwise (fun a b => a.1 < b.1)) :
    (assign m k v).Pairwise (fun a b => a.1 < b.1) := by
  rw [sorted_iff_keys, keys_assign, ← sorted_iff_keys]
  exact hs

theorem sorted_erase {ν : Type} (m : List (AclRange × ν)) (k : AclRange)
    (hs : m.Pairwise (fun a b => a.1 < b.1)) :
    (erase m k).1.Pairwise (fun a b => a.1 < b.1) :=
  List.Pairwise.sublist (List.filter_sublist _) hs

end FlatMap

namespace BcmAclTable

theorem sorted_incRefRange (t : BcmAclTable) (r : AclRange)
    (hs : t.aclRangeMap_.Pairwise (fun a b => a.1 < b.1)) :
    (incRefOrCreateBcmAclRange t r).2.aclRangeMap_.Pairwise (fun a b => a.1 < b.1) := by
  unfold incRefOrCreateBcmAclRange
  cases hf : FlatMap.find t.aclRangeMap_ r with
  | none =>
    simp only [FlatMap.emplace, hf]
    exact FlatMap.sorted_orderedInsert _ _ _ hs (FlatMap.lt_of_find_none _ _ hf)
  | some e => exact FlatMap.sorted_assign _ _ _ hs

theorem sorted_derefRange (t : BcmAclTable) (r : AclRange)
    (hs : t.aclRangeMap_.Pairwise (fun a b => a.1 < b.1)) :
    (derefBcmAclRange t r).2.aclRangeMap_.Pairwise (fun a b => a.1 < b.1) := by
  unfold derefBcmAclRange
  cases hf : FlatMap.find t.aclRangeMap_ r with
  | none => exact hs
  | some e =>
    dsimp only
    split_ifs
    · exact hs
    · exact FlatMap.sorted_erase _ _ hs
    · exact FlatMap.sorted_assign _ _ _ hs

theorem sorted_acquireRanges (t : BcmAclTable) (rs : List AclRange)
    (hs : t.aclRangeMap_.Pairwise (fun a b => a.1 < b.1)) :
    (acquireRanges t rs).2.aclRangeMap_.Pairwise (fun a b => a.1 < b.1) := by
  induction rs generalizing t with
  | nil => exact hs
  | cons r rs ih => exact ih _ (sorted_incRefRange t r hs)

theorem sorted_releaseRanges (t : BcmAclTable) (rs : List AclRange)
    (hs : t.aclRangeMap_.Pairwise (fun a b => a.1 < b.1)) :
    (releaseRanges t rs).2.aclRangeMap_.Pairwise (fun a b => a.1 < b.1) := by
  induction rs generalizing t with
  | nil => exact hs
  | cons r rs ih =>
    simp only [releaseRanges]
    have hd := sorted_derefRange t r hs
    rcases hr : derefBcmAclRange t r with ⟨_ | _, t1⟩
    · rw [hr] at hd; exact hd
    · rw [hr] at hd
      rw [andThen_ok]; exact ih t1 hd

theorem sorted_processRemovedAcl (t : BcmAclTable) (acl : AclEntry)
    (hs : t.aclRangeMap_.Pairwise (fun a b => a.1 < b.1)) :
    (processRemovedAcl t acl).2.aclRangeMap_.Pairwise (fun a b => a.1 < b.1) := by
  rw [processRemovedAcl_eq]
  unfold processRemovedAclOnKeys
  dsimp only
  split_ifs with h0
  · exact hs
  · cases aclCounterName acl with
    | none =>
      dsimp only
      rw [andThen_ok]
      exact sorted_releaseRanges _ _ hs
    | some n =>
      dsimp only
      have hd := derefStat_rangeMap
        { t with aclEntryMap_ := (FlatMap.erase t.aclEntryMap_ acl.getPriority).1 } n
      rcases hr : derefBcmAclStat
        { t with aclEntryMap_ := (FlatMap.erase t.aclEntryMap_ acl.getPriority).1 } n
        with ⟨_ | _, t1⟩
      · rw [hr] at hd
        show t1.aclRangeMap_.Pairwise _
        rw [hd]; exact hs
      · rw [hr] at hd
        rw [andThen_ok]
        apply sorted_releaseRanges
        rw [hd]; exact hs

theorem sorted_run (t : BcmAclTable) (ops : List AclTableOp)
    (hs : t.aclRangeMap_.Pairwise (fun a b => a.1 < b.1)) :
    (run t ops).aclRangeMap_.Pairwise (fun a b => a.1 < b.1) := by
  induction ops generalizing t with
  | nil => exact hs
  | cons op ops ih =>
    rw [run_cons]
    apply ih
    cases op with
    | processAddedAcl g acl =>
      show (processAddedAcl t g acl).2.aclRangeMap_.Pairwise _
      rw [processAddedAcl_rangeMap]
      exact sorted_acquireRanges t _ hs
    | processRemovedAcl acl => exact sorted_processRemovedAcl t acl hs
    | releaseAcls => exact List.Pairwise.nil

theorem refCountIfLoop_eq_none (h : BcmAclRangeHandle)
    (m : List (AclRange × (BcmAclRange × Nat))) :
    getAclRangeRefCountIfLoop h m = none ↔ ∀ x ∈ m, x.2.1.getHandle ≠ h := by
  induction m with
  | nil => simp [getAclRangeRefCountIfLoop]
  | cons e m ih =>
    simp only [getAclRangeRefCountIfLoop]
    split_ifs with he
    · simp [he]
    · rw [ih]
      simp [he]

theorem refCountIfLoop_first (h : BcmAclRangeHandle)
    (m : List (AclRange × (BcmAclRange × Nat))) (c : Nat)
    (hc : getAclRangeRefCountIfLoop h m = some c) :
    ∃ pre x post, m = pre ++ x :: post ∧ (∀ y ∈ pre, y.2.1.getHandle ≠ h) ∧
      x.2.1.getHandle = h ∧ x.2.2 = c := by
  induction m with
  | nil => simp [getAclRangeRefCountIfLoop] at hc
  | cons e m ih =>
    simp only [getAclRangeRefCountIfLoop] at hc
    split_ifs at hc with he
    · exact ⟨[], e, m, rfl, fun y hy => by simp at hy, he, Option.some.inj hc⟩
    · obtain ⟨pre, x, post, h1, h2, h3, h4⟩ := ih hc
      refine ⟨e :: pre, x, post, by rw [h1]; rfl, fun y hy => ?_, h3, h4⟩
      rcases List.mem_cons.1 hy with hy | hy
      · subst hy; exact he
      · exact h2 y hy

theorem refCountIfLoop_least (h : BcmAclRangeHandle)
    (m : List (AclRange × (BcmAclRange × Nat))) (c : Nat)
    (hs : m.Pairwise (fun a b => a.1 < b.1))
    (hc : getAclRangeRefCountIfLoop h m = some c) :
    ∃ x ∈ m, x.2.1.getHandle = h ∧ x.2.2 = c ∧
      ∀ y ∈ m, y.2.1.getHandle = h → x.1 = y.1 ∨ x.1 < y.1 := by
  induction m with
  | nil => simp [getAclRangeRefCountIfLoop] at hc
  | cons e m ih =>
    rw [List.pairwise_cons] at hs
    simp only [getAclRangeRefCountIfLoop] at hc
    split_ifs at hc with he
    · refine ⟨e, List.mem_cons_self _ _, he, Option.some.inj hc, fun y hy _ => ?_⟩
      rcases List.mem_cons.1 hy with hy | hy
      · exact Or.inl (by rw [hy])
      · exact Or.inr (hs.1 y hy)
    · obtain ⟨x, hx, h1, h2, h3⟩ := ih hs.2 hc
      refine ⟨x, List.mem_cons_of_mem _ hx, h1, h2, fun y hy hyh => ?_⟩
      rcases List.mem_cons.1 hy with hy | hy
      · subst hy; exact absurd hyh he
      · exact h3 y hy hyh

theorem refCountIfLoop_of_distinct (h : BcmAclRangeHandle)
    (m : List (AclRange × (BcmAclRange × Nat)))
    (hd : m.Pairwise (fun a b => a.2.1.getHandle ≠ b.2.1.getHandle))
    (x : AclRange × (BcmAclRange × Nat)) (hx : x ∈ m) (hxh : x.2.1.getHandle = h) :
    getAclRangeRefCountIfLoop h m = some x.2.2 := by
  induction m with
  | nil => simp at hx
  | cons e m ih =>
    rw [List.pairwise_cons] at hd
    simp only [getAclRangeRefCountIfLoop]
    rcases List.mem_cons.1 hx with hx | hx
    · subst hx
      rw [if_pos hxh]
    · have hne : e.2.1.getHandle ≠ h := by
        rw [← hxh]; exact hd.1 x hx
      rw [if_neg hne]
      exact ih hd.2 hx

end BcmAclTable

/-- C10: `getAclRangeRefCountIf(h)` returns none exactly when no range object in the table
has handle `h`. Otherwise it returns the count stored with the first entry, in the order of
the map, whose object has handle `h`; the map of a table reached from the empty one by the
public calls is in strictly increasing key order, and in such a map that entry has the
least key among the entries with handle `h`. When the objects of the table have pairwise
distinct handles, the result is `getAclRangeRefCount(r)` for the range `r` whose object has
handle `h`. -/
theorem reverse_lookup_by_handle (t : BcmAclTable) (h : BcmAclRangeHandle) :
    (getAclRangeRefCountIf t h = none ↔ ∀ x ∈ t.aclRangeMap_, x.2.1.getHandle ≠ h) ∧
    (∀ c, getAclRangeRefCountIf t h = some c →
      ∃ pre x post, t.aclRangeMap_ = pre ++ x :: post ∧ (∀ y ∈ pre, y.2.1.getHandle ≠ h) ∧
        x.2.1.getHandle = h ∧ x.2.2 = c) ∧
    (∀ hw ops, (run (BcmAclTable.init hw) ops).aclRangeMap_.Pairwise (fun a b => a.1 < b.1)) ∧
    (t.aclRangeMap_.Pairwise (fun a b => a.1 < b.1) →
      ∀ c, getAclRangeRefCountIf t h = some c →
        ∃ x ∈ t.aclRangeMap_, x.2.1.getHandle = h ∧ x.2.2 = c ∧
          ∀ y ∈ t.aclRangeMap_, y.2.1.getHandle = h → x.1 = y.1 ∨ x.1 < y.1) ∧
    (t.aclRangeMap_.Pairwise (fun a b => a.2.1.getHandle ≠ b.2.1.getHandle) →
      ∀ r e, FlatMap.find t.aclRangeMap_ r = some e → e.1.getHandle = h →
        getAclRangeRefCountIf t h = some (getAclRangeRefCount t r)) := by
  refine ⟨refCountIfLoop_eq_none h _, fun c hc => refCountIfLoop_first h _ c hc,
    fun hw ops => sorted_run _ ops List.Pairwise.nil,
    fun hs c hc => refCountIfLoop_least h _ c hs hc, fun hd r e hf he => ?_⟩
  rw [getAclRangeRefCount_of_find t r e hf]
  exact refCountIfLoop_of_distinct h _ hd (r, e) (FlatMap.find_mem _ _ _ hf) he

/-- Witness of `reverse_lookup_by_handle`: a table with the ranges [100,200] (handle 7,
count 2) and [300,400] (handle 8, count 1), looked up by handle 8. -/
theorem reverse_lookup_by_handle_witness :
    (twoRangeTable.aclRangeMap_.Pairwise (fun a b => a.1 < b.1)) ∧
    (twoRangeTable.aclRangeMap_.Pairwise
      (fun a b => a.2.1.getHandle ≠ b.2.1.getHandle)) ∧
    getAclRangeRefCountIf twoRangeTable 8 = some 1 ∧
    getAclRangeRefCountIf twoRangeTable 8 =
      some (getAclRangeRefCount twoRangeTable ⟨.SRC_L4_PORT, 300, 400⟩) ∧
    (∃ x ∈ twoRangeTable.aclRangeMap_, x.2.1.getHandle = 8 ∧ x.2.2 = 1 ∧
      ∀ y ∈ twoRangeTable.aclRangeMap_, y.2.1.getHandle = 8 → x.1 = y.1 ∨ x.1 < y.1) :=
  have hs : twoRangeTable.aclRangeMap_.Pairwise (fun a b => a.1 < b.1) := by decide
  have hd : twoRangeTable.aclRangeMap_.Pairwise
      (fun a b => a.2.1.getHandle ≠ b.2.1.getHandle) := by decide
  ⟨hs, hd, rfl,
    (reverse_lookup_by_handle twoRangeTable 8).2.2.2.2 hd ⟨.SRC_L4_PORT, 300, 400⟩
      (⟨8, ⟨.SRC_L4_PORT, 300, 400⟩⟩, 1) rfl rfl,
    (reverse_lookup_by_handle twoRangeTable 8).2.2.2.1 hs 1 rfl⟩



/-! ## C2: the round trip in a table with a wrapped count -/

namespace BcmAclTable

theorem run_append (t : BcmAclTable) (xs ys : List AclTableOp) :
    run t (xs ++ ys) = run (run t xs) ys := List.foldl_append _ _ _ _

theorem allReturn_append (t : BcmAclTable) (xs ys : List AclTableOp) :
    AllReturn t (xs ++ ys) ↔ AllReturn t xs ∧ AllReturn (run t xs) ys := by
  induction xs generalizing t with
  | nil => exact ⟨fun h => ⟨trivial, h⟩, fun h => h.2⟩
  | cons x xs ih =>
    rw [List.cons_append, allReturn_cons, allReturn_cons, run_cons, ih, and_assoc]

theorem sampleEntry_keys (p : Int) :
    aclRangeKeys (sampleEntry p) = [⟨.SRC_L4_PORT, 100, 200⟩] := rfl

theorem iterate_incCount (n c : Nat) :
    incCount^[n] c = if n = 0 then c else (c + n) % refCountModulus := by
  induction n generalizing c with
  | zero => rfl
  | succ n ih =>
    rw [Function.iterate_succ_apply, ih, if_neg (Nat.succ_ne_zero n)]
    by_cases hn : n = 0
    · subst hn
      rfl
    · rw [if_neg hn]
      unfold incCount
      rw [Nat.mod_add_mod]
      congr 1
      omega

theorem sharedAdds_counts (n : Nat) (first : Int) (t : BcmAclTable) :
    (∀ k, getAclRangeRefCount (run t (sharedAdds first n)) k =
      if k = ⟨.SRC_L4_PORT, 100, 200⟩ then incCount^[n] (getAclRangeRefCount t k)
      else getAclRangeRefCount t k) ∧
    (∀ m, getAclStatRefCount (run t (sharedAdds first n)) m =
      if m = "cnt1" then incCount^[n] (getAclStatRefCount t m) else getAclStatRefCount t m) := by
  induction n generalizing first t with
  | zero =>
    refine ⟨fun k => ?_, fun m => ?_⟩
    · show getAclRangeRefCount t k = _
      split <;> rfl
    · show getAclStatRefCount t m = _
      split <;> rfl
  | succ n ih =>
    obtain ⟨i1, i2⟩ := ih (first + 1) (processAddedAcl t 1 (sampleEntry first)).2
    rw [sharedAdds_succ, run_cons]
    refine ⟨fun k => ?_, fun m => ?_⟩
    · show getAclRangeRefCount
        (run (processAddedAcl t 1 (sampleEntry first)).2 (sharedAdds (first + 1) n)) k = _
      rw [i1 k, processAddedAcl_rangeRefCount, sampleEntry_keys, Function.iterate_succ_apply]
      by_cases hk : k = ⟨.SRC_L4_PORT, 100, 200⟩
      · rw [if_pos hk, if_pos (List.mem_singleton.2 hk), if_pos hk]
      · rw [if_neg hk, if_neg (fun h => hk (List.mem_singleton.1 h)), if_neg hk]
    · show getAclStatRefCount
        (run (processAddedAcl t 1 (sampleEntry first)).2 (sharedAdds (first + 1) n)) m = _
      rw [i2 m, processAddedAcl_statRefCount, sampleEntry_counter,
        Function.iterate_succ_apply]
      by_cases hm : m = "cnt1"
      · rw [if_pos hm, if_pos (by rw [hm]), if_pos hm]
      · rw [if_neg hm, if_neg (fun h => hm (Option.some.inj h).symm), if_neg hm]

theorem processAddedAcl_range_present (t : BcmAclTable) (g : Int) (acl : AclEntry)
    (k : AclRange) (hk : k ∈ aclRangeKeys acl) :
    getAclRangeIf (processAddedAcl t g acl).2 k ≠ none := by
  obtain ⟨a, b⟩ := acquireRanges_find_mem t _ (aclRangeKeys_nodup acl) k hk
  unfold getAclRangeIf
  rw [processAddedAcl_rangeMap]
  cases hf : FlatMap.find t.aclRangeMap_ k with
  | none =>
    obtain ⟨o, ho⟩ := b hf
    rw [ho]
    simp
  | some e =>
    rw [a e hf]
    simp

theorem sharedAdds_range_present (n : Nat) (first : Int) (t : BcmAclTable) :
    getAclRangeIf (run t (sharedAdds first (n + 1))) ⟨.SRC_L4_PORT, 100, 200⟩ ≠ none := by
  induction n generalizing first t with
  | zero =>
    exact processAddedAcl_range_present t 1 (sampleEntry first) _ (by rw [sampleEntry_keys]; simp)
  | succ n ih =>
    rw [sharedAdds_succ, run_cons]
    exact ih (first + 1) _

theorem processAddedAcl_entry_present (t : BcmAclTable) (g : Int) (acl : AclEntry) :
    FlatMap.find (processAddedAcl t g acl).2.aclEntryMap_ acl.getPriority ≠ none := by
  cases hf : FlatMap.find t.aclEntryMap_ acl.getPriority with
  | none =>
    rw [processAddedAcl_entry_find_fresh t g acl hf]
    simp
  | some w =>
    rw [processAddedAcl_entryMap_of_present t g acl w hf, hf]
    simp

theorem sharedAdds_entry_below (n : Nat) (first : Int) (t : BcmAclTable) (q : Int)
    (hq : q < first) :
    FlatMap.find (run t (sharedAdds first n)).aclEntryMap_ q = FlatMap.find t.aclEntryMap_ q := by
  induction n generalizing first t with
  | zero => rfl
  | succ n ih =>
    rw [sharedAdds_succ, run_cons]
    show FlatMap.find
      (run (processAddedAcl t 1 (sampleEntry first)).2 (sharedAdds (first + 1) n)).aclEntryMap_ q = _
    rw [ih (first + 1) _ (by omega)]
    exact processAddedAcl_entry_find_ne t 1 (sampleEntry first) q (by show q ≠ first; omega)

theorem sharedAdds_first_present (n : Nat) (first : Int) (t : BcmAclTable) :
    FlatMap.find (run t (sharedAdds first (n + 1))).aclEntryMap_ first ≠ none := by
  rw [sharedAdds_succ, run_cons]
  show FlatMap.find
    (run (processAddedAcl t 1 (sampleEntry first)).2 (sharedAdds (first + 1) n)).aclEntryMap_ first ≠ _
  rw [sharedAdds_entry_below n (first + 1) _ first (by omega)]
  exact processAddedAcl_entry_present t 1 (sampleEntry first)

theorem round_trip_from_zero (t : BcmAclTable) (p : Int)
    (hr : getAclRangeRefCount t ⟨.SRC_L4_PORT, 100, 200⟩ = 0)
    (hs : getAclStatRefCount t "cnt1" = 0)
    (hf : FlatMap.find t.aclEntryMap_ p = none) :
    (processAddedAcl t 1 (sampleEntry p)).1 = .ok () ∧
    (processRemovedAcl (processAddedAcl t 1 (sampleEntry p)).2 (sampleEntry p)).1 = .ok () ∧
    getAclRangeIf (processRemovedAcl (processAddedAcl t 1 (sampleEntry p)).2 (sampleEntry p)).2
      ⟨.SRC_L4_PORT, 100, 200⟩ = none ∧
    getAclStatIf (processRemovedAcl (processAddedAcl t 1 (sampleEntry p)).2 (sampleEntry p)).2
      "cnt1" = none := by
  have hsR : getAclRangeRefCount (processAddedAcl t 1 (sampleEntry p)).2
      ⟨.SRC_L4_PORT, 100, 200⟩ = 1 := by
    rw [processAddedAcl_rangeRefCount, sampleEntry_keys, if_pos (List.mem_singleton.2 rfl), hr,
      incCount_zero]
  have hsS : getAclStatRefCount (processAddedAcl t 1 (sampleEntry p)).2 "cnt1" = 1 := by
    rw [processAddedAcl_statRefCount, if_pos (sampleEntry_counter p), hs, incCount_zero]
  have hsp := processAddedAcl_entry_present t 1 (sampleEntry p)
  refine ⟨(processAddedAcl_ok_iff t 1 (sampleEntry p)).2 hf, ?_⟩
  rw [processRemovedAcl_present_some _ (sampleEntry p) "cnt1" hsp (sampleEntry_counter p),
    sampleEntry_keys]
  generalize (processAddedAcl t 1 (sampleEntry p)).2 = s at hsR hsS
  obtain ⟨d1, d2⟩ := derefStat_of_count_one
    { s with aclEntryMap_ := (FlatMap.erase s.aclEntryMap_ (sampleEntry p).getPriority).1 }
    "cnt1" hsS
  have hd : derefBcmAclStat
      { s with aclEntryMap_ := (FlatMap.erase s.aclEntryMap_ (sampleEntry p).getPriority).1 }
      "cnt1" = (.ok (), (derefBcmAclStat
      { s with aclEntryMap_ := (FlatMap.erase s.aclEntryMap_ (sampleEntry p).getPriority).1 }
      "cnt1").2) := Prod.ext d1 rfl
  rw [hd, andThen_ok]
  generalize (derefBcmAclStat
      { s with aclEntryMap_ := (FlatMap.erase s.aclEntryMap_ (sampleEntry p).getPriority).1 }
      "cnt1").2 = s1 at d2 hd
  have hs1 : s1.aclRangeMap_ = s.aclRangeMap_ := by
    have := derefStat_rangeMap
      { s with aclEntryMap_ := (FlatMap.erase s.aclEntryMap_ (sampleEntry p).getPriority).1 }
      "cnt1"
    rw [hd] at this
    exact this
  have hc1 : getAclRangeRefCount s1 ⟨.SRC_L4_PORT, 100, 200⟩ = 1 := by
    unfold getAclRangeRefCount at hsR ⊢
    rw [hs1]
    exact hsR
  obtain ⟨e1, e2⟩ := derefRange_of_count_one s1 _ hc1
  have he : derefBcmAclRange s1 ⟨.SRC_L4_PORT, 100, 200⟩ =
      (.ok none, (derefBcmAclRange s1 ⟨.SRC_L4_PORT, 100, 200⟩).2) := Prod.ext e1 rfl
  have hrel : releaseRanges s1 [⟨.SRC_L4_PORT, 100, 200⟩] =
      (.ok (), (derefBcmAclRange s1 ⟨.SRC_L4_PORT, 100, 200⟩).2) := by
    rw [releaseRanges, he, andThen_ok]
    rfl
  rw [hrel]
  refine ⟨rfl, e2, ?_⟩
  unfold getAclStatIf at d2 ⊢
  rw [derefRange_statMap]
  exact d2

theorem wrapThenFree_run (n : Nat) (first : Int) (t : BcmAclTable)
    (hfree : ∀ p, first ≤ p → FlatMap.find t.aclEntryMap_ p = none) :
    AllReturn t (wrapThenFree first (n + 1)) ∧
    (∀ k, getAclRangeRefCount (run t (wrapThenFree first (n + 1))) k =
      if k = ⟨.SRC_L4_PORT, 100, 200⟩ then (getAclRangeRefCount t k + (n + 1)) % refCountModulus
      else getAclRangeRefCount t k) ∧
    (∀ m, getAclStatRefCount (run t (wrapThenFree first (n + 1))) m =
      if m = "cnt1" then (getAclStatRefCount t m + (n + 1)) % refCountModulus
      else getAclStatRefCount t m) ∧
    getAclIf (run t (wrapThenFree first (n + 1))) first = none ∧
    getAclRangeIf (run t (wrapThenFree first (n + 1))) ⟨.SRC_L4_PORT, 100, 200⟩ ≠ none := by
  obtain ⟨a1, -, -⟩ := sharedAdds_run n first t hfree
  obtain ⟨c1, c2⟩ := sharedAdds_counts (n + 1) first t
  have p1 := sharedAdds_range_present n first t
  have p2 := sharedAdds_first_present n first t
  have hrem := processRemovedAcl_present_none (run t (sharedAdds first (n + 1)))
    (bareEntry first) p2 rfl
  have hrun : run t (wrapThenFree first (n + 1)) =
      (processRemovedAcl (run t (sharedAdds first (n + 1))) (bareEntry first)).2 := by
    unfold wrapThenFree
    rw [run_append, run_cons]
    rfl
  have hall : AllReturn t (wrapThenFree first (n + 1)) := by
    unfold wrapThenFree
    rw [allReturn_append, allReturn_cons]
    refine ⟨a1, ?_, trivial⟩
    show (processRemovedAcl _ _).1 = _
    rw [hrem]
    rfl
  rw [hrun, hrem]
  refine ⟨hall, fun k => ?_, fun m => ?_, ?_, p1⟩
  · show getAclRangeRefCount (run t (sharedAdds first (n + 1))) k = _
    rw [c1 k, iterate_incCount, if_neg (Nat.succ_ne_zero n)]
  · show getAclStatRefCount (run t (sharedAdds first (n + 1))) m = _
    rw [c2 m, iterate_incCount, if_neg (Nat.succ_ne_zero n)]
  · show FlatMap.find (FlatMap.erase (run t (sharedAdds first (n + 1))).aclEntryMap_ first).1
      first = none
    rw [FlatMap.find_erase, if_pos rfl]

end BcmAclTable

/-- C2 fails as stated: the `2^32` entries of priorities `-2^31`, ..., `2^31 - 1` that share
the range [100,200] and the counter "cnt1" are added to the empty table and the entry of
priority `-2^31` is erased by a `processRemovedAcl` of an entry of that priority without
range or counter. Every call returns without throwing. In the table reached, priority
`-2^31` is not in the entry map and no reference count reads the `uint32_t` maximum (the
counts of the range and of the counter have wrapped to 0), and the range [100,200] is in
the range table. Adding the entry of priority `-2^31` with that range and counter and
removing it right away both succeed, and afterwards the range is not in the range table. -/
theorem round_trip_after_wrap :
    AllReturn (BcmAclTable.init sampleSwitch) (wrapThenFree (-2147483648) 4294967296) ∧
    (∀ r, getAclRangeRefCount
      (run (BcmAclTable.init sampleSwitch) (wrapThenFree (-2147483648) 4294967296)) r ≠
        refCountModulus - 1) ∧
    (∀ n, getAclStatRefCount
      (run (BcmAclTable.init sampleSwitch) (wrapThenFree (-2147483648) 4294967296)) n ≠
        refCountModulus - 1) ∧
    getAclIf (run (BcmAclTable.init sampleSwitch) (wrapThenFree (-2147483648) 4294967296))
      (-2147483648) = none ∧
    getAclRangeIf (run (BcmAclTable.init sampleSwitch) (wrapThenFree (-2147483648) 4294967296))
      ⟨.SRC_L4_PORT, 100, 200⟩ ≠ none ∧
    (processAddedAcl
      (run (BcmAclTable.init sampleSwitch) (wrapThenFree (-2147483648) 4294967296)) 1
      (sampleEntry (-2147483648))).1 = .ok () ∧
    (processRemovedAcl (processAddedAcl
      (run (BcmAclTable.init sampleSwitch) (wrapThenFree (-2147483648) 4294967296)) 1
      (sampleEntry (-2147483648))).2 (sampleEntry (-2147483648))).1 = .ok () ∧
    getAclRangeIf (processRemovedAcl (processAddedAcl
      (run (BcmAclTable.init sampleSwitch) (wrapThenFree (-2147483648) 4294967296)) 1
      (sampleEntry (-2147483648))).2 (sampleEntry (-2147483648))).2
      ⟨.SRC_L4_PORT, 100, 200⟩ = none := by
  obtain ⟨a, c1, c2, hf, hp⟩ := wrapThenFree_run 4294967295 (-2147483648)
    (BcmAclTable.init sampleSwitch) (fun p _ => rfl)
  have e : (4294967295 + 1 : Nat) = 4294967296 := rfl
  rw [e] at a c1 c2 hf hp
  have hmod : (0 + 4294967296) % refCountModulus = 0 := by norm_num [refCountModulus]
  have hr0 : ∀ r, getAclRangeRefCount
      (run (BcmAclTable.init sampleSwitch) (wrapThenFree (-2147483648) 4294967296)) r = 0 := by
    intro r
    rw [c1 r]
    have h0 : getAclRangeRefCount (BcmAclTable.init sampleSwitch) r = 0 := rfl
    rw [h0, hmod, ite_self]
  have hs0 : ∀ n, getAclStatRefCount
      (run (BcmAclTable.init sampleSwitch) (wrapThenFree (-2147483648) 4294967296)) n = 0 := by
    intro n
    rw [c2 n]
    have h0 : getAclStatRefCount (BcmAclTable.init sampleSwitch) n = 0 := rfl
    rw [h0, hmod, ite_self]
  refine ⟨a, ?_⟩
  generalize run (BcmAclTable.init sampleSwitch) (wrapThenFree (-2147483648) 4294967296) = t
    at hf hp hr0 hs0
  refine ⟨fun r => ?_, fun n => ?_, hf, hp, ?_⟩
  · rw [hr0 r]
    norm_num [refCountModulus]
  · rw [hs0 n]
    norm_num [refCountModulus]
  · obtain ⟨q1, q2, q3, -⟩ := round_trip_from_zero t (-2147483648) (hr0 _) (hs0 _) hf
    exact ⟨q1, q2, q3⟩


/-! ## C4: a count that wraps with one entry in the table -/

namespace BcmAclTable

theorem repeatedAdds_succ (p : Int) (n : Nat) :
    repeatedAdds p (n + 1) =
      AclTableOp.processAddedAcl 1 (sampleEntry p) :: repeatedAdds p n := rfl

theorem repeatedAdds_counts (n : Nat) (p : Int) (t : BcmAclTable) :
    getAclRangeRefCount (run t (repeatedAdds p n)) ⟨.SRC_L4_PORT, 100, 200⟩ =
      incCount^[n] (getAclRangeRefCount t ⟨.SRC_L4_PORT, 100, 200⟩) ∧
    getAclStatRefCount (run t (repeatedAdds p n)) "cnt1" =
      incCount^[n] (getAclStatRefCount t "cnt1") := by
  induction n generalizing t with
  | zero => exact ⟨rfl, rfl⟩
  | succ n ih =>
    obtain ⟨i1, i2⟩ := ih (processAddedAcl t 1 (sampleEntry p)).2
    rw [repeatedAdds_succ, run_cons]
    refine ⟨?_, ?_⟩
    · show getAclRangeRefCount
        (run (processAddedAcl t 1 (sampleEntry p)).2 (repeatedAdds p n)) _ = _
      rw [i1, processAddedAcl_rangeRefCount, sampleEntry_keys,
        if_pos (List.mem_singleton.2 rfl), Function.iterate_succ_apply]
    · show getAclStatRefCount
        (run (processAddedAcl t 1 (sampleEntry p)).2 (repeatedAdds p n)) _ = _
      rw [i2, processAddedAcl_statRefCount, if_pos (sampleEntry_counter p),
        Function.iterate_succ_apply]

theorem repeatedAdds_present (n : Nat) (p : Int) (t : BcmAclTable) :
    getAclRangeIf (run t (repeatedAdds p (n + 1))) ⟨.SRC_L4_PORT, 100, 200⟩ ≠ none ∧
    getAclStatIf (run t (repeatedAdds p (n + 1))) "cnt1" ≠ none := by
  induction n generalizing t with
  | zero =>
    exact ⟨processAddedAcl_range_present t 1 (sampleEntry p) _
        (by rw [sampleEntry_keys]; exact List.mem_singleton.2 rfl),
      processAddedAcl_stat_present t 1 (sampleEntry p) "cnt1" (sampleEntry_counter p)⟩
  | succ n ih =>
    rw [repeatedAdds_succ, run_cons]
    exact ih _

theorem repeatedAdds_entryMap (n : Nat) (p : Int) (t : BcmAclTable) (w : BcmAclEntry)
    (h : FlatMap.find t.aclEntryMap_ p = some w) :
    (run t (repeatedAdds p n)).aclEntryMap_ = t.aclEntryMap_ := by
  induction n generalizing t with
  | zero => rfl
  | succ n ih =>
    have he := processAddedAcl_entryMap_of_present t 1 (sampleEntry p) w h
    have h2 : FlatMap.find (processAddedAcl t 1 (sampleEntry p)).2.aclEntryMap_ p = some w := by
      rw [he]; exact h
    rw [repeatedAdds_succ, run_cons]
    show (run (processAddedAcl t 1 (sampleEntry p)).2 (repeatedAdds p n)).aclEntryMap_ = _
    rw [ih (processAddedAcl t 1 (sampleEntry p)).2 h2, he]

theorem repeatedAdds_run (n : Nat) (hw : BcmSwitch) :
    (run (BcmAclTable.init hw) (repeatedAdds 10 (n + 1))).aclEntryMap_ =
      [(10, ⟨1, sampleEntry 10, [(BcmAclRange.create hw ⟨.SRC_L4_PORT, 100, 200⟩).1]⟩)] ∧
    getAclRangeRefCount (run (BcmAclTable.init hw) (repeatedAdds 10 (n + 1)))
      ⟨.SRC_L4_PORT, 100, 200⟩ = (n + 1) % refCountModulus ∧
    getAclStatRefCount (run (BcmAclTable.init hw) (repeatedAdds 10 (n + 1))) "cnt1" =
      (n + 1) % refCountModulus ∧
    getAclRangeIf (run (BcmAclTable.init hw) (repeatedAdds 10 (n + 1)))
      ⟨.SRC_L4_PORT, 100, 200⟩ ≠ none ∧
    getAclStatIf (run (BcmAclTable.init hw) (repeatedAdds 10 (n + 1))) "cnt1" ≠ none := by
  obtain ⟨c1, c2⟩ := repeatedAdds_counts (n + 1) 10 (BcmAclTable.init hw)
  obtain ⟨p1, p2⟩ := repeatedAdds_present n 10 (BcmAclTable.init hw)
  have h0r : getAclRangeRefCount (BcmAclTable.init hw) ⟨.SRC_L4_PORT, 100, 200⟩ = 0 := rfl
  have h0s : getAclStatRefCount (BcmAclTable.init hw) "cnt1" = 0 := rfl
  rw [h0r, iterate_incCount, if_neg (Nat.succ_ne_zero n), Nat.zero_add] at c1
  rw [h0s, iterate_incCount, if_neg (Nat.succ_ne_zero n), Nat.zero_add] at c2
  refine ⟨?_, c1, c2, p1, p2⟩
  have hfirst : (processAddedAcl (BcmAclTable.init hw) 1 (sampleEntry 10)).2.aclEntryMap_ =
      [(10, ⟨1, sampleEntry 10, [(BcmAclRange.create hw ⟨.SRC_L4_PORT, 100, 200⟩).1]⟩)] := by
    simp [processAddedAcl, sampleEntry, BcmAclTable.init, AclL4PortRange.isExactMatch,
      incRefOrCreateBcmAclRange, incRefOrCreateBcmAclStat, FlatMap.find, FlatMap.emplace,
      FlatMap.orderedInsert]
  rw [repeatedAdds_succ, run_cons]
  show (run (processAddedAcl (BcmAclTable.init hw) 1 (sampleEntry 10)).2
    (repeatedAdds 10 n)).aclEntryMap_ = _
  rw [repeatedAdds_entryMap n 10 _ _ (by rw [hfirst]; rfl), hfirst]

theorem stored_zero_range (t : BcmAclTable) (r : AclRange)
    (hp : getAclRangeIf t r ≠ none) (hc : getAclRangeRefCount t r = 0) :
    ∃ x ∈ t.aclRangeMap_, x.2.2 = 0 := by
  cases hf : FlatMap.find t.aclRangeMap_ r with
  | none => exact absurd (by simp [getAclRangeIf, hf]) hp
  | some x =>
    rw [getAclRangeRefCount_of_find t _ x hf] at hc
    exact ⟨_, FlatMap.find_mem _ _ _ hf, hc⟩

theorem stored_zero_stat (t : BcmAclTable) (n : String)
    (hp : getAclStatIf t n ≠ none) (hc : getAclStatRefCount t n = 0) :
    ∃ x ∈ t.aclStatMap_, x.2.2 = 0 := by
  cases hf : FlatMap.find t.aclStatMap_ n with
  | none => exact absurd (by simp [getAclStatIf, hf]) hp
  | some x =>
    rw [getAclStatRefCount_of_find t _ x hf] at hc
    exact ⟨_, FlatMap.find_mem _ _ _ hf, hc⟩

end BcmAclTable

/-- C4 fails as stated: `processAddedAcl` is called `2^32` times on the empty table with the
same entry of priority 10, range [100,200] and counter "cnt1". The first call returns and
adds the entry, every later call is rejected ("failed to add an existing acl entry") after
it has acquired the range and the counter once more. The entry map holds the one entry of
priority 10 after every call, so the range and the counter never have more than one user;
after the last call both are in their tables with a stored reference count of 0. -/
theorem zero_count_after_rejected_adds :
    (processAddedAcl (BcmAclTable.init sampleSwitch) 1 (sampleEntry 10)).1 = .ok () ∧
    (processAddedAcl (processAddedAcl (BcmAclTable.init sampleSwitch) 1 (sampleEntry 10)).2 1
      (sampleEntry 10)).1 = .error "failed to add an existing acl entry" ∧
    (∀ n, (run (BcmAclTable.init sampleSwitch) (repeatedAdds 10 (n + 1))).aclEntryMap_ =
      [(10, ⟨1, sampleEntry 10, [⟨1000, ⟨.SRC_L4_PORT, 100, 200⟩⟩]⟩)]) ∧
    getAclRangeIf (run (BcmAclTable.init sampleSwitch) (repeatedAdds 10 4294967296))
      ⟨.SRC_L4_PORT, 100, 200⟩ ≠ none ∧
    getAclRangeRefCount (run (BcmAclTable.init sampleSwitch) (repeatedAdds 10 4294967296))
      ⟨.SRC_L4_PORT, 100, 200⟩ = 0 ∧
    getAclStatIf (run (BcmAclTable.init sampleSwitch) (repeatedAdds 10 4294967296)) "cnt1" ≠
      none ∧
    getAclStatRefCount (run (BcmAclTable.init sampleSwitch) (repeatedAdds 10 4294967296))
      "cnt1" = 0 ∧
    (∃ x ∈ (run (BcmAclTable.init sampleSwitch) (repeatedAdds 10 4294967296)).aclRangeMap_,
      x.2.2 = 0) ∧
    (∃ x ∈ (run (BcmAclTable.init sampleSwitch) (repeatedAdds 10 4294967296)).aclStatMap_,
      x.2.2 = 0) := by
  obtain ⟨-, c1, c2, p1, p2⟩ := repeatedAdds_run 4294967295 sampleSwitch
  have e : (4294967295 + 1 : Nat) = 4294967296 := rfl
  have hmod : 4294967296 % refCountModulus = 0 := by norm_num [refCountModulus]
  rw [e] at c1 c2 p1 p2
  rw [hmod] at c1 c2
  exact ⟨rfl, rfl, fun n => (repeatedAdds_run n sampleSwitch).1, p1, c1, p2, c2,
    stored_zero_range _ _ p1 c1, stored_zero_stat _ _ p2 c2⟩

end Fboss
